import Mathlib

/-!
# The queue of `queue.c`: a circular doubly-linked list with a sentinel

The memory the queue lives in is modelled as a heap of list nodes addressed by
natural numbers.  Address `0` is `NULL`.  An `element_t` and the `list_head`
embedded in it share one address (`list_entry` is the identity on addresses),
and the string an element owns is stored with the element, as the list of its
bytes before the terminator.

The heap gives fields to every address, address `0` included: reading through
`NULL` yields a value here, it is not a trap.  The tests against `NULL` that the
source makes are all kept.

Loops that walk the links take a `fuel` argument and return `none` when it runs
out; every theorem states how much fuel is enough.
-/

namespace Queue

/-- An address; `0` is `NULL`. -/
abbrev Ptr := Nat

/-- The heap: the `next` and `prev` fields of the `list_head` at each address, the
string owned by the element at that address, and whether the block at that
address is currently allocated. -/
structure Heap where
  next : Ptr → Ptr
  prev : Ptr → Ptr
  value : Ptr → List Nat
  live : Ptr → Bool

/-- The store `p->next = v`. -/
def Heap.setNext (h : Heap) (p v : Ptr) : Heap :=
  { h with next := Function.update h.next p v }

/-- The store `p->prev = v`. -/
def Heap.setPrev (h : Heap) (p v : Ptr) : Heap :=
  { h with prev := Function.update h.prev p v }

/-- The string of the element at `p` becomes `s`. -/
def Heap.setValue (h : Heap) (p : Ptr) (s : List Nat) : Heap :=
  { h with value := Function.update h.value p s }

/-- The block at `p` becomes allocated (`b = true`) or released (`b = false`). -/
def Heap.setLive (h : Heap) (p : Ptr) (b : Bool) : Heap :=
  { h with live := Function.update h.live p b }

/-- The C library's `strcmp` on the bytes of two strings: negative, zero or
positive as the first string is below, equal to or above the second in
byte-wise lexicographic order.  Only the sign is fixed by the C standard. -/
def strcmp : List Nat → List Nat → Int
  | [], [] => 0
  | [], _ :: _ => -1
  | _ :: _, [] => 1
  | a :: as, b :: bs => if a < b then -1 else if b < a then 1 else strcmp as bs

/-- The C library's `strncpy(dst, src, n)`: exactly `n` bytes of `dst` are
written, the bytes of `src` first and NUL bytes after them. -/
def strncpy (dst : Nat → Nat) (src : List Nat) (n : Nat) : Nat → Nat :=
  fun i => if i < n then src.getD i 0 else dst i

/-! ## The helpers of `list.h` -/

/-- Modelled from the spec: `list.h` is not among the sources.  `INIT_LIST_HEAD`
makes a node point to itself in both directions (the empty queue of section 3). -/
def INIT_LIST_HEAD (h : Heap) (head : Ptr) : Heap :=
  (h.setNext head head).setPrev head head

/-- Modelled from the spec: `list.h` is not among the sources.  `list_add` links
`node` immediately after `head` (section 4.2). -/
def list_add (h : Heap) (node head : Ptr) : Heap :=
  let next := h.next head
  let h1 := h.setPrev next node
  let h2 := h1.setNext node next
  let h3 := h2.setPrev node head
  h3.setNext head node

/-- Modelled from the spec: `list.h` is not among the sources.  `list_add_tail`
links `node` immediately before `head` (section 4.2). -/
def list_add_tail (h : Heap) (node head : Ptr) : Heap :=
  let prev := h.prev head
  let h1 := h.setNext prev node
  let h2 := h1.setNext node head
  let h3 := h2.setPrev node prev
  h3.setPrev head node

/-- Modelled from the spec: `list.h` is not among the sources.  `list_del`
unlinks `node` by joining its two neighbours (section 4.3); the fields of
`node` itself are left as they were. -/
def list_del (h : Heap) (node : Ptr) : Heap :=
  let next := h.next node
  let prev := h.prev node
  let h1 := h.setPrev next prev
  h1.setNext prev next

/-- Modelled from the spec: `list.h` is not among the sources.  `list_del_init`
unlinks `node` and makes it an empty list of its own. -/
def list_del_init (h : Heap) (node : Ptr) : Heap :=
  INIT_LIST_HEAD (list_del h node) node

/-- Modelled from the spec: `list.h` is not among the sources.  `list_empty`:
the sentinel points to itself (section 3). -/
def list_empty (h : Heap) (head : Ptr) : Bool :=
  decide (h.next head = head)

/-- Modelled from the spec: `list.h` is not among the sources.
`list_is_singular`: the queue is not empty and its first node is its last. -/
def list_is_singular (h : Heap) (head : Ptr) : Bool :=
  !list_empty h head && decide (h.prev head = h.next head)

/-- Modelled from the spec: `list.h` is not among the sources.  `list_move`
unlinks `node` and links it again immediately after `head` (section 4.7). -/
def list_move (h : Heap) (node head : Ptr) : Heap :=
  list_add (list_del h node) node head

/-! ## The functions of `queue.c`

`malloc` is an oracle: the address it returns is an argument of the function
that calls it, `0` when the allocation fails. -/

/-- `q_new`: `a` is what `malloc` returns for the sentinel. -/
def q_new (h : Heap) (a : Ptr) : Ptr × Heap :=
  if a = 0 then (0, h)
  else (a, INIT_LIST_HEAD (h.setLive a true) a)

/-- `q_insert_head`: `a` is what `malloc` returns for the element and `bufOk`
tells whether the `malloc` of the string buffer succeeds. -/
def q_insert_head (h : Heap) (head : Ptr) (s : List Nat) (a : Ptr) (bufOk : Bool) :
    Bool × Heap :=
  if head = 0 then (false, h)
  else if a = 0 then (false, h)
  else
    let h1 := h.setLive a true
    if !bufOk then (false, h1.setLive a false)
    else
      let h2 := h1.setValue a s
      (true, list_add h2 a head)

/-- `q_insert_tail`: as `q_insert_head`, with `list_add_tail`. -/
def q_insert_tail (h : Heap) (head : Ptr) (s : List Nat) (a : Ptr) (bufOk : Bool) :
    Bool × Heap :=
  if head = 0 then (false, h)
  else if a = 0 then (false, h)
  else
    let h1 := h.setLive a true
    if !bufOk then (false, h1.setLive a false)
    else
      let h2 := h1.setValue a s
      (true, list_add_tail h2 a head)

/-- The two statements under `if (sp)` in `q_remove_head` and `q_remove_tail`:
`strncpy(sp, value, bufsize - 1); sp[bufsize - 1] = 0`, with `bufsize - 1`
computed in `size_t` (64 bits).

This is what the two statements do when `1 <= bufsize`.  With `bufsize = 0` the
count wraps to `SIZE_MAX` and `strncpy(sp, value, SIZE_MAX)` does not return in
the source; this function has a result there all the same, so every theorem
that says a remove returns a node takes `sp = none` or
`1 <= bufsize < 2 ^ 64`. -/
def copy_out (sp : Nat → Nat) (value : List Nat) (bufsize : Nat) : Nat → Nat :=
  let n := (bufsize + 2 ^ 64 - 1) % 2 ^ 64
  Function.update (strncpy sp value n) n 0

/-- `q_remove_head`: the result is the removed element (`0` for `NULL`), the
heap and the output buffer (`none` when `sp` is `NULL`).  With a buffer, the
result is that of the source when `1 <= bufsize` (see `copy_out`). -/
def q_remove_head (h : Heap) (head : Ptr) (sp : Option (Nat → Nat)) (bufsize : Nat) :
    Ptr × Heap × Option (Nat → Nat) :=
  if head = 0 || list_empty h head then (0, h, sp)
  else
    let remove_ele := h.next head
    let h1 := list_del h (h.next head)
    (remove_ele, h1, sp.map (fun b => copy_out b (h1.value remove_ele) bufsize))

/-- `q_remove_tail`: as `q_remove_head`, at `head->prev`. -/
def q_remove_tail (h : Heap) (head : Ptr) (sp : Option (Nat → Nat)) (bufsize : Nat) :
    Ptr × Heap × Option (Nat → Nat) :=
  if head = 0 || list_empty h head then (0, h, sp)
  else
    let remove_ele := h.prev head
    let h1 := list_del h (h.prev head)
    (remove_ele, h1, sp.map (fun b => copy_out b (h1.value remove_ele) bufsize))

/-- `q_release_element`: the string and the element are freed. -/
def q_release_element (h : Heap) (e : Ptr) : Heap :=
  h.setLive e false

/-- The loop `list_for_each (li, head) len++` of `q_size`. -/
def q_size_loop : Nat → Heap → Ptr → Ptr → Nat → Option Nat
  | 0, _, _, _, _ => none
  | fuel + 1, h, head, li, len =>
    if li ≠ head then q_size_loop fuel h head (h.next li) (len + 1)
    else some len

/-- `q_size`.  The counter is an `int` in the source; it is not bounded here
(a signed overflow has no defined result in C). -/
def q_size (fuel : Nat) (h : Heap) (head : Ptr) : Option Nat :=
  if head = 0 then some 0
  else q_size_loop fuel h head (h.next head) 0

/-- The tortoise and hare loop of `q_delete_mid`; the result is `slow`. -/
def q_delete_mid_loop : Nat → Heap → Ptr → Ptr → Ptr → Option Ptr
  | 0, _, _, _, _ => none
  | fuel + 1, h, head, slow, fast =>
    if h.next fast ≠ head && h.next (h.next fast) ≠ head then
      q_delete_mid_loop fuel h head (h.next slow) (h.next (h.next fast))
    else some slow

/-- `q_delete_mid`. -/
def q_delete_mid (fuel : Nat) (h : Heap) (head : Ptr) : Option (Bool × Heap) :=
  if head = 0 || list_empty h head then some (false, h)
  else
    match q_delete_mid_loop fuel h head head head with
    | none => none
    | some slow0 =>
      let slow := h.next slow0
      let h1 := list_del_init h slow
      some (true, q_release_element h1 slow)

/-- The loop `list_for_each_entry_safe (pos, next_pos, head, list)` of
`q_delete_dup`. -/
def q_delete_dup_loop : Nat → Heap → Ptr → Ptr → Ptr → Bool → Option Heap
  | 0, _, _, _, _, _ => none
  | fuel + 1, h, head, pos, next_pos, check_val =>
    if pos ≠ head then
      if h.next pos ≠ head && strcmp (h.value pos) (h.value next_pos) = 0 then
        let h1 := q_release_element (list_del_init h pos) pos
        q_delete_dup_loop fuel h1 head next_pos (h1.next next_pos) true
      else if check_val then
        let h1 := q_release_element (list_del_init h pos) pos
        q_delete_dup_loop fuel h1 head next_pos (h1.next next_pos) false
      else
        q_delete_dup_loop fuel h head next_pos (h.next next_pos) check_val
    else some h

/-- `q_delete_dup`. -/
def q_delete_dup (fuel : Nat) (h : Heap) (head : Ptr) : Option (Bool × Heap) :=
  if head = 0 || list_empty h head || list_is_singular h head then some (false, h)
  else
    match q_delete_dup_loop fuel h head (h.next head) (h.next (h.next head)) false with
    | none => none
    | some h1 => some (true, h1)

/-- The `for` loop of `q_swap`. -/
def q_swap_loop : Nat → Heap → Ptr → Ptr → Option Heap
  | 0, _, _, _ => none
  | fuel + 1, h, head, first =>
    if first ≠ head && h.next first ≠ head then
      let h1 := list_move h first (h.next first)
      q_swap_loop fuel h1 head (h1.next first)
    else some h

/-- `q_swap`. -/
def q_swap (fuel : Nat) (h : Heap) (head : Ptr) : Option Heap :=
  if head = 0 then some h
  else q_swap_loop fuel h head (h.next head)

/-- The `do ... while (prev_node != head)` loop of `q_reverse`. -/
def q_reverse_loop : Nat → Heap → Ptr → Ptr → Ptr → Option Heap
  | 0, _, _, _, _ => none
  | fuel + 1, h, head, prev_node, node =>
    let h1 := h.setNext prev_node (h.prev prev_node)
    let h2 := h1.setPrev prev_node node
    if node ≠ head then q_reverse_loop fuel h2 head node (h2.next node)
    else some h2

/-- `q_reverse`. -/
def q_reverse (fuel : Nat) (h : Heap) (head : Ptr) : Option Heap :=
  if head = 0 then some h
  else q_reverse_loop fuel h head head (h.next head)

/-- The store `*pptr = v` of `merge_lists`, where `pptr` is either the address
of the local variable `head` (`none`) or the address of the `next` field of a
node (`some n`).  The result is the heap and the local `head`. -/
def store_pptr (h : Heap) (head : Ptr) (pptr : Option Ptr) (v : Ptr) : Heap × Ptr :=
  match pptr with
  | none => (h, v)
  | some n => (h.setNext n v, head)

/-- The `while (l1 && l2)` loop of `merge_lists` and the two statements after
it. -/
def merge_lists_loop : Nat → Heap → Ptr → Ptr → Ptr → Option Ptr → Option (Ptr × Heap)
  | 0, _, _, _, _, _ => none
  | fuel + 1, h, l1, l2, head, pptr =>
    if l1 ≠ 0 && l2 ≠ 0 then
      if strcmp (h.value l1) (h.value l2) < 0 then
        let hs := store_pptr h head pptr l1
        merge_lists_loop fuel hs.1 (hs.1.next l1) l2 hs.2 (some l1)
      else
        let hs := store_pptr h head pptr l2
        merge_lists_loop fuel hs.1 l1 (hs.1.next l2) hs.2 (some l2)
    else
      let hs := store_pptr h head pptr (l1 ||| l2)
      some (hs.2, hs.1)

/-- `merge_lists`. -/
def merge_lists (fuel : Nat) (h : Heap) (l1 l2 : Ptr) : Option (Ptr × Heap) :=
  merge_lists_loop fuel h l1 l2 0 none

/-- The slow/fast `for` loop of `divide_list`; the result is `slow`. -/
def divide_list_loop : Nat → Heap → Ptr → Ptr → Option Ptr
  | 0, _, _, _ => none
  | fuel + 1, h, fast, slow =>
    if fast ≠ 0 && h.next fast ≠ 0 then
      divide_list_loop fuel h (h.next (h.next fast)) (h.next slow)
    else some slow

/-- `divide_list`; the fuel bounds the depth of the recursion and the length of
each loop. -/
def divide_list : Nat → Heap → Ptr → Option (Ptr × Heap)
  | 0, _, _ => none
  | fuel + 1, h, head =>
    if head = 0 || h.next head = 0 then some (head, h)
    else
      match divide_list_loop (fuel + 1) h (h.next head) head with
      | none => none
      | some slow =>
        let right := h.next slow
        let h1 := h.setNext slow 0
        match divide_list fuel h1 head with
        | none => none
        | some (left, h2) =>
          match divide_list fuel h2 right with
          | none => none
          | some (right2, h3) => merge_lists (fuel + 1) h3 left right2

/-- The `for` loop of `q_sort` that rebuilds the `prev` fields, and the three
statements after it that close the cycle. -/
def q_sort_loop : Nat → Heap → Ptr → Ptr → Ptr → Option Heap
  | 0, _, _, _, _ => none
  | fuel + 1, h, head, node, prev =>
    if h.next node ≠ 0 then
      q_sort_loop fuel (h.setPrev node prev) head (h.next node) node
    else
      let h1 := h.setPrev node prev
      let h2 := h1.setNext node head
      some (h2.setPrev head node)

/-- `q_sort`. -/
def q_sort (fuel : Nat) (h : Heap) (head : Ptr) : Option Heap :=
  if head = 0 || list_empty h head || list_is_singular h head then some h
  else
    let h1 := h.setNext (h.prev head) 0
    match divide_list fuel h1 (h1.next head) with
    | none => none
    | some (r, h2) =>
      let h3 := h2.setNext head r
      q_sort_loop fuel h3 head (h3.next head) head

/-! ## Queues in the heap -/

/-- Following `f` from `p`, the nodes met are those of `ns` in order, and then
`q`: `p` is the first node of `ns`, each node of `ns` is sent by `f` to the one
after it, and the last one to `q` (for an empty `ns`, `p` is `q`). -/
def lseg (f : Ptr → Ptr) : Ptr → List Ptr → Ptr → Prop
  | p, [], q => p = q
  | p, n :: ns, q => p = n ∧ lseg f (f n) ns q

/-- The queue with sentinel `head` holds the nodes `ns`, in traversal order
from `head->next`: the sentinel and the nodes are distinct and none is `NULL`,
the `next` links lead from the sentinel through `ns` back to the sentinel, and
the `prev` links lead through the same nodes in the opposite order. -/
def Cyc (h : Heap) (head : Ptr) (ns : List Ptr) : Prop :=
  (head :: ns).Nodup ∧ (∀ n ∈ head :: ns, n ≠ 0) ∧
    lseg h.next head (head :: ns) head ∧ lseg h.prev head (head :: ns.reverse) head

/-- Well-formedness as the specification words it: the links form a single
cycle through the sentinel and, for every node `n` in it, `n.next.prev == n`
and `n.prev.next == n`. -/
def WellFormed (h : Heap) (head : Ptr) : Prop :=
  ∃ ns : List Ptr, (head :: ns).Nodup ∧ (∀ n ∈ head :: ns, n ≠ 0) ∧
    lseg h.next head (head :: ns) head ∧
    ∀ n ∈ head :: ns, h.prev (h.next n) = n ∧ h.next (h.prev n) = n

/-- The values of a list of nodes. -/
def values (h : Heap) (ns : List Ptr) : List (List Nat) :=
  ns.map h.value

/-- Non-decreasing under `strcmp`. -/
def SortedVals (vs : List (List Nat)) : Prop :=
  vs.Pairwise (fun a b => strcmp a b ≤ 0)

/-! ## Specification-level definitions -/

/-- The list with every adjacent pair exchanged; the last entry of a list of odd
length stays where it is. -/
def swapPairs : List Ptr → List Ptr
  | a :: b :: r => b :: a :: swapPairs r
  | r => r

/-- The first test of the loop body of `q_delete_dup` at the node `x` followed by
the nodes `r`: `x` is not the last node and the next node has an equal value. -/
def dupNext (val : Ptr → List Nat) (x : Ptr) : List Ptr → Bool
  | [] => false
  | y :: _ => decide (strcmp (val x) (val y) = 0)

/-- The nodes that the loop of `q_delete_dup` keeps, of the nodes it has still to
visit, when `check_val` is `c`. -/
def ddL (val : Ptr → List Nat) : Bool → List Ptr → List Ptr
  | _, [] => []
  | c, x :: r =>
    if dupNext val x r then ddL val true r
    else if c then ddL val false r
    else x :: ddL val false r

/-- The nodes whose value differs from the value of the node before (`p`, if
there is one) and from the value of the node after. -/
def isoL (val : Ptr → List Nat) : Option (List Nat) → List Ptr → List Ptr
  | _, [] => []
  | p, x :: r =>
    if p = some (val x) ∨ r.head?.map val = some (val x) then isoL val (some (val x)) r
    else x :: isoL val (some (val x)) r

/-- The heap in which the `next` and `prev` fields of every node of `S` are
exchanged. -/
def flipLinks (h : Heap) (S : List Ptr) : Heap :=
  { h with
    next := fun p => if p ∈ S then h.prev p else h.next p
    prev := fun p => if p ∈ S then h.next p else h.prev p }

/-- The order in which `merge_lists` takes the nodes of two chains: the head of
the left chain when it is strictly below the head of the right one, the head of
the right chain otherwise. -/
def mergeL (val : Ptr → List Nat) : List Ptr → List Ptr → List Ptr
  | [], ys => ys
  | x :: xs, [] => x :: xs
  | x :: xs, y :: ys =>
    if strcmp (val x) (val y) < 0 then x :: mergeL val xs (y :: ys)
    else y :: mergeL val (x :: xs) ys

/-- The order in which `divide_list` leaves the nodes of a chain: it is cut
after the first `(n + 1) / 2` nodes, both parts are sorted, and the results are
merged. -/
def sortL (val : Ptr → List Nat) (l : List Ptr) : List Ptr :=
  if h : l.length < 2 then l
  else
    mergeL val (sortL val (l.take ((l.length + 1) / 2))) (sortL val (l.drop ((l.length + 1) / 2)))
termination_by l.length
decreasing_by
  · simp only [List.length_take]; omega
  · simp only [List.length_drop]; omega

/-- What `merge_lists_loop` has done when it returns `(r, g)`. -/
def MergePost (h : Heap) (head : Ptr) (pptr : Option Ptr) (xs ys M : List Ptr) (r : Ptr)
    (g : Heap) : Prop :=
  (pptr = none → r = M.headD 0) ∧
  (∀ t, pptr = some t → r = head ∧ g.next t = M.headD 0) ∧
  lseg g.next (M.headD 0) M 0 ∧
  (∀ n, n ∉ xs ++ ys → pptr ≠ some n → g.next n = h.next n) ∧
  g.prev = h.prev ∧ g.value = h.value ∧ g.live = h.live

/-- What `divide_list` has done to the chain `ns` when it returns `(r, g)`. -/
def SortPost (h : Heap) (ns : List Ptr) (r : Ptr) (g : Heap) : Prop :=
  lseg g.next r (sortL h.value ns) 0 ∧ (∀ n, n ∉ ns → g.next n = h.next n) ∧
    g.prev = h.prev ∧ g.value = h.value ∧ g.live = h.live

/-- A call of one of the four insert and remove functions, with its arguments
(for an insert, further what the two `malloc` calls return). -/
inductive Call where
  | insert_head (s : List Nat) (a : Ptr) (bufOk : Bool)
  | insert_tail (s : List Nat) (a : Ptr) (bufOk : Bool)
  | remove_head (sp : Option (Nat → Nat)) (bufsize : Nat)
  | remove_tail (sp : Option (Nat → Nat)) (bufsize : Nat)

/-- The heap after a sequence of calls, with the number of inserts that returned
`true` and the number of removes that returned a node. -/
structure Trace where
  heap : Heap
  inserts : Nat
  removes : Nat

/-- One call on the queue `head`. -/
def Call.step (head : Ptr) (t : Trace) : Call → Trace
  | Call.insert_head s a bufOk =>
    let r := q_insert_head t.heap head s a bufOk
    ⟨r.2, t.inserts + (if r.1 = true then 1 else 0), t.removes⟩
  | Call.insert_tail s a bufOk =>
    let r := q_insert_tail t.heap head s a bufOk
    ⟨r.2, t.inserts + (if r.1 = true then 1 else 0), t.removes⟩
  | Call.remove_head sp bufsize =>
    let r := q_remove_head t.heap head sp bufsize
    ⟨r.2.1, t.inserts, t.removes + (if r.1 ≠ 0 then 1 else 0)⟩
  | Call.remove_tail sp bufsize =>
    let r := q_remove_tail t.heap head sp bufsize
    ⟨r.2.1, t.inserts, t.removes + (if r.1 ≠ 0 then 1 else 0)⟩

/-- A sequence of calls on the queue `head`. -/
def runCalls (head : Ptr) : List Call → Trace → Trace
  | [], t => t
  | c :: cs, t => runCalls head cs (c.step head t)

/-- What `malloc` may return in the heap `h`: `NULL`, or a block that is not
allocated. -/
def mallocOk (h : Heap) (a : Ptr) : Prop :=
  a = 0 ∨ h.live a = false

/-- Every `malloc` result in a sequence of calls is one `malloc` may return in
the heap of that moment. -/
def ValidCalls (head : Ptr) : List Call → Trace → Prop
  | [], _ => True
  | Call.insert_head s a b :: cs, t =>
    mallocOk t.heap a ∧ ValidCalls head cs ((Call.insert_head s a b).step head t)
  | Call.insert_tail s a b :: cs, t =>
    mallocOk t.heap a ∧ ValidCalls head cs ((Call.insert_tail s a b).step head t)
  | c :: cs, t => ValidCalls head cs (c.step head t)

/-- The invariant of a sequence of calls on an existing queue. -/
def TraceInv (head : Ptr) (t : Trace) (ns : List Ptr) : Prop :=
  Cyc t.heap head ns ∧ (∀ n ∈ head :: ns, t.heap.live n = true) ∧
    ns.length + t.removes = t.inserts

/-- A traversal with `list_for_each` that collects the value of every element
(an observer of the queue; `queue.c` has no such function). -/
def q_values_loop : Nat → Heap → Ptr → Ptr → Option (List (List Nat))
  | 0, _, _, _ => none
  | fuel + 1, h, head, li =>
    if li ≠ head then (q_values_loop fuel h head (h.next li)).map (fun vs => h.value li :: vs)
    else some []

/-- The values read in traversal order from `head->next`. -/
def q_values (fuel : Nat) (h : Heap) (head : Ptr) : Option (List (List Nat)) :=
  q_values_loop fuel h head (h.next head)

/-- Whether a list is a segment can be computed. -/
instance lseg.decidable (f : Ptr → Ptr) : ∀ (p : Ptr) (ns : List Ptr) (q : Ptr),
    Decidable (lseg f p ns q)
  | p, [], q => inferInstanceAs (Decidable (p = q))
  | _, n :: ns, q => @instDecidableAnd _ _ _ (lseg.decidable f (f n) ns q)

/-- Whether a list is the node list of the queue can be computed. -/
instance Cyc.decidable (h : Heap) (head : Ptr) (ns : List Ptr) : Decidable (Cyc h head ns) := by
  unfold Cyc; infer_instance

/-- Sortedness of a list of values can be computed. -/
instance SortedVals.decidable (vs : List (List Nat)) : Decidable (SortedVals vs) := by
  unfold SortedVals; infer_instance

/-- A heap in which nothing is allocated. -/
def emptyHeap : Heap := ⟨fun _ => 0, fun _ => 0, fun _ => [], fun _ => false⟩

/-- The strings `ss` are inserted at the tail of the queue `head`, in blocks at
the addresses `a`, `a + 1`, ... -/
def pushAll (head : Ptr) : List (List Nat) → Ptr → Heap → Heap
  | [], _, h => h
  | s :: ss, a, h => pushAll head ss (a + 1) (q_insert_tail h head s a true).2

/-- A queue made by `q_new` at address `1` and holding the strings `ss` in
elements at the addresses `2`, `3`, ... -/
def queueOf (ss : List (List Nat)) : Heap :=
  pushAll 1 ss 2 (q_new emptyHeap 1).2

/-- Whether an address is a possible `malloc` result can be computed. -/
instance mallocOk.decidable (h : Heap) (a : Ptr) : Decidable (mallocOk h a) := by
  unfold mallocOk; infer_instance

/-- Whether a sequence of calls has possible `malloc` results can be computed. -/
instance ValidCalls.decidable (head : Ptr) : ∀ (calls : List Call) (t : Trace),
    Decidable (ValidCalls head calls t)
  | [], _ => isTrue trivial
  | Call.insert_head s a b :: cs, t =>
    @instDecidableAnd _ _ _ (ValidCalls.decidable head cs ((Call.insert_head s a b).step head t))
  | Call.insert_tail s a b :: cs, t =>
    @instDecidableAnd _ _ _ (ValidCalls.decidable head cs ((Call.insert_tail s a b).step head t))
  | Call.remove_head sp n :: cs, t =>
    ValidCalls.decidable head cs ((Call.remove_head sp n).step head t)
  | Call.remove_tail sp n :: cs, t =>
    ValidCalls.decidable head cs ((Call.remove_tail sp n).step head t)

/-- A sequence of calls: two inserts that succeed, one whose `malloc` of the
element fails, one whose `malloc` of the buffer fails, two removes that return
a node and one on the queue that is empty by then. -/
def exampleCalls : List Call :=
  [Call.insert_tail [97] 2 true, Call.insert_head [98] 3 true, Call.insert_tail [99] 0 true,
      Call.insert_head [1] 4 false, Call.remove_head none 0, Call.remove_tail none 0,
      Call.remove_tail none 0]

/-- The bytes of the C string that starts at index `i` of the buffer `b`, read
up to its terminator and through at most `k` bytes. -/
def c_string_from (b : Nat → Nat) : Nat → Nat → List Nat
  | 0, _ => []
  | k + 1, i => if b i = 0 then [] else b i :: c_string_from b k (i + 1)

/-- The buffer `b2` is the buffer `b` into which the string `v` was copied with
capacity `bufsize`: the bytes of `v` come first, as many as fit in
`bufsize - 1`, NUL bytes follow up to index `bufsize - 1`, and the bytes from
index `bufsize` on are those of `b`. -/
def Truncated (b : Nat → Nat) (v : List Nat) (bufsize : Nat) (b2 : Nat → Nat) : Prop :=
  (∀ i, i < min v.length (bufsize - 1) → v[i]? = some (b2 i)) ∧
  (∀ i, min v.length (bufsize - 1) ≤ i → i ≤ bufsize - 1 → b2 i = 0) ∧
  (∀ i, bufsize ≤ i → b2 i = b i)

/-- The two chains of the example for `merge_lists`: the nodes `1`, `2` with
the values "a", "b" and the nodes `3`, `4` with the values "a", "c". -/
def twoChains : Heap :=
  ⟨fun p => if p = 1 then 2 else if p = 3 then 4 else 0, fun _ => 0,
    fun p => if p = 1 then [97] else if p = 2 then [98] else if p = 3 then [97] else [99],
    fun _ => true⟩

/-- A null-terminated chain of the five nodes `1`, ..., `5`. -/
def fiveChain : Heap :=
  ⟨fun p => if p < 5 then p + 1 else 0, fun _ => 0, fun p => [p], fun _ => true⟩

/-! ## Lemmas and theorems -/

@[simp] theorem setNext_next (h : Heap) (p v : Ptr) : (h.setNext p v).next = Function.update h.next p v := rfl
@[simp] theorem setNext_prev (h : Heap) (p v : Ptr) : (h.setNext p v).prev = h.prev := rfl
@[simp] theorem setNext_value (h : Heap) (p v : Ptr) : (h.setNext p v).value = h.value := rfl
@[simp] theorem setNext_live (h : Heap) (p v : Ptr) : (h.setNext p v).live = h.live := rfl
@[simp] theorem setPrev_next (h : Heap) (p v : Ptr) : (h.setPrev p v).next = h.next := rfl
@[simp] theorem setPrev_prev (h : Heap) (p v : Ptr) : (h.setPrev p v).prev = Function.update h.prev p v := rfl
@[simp] theorem setPrev_value (h : Heap) (p v : Ptr) : (h.setPrev p v).value = h.value := rfl
@[simp] theorem setPrev_live (h : Heap) (p v : Ptr) : (h.setPrev p v).live = h.live := rfl
@[simp] theorem setValue_next (h : Heap) (p : Ptr) (s : List Nat) : (h.setValue p s).next = h.next := rfl
@[simp] theorem setValue_prev (h : Heap) (p : Ptr) (s : List Nat) : (h.setValue p s).prev = h.prev := rfl
@[simp] theorem setValue_value (h : Heap) (p : Ptr) (s : List Nat) :
    (h.setValue p s).value = Function.update h.value p s := rfl
@[simp] theorem setValue_live (h : Heap) (p : Ptr) (s : List Nat) : (h.setValue p s).live = h.live := rfl
@[simp] theorem setLive_next (h : Heap) (p : Ptr) (b : Bool) : (h.setLive p b).next = h.next := rfl
@[simp] theorem setLive_prev (h : Heap) (p : Ptr) (b : Bool) : (h.setLive p b).prev = h.prev := rfl
@[simp] theorem setLive_value (h : Heap) (p : Ptr) (b : Bool) : (h.setLive p b).value = h.value := rfl
@[simp] theorem setLive_live (h : Heap) (p : Ptr) (b : Bool) :
    (h.setLive p b).live = Function.update h.live p b := rfl

theorem Heap.ext_fields {h g : Heap} (h1 : h.next = g.next) (h2 : h.prev = g.prev)
    (h3 : h.value = g.value) (h4 : h.live = g.live) : h = g := by
  cases h; cases g; simp_all

@[simp] theorem lseg_nil (f : Ptr → Ptr) (p q : Ptr) : lseg f p [] q ↔ p = q := Iff.rfl

@[simp] theorem lseg_cons (f : Ptr → Ptr) (p n q : Ptr) (ns : List Ptr) :
    lseg f p (n :: ns) q ↔ p = n ∧ lseg f (f n) ns q := Iff.rfl

theorem lseg_append (f : Ptr → Ptr) (xs ys : List Ptr) (p q : Ptr) :
    lseg f p (xs ++ ys) q ↔ ∃ m, lseg f p xs m ∧ lseg f m ys q := by
  induction xs generalizing p with
  | nil => simp
  | cons x xs ih =>
    simp only [List.cons_append, lseg_cons, ih]
    constructor
    · rintro ⟨rfl, m, h1, h2⟩; exact ⟨m, ⟨rfl, h1⟩, h2⟩
    · rintro ⟨m, ⟨rfl, h1⟩, h2⟩; exact ⟨rfl, m, h1, h2⟩

theorem lseg_congr {f g : Ptr → Ptr} {ns : List Ptr} (hfg : ∀ x ∈ ns, f x = g x) (p q : Ptr) :
    lseg f p ns q ↔ lseg g p ns q := by
  induction ns generalizing p with
  | nil => simp
  | cons n ns ih =>
    simp only [lseg_cons]
    rw [hfg n (List.mem_cons_self _ _), ih (fun x hx => hfg x (List.mem_cons_of_mem _ hx))]

theorem lseg_update {f : Ptr → Ptr} {ns : List Ptr} {x : Ptr} (hx : x ∉ ns) (v p q : Ptr) :
    lseg (Function.update f x v) p ns q ↔ lseg f p ns q := by
  apply lseg_congr
  intro y hy
  have : y ≠ x := fun e => hx (e ▸ hy)
  simp [Function.update_noteq this]

/-- The successor of the first node of a segment. -/
theorem lseg_succ {f : Ptr → Ptr} {p x q : Ptr} {ys : List Ptr} (hl : lseg f p (x :: ys) q) :
    f x = ys.headD q := by
  cases ys with
  | nil => simpa using hl.2
  | cons y ys => simpa using hl.2.1

theorem lseg_erase {f : Ptr → Ptr} {A : List Ptr} {P x p q : Ptr} {ys : List Ptr}
    (hl : lseg f p (A ++ P :: x :: ys) q) (hA : P ∉ A) (hy : P ∉ ys) :
    lseg (Function.update f P (f x)) p (A ++ P :: ys) q := by
  rw [lseg_append] at hl ⊢
  obtain ⟨m, h1, h2⟩ := hl
  refine ⟨m, (lseg_update hA _ _ _).mpr h1, ?_⟩
  simp only [lseg_cons, Function.update_same] at h2 ⊢
  exact ⟨h2.1, (lseg_update hy _ _ _).mpr h2.2.2⟩

theorem lseg_insert {f : Ptr → Ptr} {A : List Ptr} {P x p q : Ptr} {ys : List Ptr}
    (hl : lseg f p (A ++ P :: ys) q) (hA : P ∉ A) (hy : P ∉ ys)
    (hxA : x ∉ A) (hxy : x ∉ ys) (hxP : x ≠ P) :
    lseg (Function.update (Function.update f x (f P)) P x) p (A ++ P :: x :: ys) q := by
  rw [lseg_append] at hl ⊢
  obtain ⟨m, h1, h2⟩ := hl
  refine ⟨m, (lseg_update hA _ _ _).mpr ((lseg_update hxA _ _ _).mpr h1), ?_⟩
  simp only [lseg_cons, Function.update_same, Function.update_noteq hxP] at h2 ⊢
  exact ⟨h2.1, trivial, (lseg_update hy _ _ _).mpr ((lseg_update hxy _ _ _).mpr h2.2)⟩

/-- What follows the first node of a segment. -/
theorem lseg_succ_cons {f : Ptr → Ptr} {p x q : Ptr} {ys : List Ptr}
    (hl : lseg f p (x :: ys) q) : ∃ r, ys ++ [q] = f x :: r := by
  cases ys with
  | nil => exact ⟨[], by simp [hl.2.symm]⟩
  | cons y ys => exact ⟨ys ++ [q], by simp [hl.2.1.symm]⟩

theorem lseg_mid {f : Ptr → Ptr} {A : List Ptr} {P x p q : Ptr} {ys : List Ptr}
    (hl : lseg f p (A ++ P :: x :: ys) q) : f P = x := by
  rw [lseg_append] at hl
  obtain ⟨m, _, h2⟩ := hl
  exact h2.2.1

theorem cons_eq_concat (a : Ptr) (l : List Ptr) : ∃ A P, a :: l = A ++ [P] := by
  rcases List.eq_nil_or_concat (a :: l) with h | ⟨A, P, h⟩
  · simp at h
  · exact ⟨A, P, by simpa using h⟩

/-- The neighbours of a node of the queue. -/
theorem Cyc.split {h : Heap} {head x : Ptr} {pre post : List Ptr}
    (hc : Cyc h head (pre ++ x :: post)) :
    ∃ A P B N, head :: pre = A ++ [P] ∧ head :: post.reverse = B ++ [N] ∧
      h.next P = x ∧ h.prev x = P ∧ h.next x = N ∧ h.prev N = x := by
  obtain ⟨A, P, hA⟩ := cons_eq_concat head pre
  obtain ⟨B, N, hB⟩ := cons_eq_concat head post.reverse
  obtain ⟨_, _, hn, hp⟩ := hc
  have e1 : head :: (pre ++ x :: post) = A ++ P :: x :: post := by
    rw [← List.cons_append, hA]; simp
  have e2 : head :: (pre ++ x :: post).reverse = B ++ N :: x :: pre.reverse := by
    rw [List.reverse_append, List.reverse_cons, List.append_assoc, ← List.cons_append, hB]; simp
  rw [e1] at hn
  rw [e2] at hp
  refine ⟨A, P, B, N, hA, hB, lseg_mid hn, ?_, ?_, lseg_mid hp⟩
  · rw [show B ++ N :: x :: pre.reverse = (B ++ [N]) ++ x :: pre.reverse by simp, lseg_append] at hp
    obtain ⟨m, _, h2⟩ := hp
    obtain ⟨r, hr⟩ := lseg_succ_cons h2
    have : (head :: pre).reverse = h.prev x :: r := by simpa using hr
    rw [hA] at this
    simp at this
    exact this.1.symm
  · rw [show A ++ P :: x :: post = (A ++ [P]) ++ x :: post by simp, lseg_append] at hn
    obtain ⟨m, _, h2⟩ := hn
    obtain ⟨r, hr⟩ := lseg_succ_cons h2
    have e3 : (head :: post.reverse).reverse = h.next x :: r := by simpa using hr
    rw [hB] at e3
    simp at e3
    exact e3.1.symm

theorem Cyc.congr {h g : Heap} {head : Ptr} {ns : List Ptr} (hc : Cyc h head ns)
    (h1 : g.next = h.next) (h2 : g.prev = h.prev) : Cyc g head ns := by
  unfold Cyc at *
  rw [h1, h2]; exact hc

theorem Cyc.list_del {h : Heap} {head x : Ptr} {pre post : List Ptr}
    (hc : Cyc h head (pre ++ x :: post)) : Cyc (list_del h x) head (pre ++ post) := by
  obtain ⟨A, P, B, N, hA, hB, h1, h2, h3, h4⟩ := hc.split
  obtain ⟨hnd, hnz, hn, hp⟩ := hc
  have e1 : head :: (pre ++ x :: post) = A ++ P :: x :: post := by
    rw [← List.cons_append, hA]; simp
  have e2 : head :: (pre ++ x :: post).reverse = B ++ N :: x :: pre.reverse := by
    rw [List.reverse_append, List.reverse_cons, List.append_assoc, ← List.cons_append, hB]; simp
  have e3 : head :: (pre ++ post) = A ++ P :: post := by
    rw [← List.cons_append, hA]; simp
  have e4 : head :: (pre ++ post).reverse = B ++ N :: pre.reverse := by
    rw [List.reverse_append, ← List.cons_append, hB]; simp
  have hnd2 : (B ++ N :: x :: pre.reverse).Nodup := by
    rw [← e2]
    refine List.nodup_cons.mpr ⟨?_, ?_⟩
    · have := (List.nodup_cons.mp hnd).1
      simp at this ⊢; tauto
    · exact List.nodup_reverse.mpr (List.nodup_cons.mp hnd).2
  refine ⟨?_, ?_, ?_, ?_⟩
  · have : (head :: (pre ++ post)).Sublist (head :: (pre ++ x :: post)) := by
      simp
    exact hnd.sublist this
  · intro n hn'
    apply hnz
    simp at hn' ⊢
    tauto
  · rw [e1] at hn hnd
    rw [e3]
    simp only [Queue.list_del, setNext_next, setPrev_next, h2, h3]
    rw [← h3]
    apply lseg_erase hn
    · intro hm; rw [List.nodup_append] at hnd; exact hnd.2.2 hm (List.mem_cons_self _ _)
    · intro hm; simp [List.nodup_append] at hnd; tauto
  · rw [e2] at hp
    rw [e4]
    simp only [Queue.list_del, setNext_prev, setPrev_prev, h2, h3]
    rw [← h2]
    apply lseg_erase hp
    · intro hm; rw [List.nodup_append] at hnd2; exact hnd2.2.2 hm (List.mem_cons_self _ _)
    · intro hm; simp [List.nodup_append] at hnd2 hm; tauto

/-- The two nodes around a gap of the queue are linked to each other. -/
theorem Cyc.gap {h : Heap} {head : Ptr} {pre post A B : List Ptr} {P N : Ptr}
    (hc : Cyc h head (pre ++ post)) (hA : head :: pre = A ++ [P])
    (hB : head :: post.reverse = B ++ [N]) : h.next P = N ∧ h.prev N = P := by
  obtain ⟨_, _, hn, hp⟩ := hc
  have e1 : head :: (pre ++ post) = A ++ P :: post := by
    rw [← List.cons_append, hA]; simp
  have e2 : head :: (pre ++ post).reverse = B ++ N :: pre.reverse := by
    rw [List.reverse_append, ← List.cons_append, hB]; simp
  rw [e1, lseg_append] at hn
  rw [e2, lseg_append] at hp
  obtain ⟨m, _, hn2⟩ := hn
  obtain ⟨m2, _, hp2⟩ := hp
  obtain ⟨r, hr⟩ := lseg_succ_cons hn2
  obtain ⟨r2, hr2⟩ := lseg_succ_cons hp2
  have e3 : (head :: post.reverse).reverse = h.next P :: r := by simpa using hr
  have e4 : (head :: pre).reverse = h.prev N :: r2 := by simpa using hr2
  rw [hB] at e3
  rw [hA] at e4
  simp at e3 e4
  exact ⟨e3.1.symm, e4.1.symm⟩

theorem Cyc.nodup_rev {h : Heap} {head : Ptr} {ns : List Ptr} (hc : Cyc h head ns) :
    (head :: ns.reverse).Nodup := by
  have hnd := hc.1
  refine List.nodup_cons.mpr ⟨?_, List.nodup_reverse.mpr (List.nodup_cons.mp hnd).2⟩
  have := (List.nodup_cons.mp hnd).1
  simpa using this

/-- Linking a fresh node into a gap of the queue, given the next and prev
functions that result. -/
theorem Cyc.insert_aux {h g : Heap} {head x : Ptr} {pre post A B : List Ptr} {P N : Ptr}
    (hc : Cyc h head (pre ++ post)) (hA : head :: pre = A ++ [P])
    (hB : head :: post.reverse = B ++ [N]) (hx : x ∉ head :: (pre ++ post)) (hx0 : x ≠ 0)
    (hgn : g.next = Function.update (Function.update h.next x (h.next P)) P x)
    (hgp : g.prev = Function.update (Function.update h.prev x (h.prev N)) N x) :
    Cyc g head (pre ++ x :: post) := by
  have hnd2 := hc.nodup_rev
  obtain ⟨hnd, hnz, hn, hp⟩ := hc
  have e1 : head :: (pre ++ post) = A ++ P :: post := by
    rw [← List.cons_append, hA]; simp
  have e2 : head :: (pre ++ post).reverse = B ++ N :: pre.reverse := by
    rw [List.reverse_append, ← List.cons_append, hB]; simp
  have e3 : head :: (pre ++ x :: post) = A ++ P :: x :: post := by
    rw [← List.cons_append, hA]; simp
  have e4 : head :: (pre ++ x :: post).reverse = B ++ N :: x :: pre.reverse := by
    rw [List.reverse_append, List.reverse_cons, List.append_assoc, ← List.cons_append, hB]; simp
  refine ⟨?_, ?_, ?_, ?_⟩
  · have hp : (head :: (pre ++ x :: post)).Perm (x :: head :: (pre ++ post)) := by
      refine (List.Perm.cons head List.perm_middle).trans (List.Perm.swap _ _ _)
    exact hp.nodup_iff.mpr (List.nodup_cons.mpr ⟨hx, hnd⟩)
  · intro n hn'
    have : n = x ∨ n ∈ head :: (pre ++ post) := by
      simp at hn' ⊢; tauto
    rcases this with rfl | hm
    · exact hx0
    · exact hnz n hm
  · rw [e1] at hn hnd hx
    rw [e3, hgn]
    apply lseg_insert hn
    · intro hm; rw [List.nodup_append] at hnd; exact hnd.2.2 hm (List.mem_cons_self _ _)
    · intro hm; simp [List.nodup_append] at hnd; tauto
    · intro hm; exact hx (List.mem_append_left _ hm)
    · intro hm; apply hx; simp [hm]
    · intro e; apply hx; simp [e]
  · rw [e2] at hp hnd2
    have hx2 : x ∉ B ++ N :: pre.reverse := by
      rw [← e2]; simp at hx ⊢; tauto
    rw [e4, hgp]
    apply lseg_insert hp
    · intro hm; rw [List.nodup_append] at hnd2; exact hnd2.2.2 hm (List.mem_cons_self _ _)
    · intro hm; simp [List.nodup_append] at hnd2 hm; tauto
    · intro hm; exact hx2 (List.mem_append_left _ hm)
    · intro hm; apply hx2; simp at hm ⊢; tauto
    · intro e; apply hx2; simp [e]

theorem Cyc.list_add {h : Heap} {head x : Ptr} {pre post A : List Ptr} {P : Ptr}
    (hc : Cyc h head (pre ++ post)) (hA : head :: pre = A ++ [P])
    (hx : x ∉ head :: (pre ++ post)) (hx0 : x ≠ 0) :
    Cyc (Queue.list_add h x P) head (pre ++ x :: post) := by
  obtain ⟨B, N, hB⟩ := cons_eq_concat head post.reverse
  obtain ⟨g1, g2⟩ := hc.gap hA hB
  have hxN : N ≠ x := by
    intro e
    have : N ∈ head :: post.reverse := by rw [hB]; simp
    apply hx; simp at this ⊢; rw [← e]; tauto
  apply hc.insert_aux hA hB hx hx0
  · simp [Queue.list_add]
  · simp only [Queue.list_add, setNext_prev, setPrev_prev, g1, g2]
    exact Function.update_comm hxN _ _ _

theorem Cyc.list_add_tail {h : Heap} {head x : Ptr} {pre post B : List Ptr} {N : Ptr}
    (hc : Cyc h head (pre ++ post)) (hB : head :: post.reverse = B ++ [N])
    (hx : x ∉ head :: (pre ++ post)) (hx0 : x ≠ 0) :
    Cyc (Queue.list_add_tail h x N) head (pre ++ x :: post) := by
  obtain ⟨A, P, hA⟩ := cons_eq_concat head pre
  obtain ⟨g1, g2⟩ := hc.gap hA hB
  have hxP : P ≠ x := by
    intro e
    have : P ∈ head :: pre := by rw [hA]; simp
    apply hx; simp at this ⊢; rw [← e]; tauto
  apply hc.insert_aux hA hB hx hx0
  · simp only [Queue.list_add_tail, setNext_next, setPrev_next, g1, g2]
    exact Function.update_comm hxP _ _ _
  · simp [Queue.list_add_tail]

theorem nil_or_snoc (l : List Ptr) : l = [] ∨ ∃ r y, l = r ++ [y] := by
  rcases List.eq_nil_or_concat l with h | ⟨A, P, h⟩
  · exact Or.inl h
  · exact Or.inr ⟨A, P, by simpa using h⟩

theorem Cyc.head_ne_zero {h : Heap} {head : Ptr} {ns : List Ptr} (hc : Cyc h head ns) :
    head ≠ 0 := hc.2.1 head (List.mem_cons_self _ _)

theorem Cyc.next_head_cons {h : Heap} {head x : Ptr} {r : List Ptr} (hc : Cyc h head (x :: r)) :
    h.next head = x := hc.2.2.1.2.1

theorem Cyc.next_head_nil {h : Heap} {head : Ptr} (hc : Cyc h head []) :
    h.next head = head := hc.2.2.1.2

theorem Cyc.prev_head_nil {h : Heap} {head : Ptr} (hc : Cyc h head []) :
    h.prev head = head := hc.2.2.2.2

theorem Cyc.prev_head_concat {h : Heap} {head x : Ptr} {r : List Ptr}
    (hc : Cyc h head (r ++ [x])) : h.prev head = x := by
  have := hc.2.2.2
  simp only [List.reverse_append, List.reverse_cons, List.reverse_nil, List.nil_append,
    List.cons_append, lseg_cons] at this
  exact this.2.1

theorem Cyc.head_ne_of_mem {h : Heap} {head x : Ptr} {ns : List Ptr} (hc : Cyc h head ns)
    (hx : x ∈ ns) : x ≠ head := by
  intro e; subst e
  exact (List.nodup_cons.mp hc.1).1 hx

theorem Cyc.list_empty {h : Heap} {head : Ptr} {ns : List Ptr} (hc : Cyc h head ns) :
    Queue.list_empty h head = decide (ns = []) := by
  cases ns with
  | nil => simp [Queue.list_empty, hc.next_head_nil]
  | cons x r =>
    simp [Queue.list_empty, hc.next_head_cons]
    exact hc.head_ne_of_mem (List.mem_cons_self _ _)

theorem Cyc.list_is_singular {h : Heap} {head : Ptr} {ns : List Ptr} (hc : Cyc h head ns) :
    Queue.list_is_singular h head = decide (ns.length = 1) := by
  unfold Queue.list_is_singular
  rw [hc.list_empty]
  cases ns with
  | nil => simp
  | cons x r =>
    rcases nil_or_snoc r with rfl | ⟨r2, y, rfl⟩
    · have := hc.prev_head_concat (r := [])
      simp [this, hc.next_head_cons]
    · have hp : h.prev head = y := by
        have := hc
        rw [show x :: (r2 ++ [y]) = (x :: r2) ++ [y] by simp] at this
        exact this.prev_head_concat
      have hxy : y ≠ x := by
        have := (List.nodup_cons.mp hc.1).2
        simp at this
        intro e; exact this.1.2 e.symm
      simp [hp, hc.next_head_cons, hxy]

theorem q_size_loop_eq {f : Ptr → Ptr} (h : Heap) (hf : h.next = f) (head : Ptr) :
    ∀ (ns : List Ptr) (p len fuel : Nat), lseg f p ns head → head ∉ ns → ns.length < fuel →
      q_size_loop fuel h head p len = some (len + ns.length) := by
  intro ns
  induction ns with
  | nil =>
    intro p len fuel hl _ hfu
    cases fuel with
    | zero => simp at hfu
    | succ fuel => simp at hl; simp [q_size_loop, hl]
  | cons n ns ih =>
    intro p len fuel hl hh hfu
    cases fuel with
    | zero => simp at hfu
    | succ fuel =>
      obtain ⟨rfl, hl2⟩ := hl
      have hne : p ≠ head := by intro e; apply hh; simp [e]
      simp only [q_size_loop, ne_eq, hne, not_false_eq_true, if_true, hf]
      rw [ih _ _ _ hl2 (fun hm => hh (List.mem_cons_of_mem _ hm)) (by simpa using hfu)]
      simp; omega

theorem Cyc.q_size {h : Heap} {head : Ptr} {ns : List Ptr} (hc : Cyc h head ns) (fuel : Nat)
    (hfu : ns.length < fuel) : Queue.q_size fuel h head = some ns.length := by
  unfold Queue.q_size
  rw [if_neg hc.head_ne_zero]
  have := q_size_loop_eq h rfl head ns (h.next head) 0 fuel hc.2.2.1.2
    (List.nodup_cons.mp hc.1).1 hfu
  simpa using this

theorem q_insert_head_ok {h : Heap} {head a : Ptr} {s : List Nat} {b : Bool}
    (hr : (q_insert_head h head s a b).1 = true) : head ≠ 0 ∧ a ≠ 0 ∧ b = true := by
  unfold q_insert_head at hr
  by_cases h1 : head = 0
  · simp [h1] at hr
  by_cases h2 : a = 0
  · simp [h1, h2] at hr
  cases b
  · simp [h1, h2] at hr
  · exact ⟨h1, h2, rfl⟩

theorem q_insert_tail_ok {h : Heap} {head a : Ptr} {s : List Nat} {b : Bool}
    (hr : (q_insert_tail h head s a b).1 = true) : head ≠ 0 ∧ a ≠ 0 ∧ b = true := by
  unfold q_insert_tail at hr
  by_cases h1 : head = 0
  · simp [h1] at hr
  by_cases h2 : a = 0
  · simp [h1, h2] at hr
  cases b
  · simp [h1, h2] at hr
  · exact ⟨h1, h2, rfl⟩

theorem q_insert_head_eq {h : Heap} {head a : Ptr} (s : List Nat) (h1 : head ≠ 0) (h2 : a ≠ 0) :
    q_insert_head h head s a true =
      (true, list_add ((h.setLive a true).setValue a s) a head) := by
  simp [q_insert_head, h1, h2]

theorem q_insert_tail_eq {h : Heap} {head a : Ptr} (s : List Nat) (h1 : head ≠ 0) (h2 : a ≠ 0) :
    q_insert_tail h head s a true =
      (true, list_add_tail ((h.setLive a true).setValue a s) a head) := by
  simp [q_insert_tail, h1, h2]

@[simp] theorem list_add_value (h : Heap) (x p : Ptr) : (list_add h x p).value = h.value := rfl
@[simp] theorem list_add_live (h : Heap) (x p : Ptr) : (list_add h x p).live = h.live := rfl
@[simp] theorem list_add_tail_value (h : Heap) (x p : Ptr) :
    (list_add_tail h x p).value = h.value := rfl
@[simp] theorem list_add_tail_live (h : Heap) (x p : Ptr) :
    (list_add_tail h x p).live = h.live := rfl
@[simp] theorem list_del_value (h : Heap) (x : Ptr) : (list_del h x).value = h.value := rfl
@[simp] theorem list_del_live (h : Heap) (x : Ptr) : (list_del h x).live = h.live := rfl

theorem Cyc.insert_head {h : Heap} {head a : Ptr} {ns : List Ptr} (hc : Cyc h head ns)
    (s : List Nat) (ha : a ≠ 0) (hfresh : a ∉ head :: ns) :
    Cyc (q_insert_head h head s a true).2 head (a :: ns) := by
  rw [q_insert_head_eq s hc.head_ne_zero ha]
  have hc2 : Cyc ((h.setLive a true).setValue a s) head ([] ++ ns) := hc.congr rfl rfl
  exact hc2.list_add (A := []) (P := head) rfl hfresh ha

theorem Cyc.insert_tail {h : Heap} {head a : Ptr} {ns : List Ptr} (hc : Cyc h head ns)
    (s : List Nat) (ha : a ≠ 0) (hfresh : a ∉ head :: ns) :
    Cyc (q_insert_tail h head s a true).2 head (ns ++ [a]) := by
  rw [q_insert_tail_eq s hc.head_ne_zero ha]
  have hc2 : Cyc ((h.setLive a true).setValue a s) head (ns ++ []) := by
    simpa using hc.congr (g := (h.setLive a true).setValue a s) rfl rfl
  exact hc2.list_add_tail (B := []) (N := head) rfl (by simpa using hfresh) ha

theorem q_insert_head_value {h : Heap} {head a : Ptr} (s : List Nat) (h1 : head ≠ 0)
    (h2 : a ≠ 0) : (q_insert_head h head s a true).2.value = Function.update h.value a s := by
  rw [q_insert_head_eq s h1 h2]; simp

theorem q_insert_tail_value {h : Heap} {head a : Ptr} (s : List Nat) (h1 : head ≠ 0)
    (h2 : a ≠ 0) : (q_insert_tail h head s a true).2.value = Function.update h.value a s := by
  rw [q_insert_tail_eq s h1 h2]; simp

theorem q_remove_head_eq {h : Heap} {head x : Ptr} {r : List Ptr} (hc : Cyc h head (x :: r))
    (sp : Option (Nat → Nat)) (bufsize : Nat) :
    q_remove_head h head sp bufsize =
      (x, list_del h x, sp.map (fun b => copy_out b (h.value x) bufsize)) := by
  simp [q_remove_head, hc.head_ne_zero, hc.list_empty, hc.next_head_cons]

theorem q_remove_tail_eq {h : Heap} {head x : Ptr} {r : List Ptr} (hc : Cyc h head (r ++ [x]))
    (sp : Option (Nat → Nat)) (bufsize : Nat) :
    q_remove_tail h head sp bufsize =
      (x, list_del h x, sp.map (fun b => copy_out b (h.value x) bufsize)) := by
  simp [q_remove_tail, hc.head_ne_zero, hc.list_empty, hc.prev_head_concat]

theorem Cyc.remove_head {h : Heap} {head x : Ptr} {r : List Ptr} (hc : Cyc h head (x :: r))
    (sp : Option (Nat → Nat)) (bufsize : Nat) :
    Cyc (q_remove_head h head sp bufsize).2.1 head r := by
  rw [q_remove_head_eq hc]
  exact Cyc.list_del (show Cyc h head ([] ++ x :: r) from hc)

theorem Cyc.remove_tail {h : Heap} {head x : Ptr} {r : List Ptr} (hc : Cyc h head (r ++ [x]))
    (sp : Option (Nat → Nat)) (bufsize : Nat) :
    Cyc (q_remove_tail h head sp bufsize).2.1 head r := by
  rw [q_remove_tail_eq hc]
  simpa using Cyc.list_del (show Cyc h head (r ++ x :: []) from hc)

/-- Stores into nodes outside the queue leave it as it is. -/
theorem Cyc.frame {h g : Heap} {head : Ptr} {ns : List Ptr} (hc : Cyc h head ns)
    (h1 : ∀ x ∈ head :: ns, g.next x = h.next x) (h2 : ∀ x ∈ head :: ns, g.prev x = h.prev x) :
    Cyc g head ns := by
  obtain ⟨hnd, hnz, hn, hp⟩ := hc
  refine ⟨hnd, hnz, (lseg_congr h1 _ _).mpr hn, ?_⟩
  refine (lseg_congr ?_ _ _).mpr hp
  intro x hx
  apply h2
  simpa using hx

theorem Cyc.list_del_init {h : Heap} {head x : Ptr} {pre post : List Ptr}
    (hc : Cyc h head (pre ++ x :: post)) :
    Cyc (Queue.list_del_init h x) head (pre ++ post) := by
  have hx : x ∉ head :: (pre ++ post) := by
    have := hc.1
    intro hm
    simp [List.nodup_append] at this hm
    tauto
  apply hc.list_del.frame
  · intro y hy
    have : y ≠ x := fun e => hx (e ▸ hy)
    simp [Queue.list_del_init, INIT_LIST_HEAD, Function.update_noteq this]
  · intro y hy
    have : y ≠ x := fun e => hx (e ▸ hy)
    simp [Queue.list_del_init, INIT_LIST_HEAD, Function.update_noteq this]

theorem Cyc.next_mid {h : Heap} {head x : Ptr} {pre post : List Ptr}
    (hc : Cyc h head (pre ++ x :: post)) : h.next x = post.headD head := by
  have := hc.2.2.1
  rw [← List.cons_append, lseg_append] at this
  obtain ⟨m, _, h2⟩ := this
  exact lseg_succ h2

theorem q_delete_mid_loop_eq (h : Heap) (head : Ptr) :
    ∀ (fuel : Nat) (F S : List Ptr) (slow fast : Ptr),
      lseg h.next (h.next slow) S head → lseg h.next (h.next fast) F head → head ∉ F →
      F.length / 2 < fuel → F.length / 2 ≤ S.length →
      ∃ slow2, q_delete_mid_loop fuel h head slow fast = some slow2 ∧
        lseg h.next (h.next slow2) (S.drop (F.length / 2)) head := by
  intro fuel
  induction fuel with
  | zero => intro F S slow fast _ _ _ hf; simp at hf
  | succ fuel ih =>
    intro F S slow fast hS hF hh hf hk
    match F, hF, hh, hf, hk with
    | [], hF, _, _, _ =>
      simp at hF
      exact ⟨slow, by simp [q_delete_mid_loop, hF], by simpa using hS⟩
    | [x], hF, hh, _, _ =>
      simp at hF
      refine ⟨slow, ?_, by simpa using hS⟩
      simp [q_delete_mid_loop, hF.1, hF.2]
    | x :: y :: F2, hF, hh, hf, hk =>
      simp only [lseg_cons] at hF
      obtain ⟨e1, e2, hF2⟩ := hF
      have hx : x ≠ head := by intro e; apply hh; simp [e]
      have hy : y ≠ head := by intro e; apply hh; simp [e]
      have hlen : (x :: y :: F2).length / 2 = F2.length / 2 + 1 := by
        simp only [List.length_cons]; omega
      rw [hlen] at hf hk ⊢
      match S, hS, hk with
      | [], _, hk => simp at hk
      | s :: S2, hS, hk =>
        simp only [lseg_cons] at hS
        obtain ⟨e3, hS2⟩ := hS
        obtain ⟨slow2, r1, r2⟩ := ih F2 S2 s y (by rw [← e3] at hS2; rw [← e3]; exact hS2) hF2
          (fun hm => hh (by simp [hm])) (by omega) (by simpa using hk)
        refine ⟨slow2, ?_, by simpa using r2⟩
        simp only [q_delete_mid_loop]
        rw [e1]
        simp only [ne_eq, hx, not_false_eq_true, decide_True, e2, hy, Bool.and_self, if_true]
        rw [e3]; exact r1

theorem q_delete_mid_correct {h : Heap} {head : Ptr} {ns : List Ptr} (hc : Cyc h head ns)
    (hne : ns ≠ []) (fuel : Nat) (hf : ns.length / 2 < fuel) :
    ∃ x post, ns.drop (ns.length / 2) = x :: post ∧
      q_delete_mid fuel h head = some (true, q_release_element (list_del_init h x) x) ∧
      Cyc (q_release_element (list_del_init h x) x) head (ns.eraseIdx (ns.length / 2)) := by
  have hlen : 0 < ns.length := List.length_pos.mpr hne
  have hk : ns.length / 2 < ns.length := by omega
  obtain ⟨slow2, r1, r2⟩ := q_delete_mid_loop_eq h head fuel ns ns head head hc.2.2.1.2
    hc.2.2.1.2 (List.nodup_cons.mp hc.1).1 hf (by omega)
  obtain ⟨x, post, hd⟩ : ∃ x post, ns.drop (ns.length / 2) = x :: post := by
    cases hd2 : ns.drop (ns.length / 2) with
    | nil => simp at hd2; omega
    | cons x post => exact ⟨x, post, rfl⟩
  rw [hd] at r2
  have hx : h.next slow2 = x := r2.1
  have hsplit : ns = ns.take (ns.length / 2) ++ x :: post := by
    rw [← hd]; simp
  have herase : ns.eraseIdx (ns.length / 2) = ns.take (ns.length / 2) ++ post := by
    rw [List.eraseIdx_eq_take_drop_succ]
    congr 1
    have : ns.drop (ns.length / 2 + 1) = (ns.drop (ns.length / 2)).drop 1 := by simp [Nat.add_comm]
    rw [this, hd]; simp
  refine ⟨x, post, hd, ?_, ?_⟩
  · simp [q_delete_mid, hc.head_ne_zero, hc.list_empty, hne, r1, hx]
  · rw [herase]
    have hc2 := hc
    rw [hsplit] at hc2
    exact hc2.list_del_init.congr rfl rfl

theorem q_swap_loop_correct (head : Ptr) :
    ∀ (fuel : Nat) (h : Heap) (pre rest : List Ptr), Cyc h head (pre ++ rest) →
      rest.length < fuel →
      ∃ g, q_swap_loop fuel h head (rest.headD head) = some g ∧
        Cyc g head (pre ++ swapPairs rest) ∧ g.value = h.value ∧ g.live = h.live := by
  intro fuel
  induction fuel with
  | zero => intro h pre rest _ hf; simp at hf
  | succ fuel ih =>
    intro h pre rest hc hf
    match rest, hc, hf with
    | [], hc, _ =>
      exact ⟨h, by simp [q_swap_loop], by simpa [swapPairs] using hc, rfl, rfl⟩
    | [a], hc, _ =>
      refine ⟨h, ?_, by simpa [swapPairs] using hc, rfl, rfl⟩
      have := hc.next_mid
      simp [q_swap_loop, this]
    | a :: b :: r, hc, hf =>
      have hnext : h.next a = b := by simpa using hc.next_mid
      have ha : a ≠ head := hc.head_ne_of_mem (by simp)
      have hb : b ≠ head := hc.head_ne_of_mem (by simp)
      have hc1 : Cyc (list_del h a) head ((pre ++ [b]) ++ r) := by
        simpa using hc.list_del
      have hfresh : a ∉ head :: ((pre ++ [b]) ++ r) := by
        have := hc.1
        intro hm
        simp [List.nodup_append] at this hm
        tauto
      have ha0 : a ≠ 0 := hc.2.1 a (by simp)
      have hc2 : Cyc (list_move h a b) head ((pre ++ [b]) ++ a :: r) :=
        hc1.list_add (A := head :: pre) (P := b) (by simp) hfresh ha0
      have hnext2 : (list_move h a b).next a = r.headD head := hc2.next_mid
      have hc3 : Cyc (list_move h a b) head ((pre ++ [b, a]) ++ r) := by simpa using hc2
      obtain ⟨g, r1, r2, r3, r4⟩ := ih (list_move h a b) (pre ++ [b, a]) r hc3
        (by simp at hf; omega)
      refine ⟨g, ?_, by simpa [swapPairs] using r2, ?_, ?_⟩
      · simp only [q_swap_loop, List.headD_cons, hnext]
        simp only [ne_eq, ha, not_false_eq_true, decide_True, hb, Bool.and_self, if_true]
        rw [hnext2]; exact r1
      · rw [r3]; rfl
      · rw [r4]; rfl

theorem q_swap_correct {h : Heap} {head : Ptr} {ns : List Ptr} (hc : Cyc h head ns)
    (fuel : Nat) (hf : ns.length < fuel) :
    ∃ g, q_swap fuel h head = some g ∧ Cyc g head (swapPairs ns) ∧ g.value = h.value ∧
      g.live = h.live := by
  obtain ⟨g, r1, r2, r3, r4⟩ := q_swap_loop_correct head fuel h [] ns hc hf
  refine ⟨g, ?_, r2, r3, r4⟩
  have : h.next head = ns.headD head := by
    cases ns with
    | nil => simpa using hc.next_head_nil
    | cons x r => simpa using hc.next_head_cons
  rw [q_swap, if_neg hc.head_ne_zero, this, r1]

theorem strcmp_neg (a b : List Nat) : strcmp b a = - strcmp a b := by
  induction a generalizing b with
  | nil => cases b <;> simp [strcmp]
  | cons x a ih =>
    cases b with
    | nil => simp [strcmp]
    | cons y b =>
      simp only [strcmp]
      rcases Nat.lt_trichotomy x y with hxy | hxy | hxy
      · simp [hxy, Nat.lt_asymm hxy]
      · subst hxy; simp [ih]
      · simp [hxy, Nat.lt_asymm hxy]

theorem strcmp_eq_zero_iff (a b : List Nat) : strcmp a b = 0 ↔ a = b := by
  induction a generalizing b with
  | nil => cases b <;> simp [strcmp]
  | cons x a ih =>
    cases b with
    | nil => simp [strcmp]
    | cons y b =>
      simp only [strcmp]
      rcases Nat.lt_trichotomy x y with hxy | hxy | hxy
      · simp [hxy]; intro e; omega
      · subst hxy; simp [ih]
      · simp [hxy, Nat.lt_asymm hxy]; intro e; omega

theorem strcmp_self (a : List Nat) : strcmp a a = 0 := (strcmp_eq_zero_iff a a).mpr rfl

theorem strcmp_le_trans {a b c : List Nat} (h1 : strcmp a b ≤ 0) (h2 : strcmp b c ≤ 0) :
    strcmp a c ≤ 0 := by
  induction a generalizing b c with
  | nil => cases c <;> simp [strcmp]
  | cons x a ih =>
    cases b with
    | nil => simp [strcmp] at h1
    | cons y b =>
      cases c with
      | nil => simp [strcmp] at h2
      | cons z c =>
        simp only [strcmp] at h1 h2 ⊢
        rcases Nat.lt_trichotomy x y with hxy | hxy | hxy
        · rcases Nat.lt_trichotomy y z with hyz | hyz | hyz
          · simp [show x < z by omega]
          · subst hyz; simp [hxy]
          · simp [hyz, Nat.lt_asymm hyz] at h2
        · subst hxy
          rcases Nat.lt_trichotomy x z with hyz | hyz | hyz
          · simp [hyz]
          · subst hyz; simp at h1 h2 ⊢; exact ih h1 h2
          · simp [hyz, Nat.lt_asymm hyz] at h2
        · simp [hxy, Nat.lt_asymm hxy] at h1

theorem strcmp_antisymm {a b : List Nat} (h1 : strcmp a b ≤ 0) (h2 : strcmp b a ≤ 0) : a = b := by
  rw [strcmp_neg] at h2
  exact (strcmp_eq_zero_iff a b).mp (by omega)

theorem strcmp_total (a b : List Nat) : strcmp a b ≤ 0 ∨ strcmp b a ≤ 0 := by
  rw [strcmp_neg a b]; omega

theorem ddL_eq_isoL (val : Ptr → List Nat) :
    ∀ (l : List Ptr) (c : Bool) (p : Option (List Nat)),
      (∀ x r, l = x :: r → (c = true ↔ p = some (val x))) → ddL val c l = isoL val p l := by
  intro l
  induction l with
  | nil => intro c p _; rfl
  | cons x r ih =>
    intro c p hcp
    have hc := hcp x r rfl
    simp only [ddL, isoL]
    cases r with
    | nil =>
      simp only [dupNext, List.head?_nil, Option.map_none', or_false]
      by_cases hp : p = some (val x)
      · simp [hp, hc.mpr hp, ddL, isoL]
      · have : c = false := by
          cases c
          · rfl
          · exact absurd (hc.mp rfl) hp
        simp [hp, this, ddL, isoL]
    | cons y r2 =>
      by_cases hxy : val x = val y
      · have h1 : dupNext val x (y :: r2) = true := by
          simp [dupNext, strcmp_eq_zero_iff, hxy]
        rw [h1]
        simp only [if_true, List.head?_cons, Option.map_some', hxy, or_true]
        apply ih
        intro x2 r3 e
        simp at e
        simp [e.1, hxy]
      · have h1 : dupNext val x (y :: r2) = false := by
          simp [dupNext, strcmp_eq_zero_iff, hxy]
        rw [h1]
        have ih2 : ddL val false (y :: r2) = isoL val (some (val x)) (y :: r2) := by
          apply ih
          intro x2 r3 e
          simp at e
          simp [← e.1, hxy]
        have hyx : ¬ (some (val y) = some (val x)) := by
          intro e; simp at e; exact hxy e.symm
        by_cases hp : p = some (val x)
        · simp [hp, hc.mpr hp, ih2, hyx]
        · have : c = false := by
            cases c
            · rfl
            · exact absurd (hc.mp rfl) hp
          simp [hp, this, ih2, hyx]

theorem ddL_false_eq_isoL (val : Ptr → List Nat) (l : List Ptr) :
    ddL val false l = isoL val none l := by
  apply ddL_eq_isoL
  intro x r _
  simp

theorem sorted_head_of_mem {v w : List Nat} {vs : List (List Nat)}
    (hs : SortedVals (v :: vs)) (hw : w ∈ vs) : strcmp v w ≤ 0 :=
  (List.pairwise_cons.mp hs).1 w hw

/-- In a sorted list, a value that occurs after the head and equals it is also
the value of the second entry. -/
theorem sorted_second_eq {v y : List Nat} {vs : List (List Nat)}
    (hs : SortedVals (v :: y :: vs)) (hv : v ∈ y :: vs) : y = v := by
  have h1 : strcmp v y ≤ 0 := sorted_head_of_mem hs (List.mem_cons_self _ _)
  have h2 : strcmp y v ≤ 0 := by
    rcases List.mem_cons.mp hv with e | hm
    · rw [e, strcmp_self]
    · exact sorted_head_of_mem (List.pairwise_cons.mp hs).2 hm
  exact strcmp_antisymm h2 h1

theorem isoL_sorted (val : Ptr → List Nat) :
    ∀ (l : List Ptr) (p : Option (List Nat)), SortedVals (p.toList ++ l.map val) →
      isoL val p l = l.filter (fun n => decide ((p.toList ++ l.map val).count (val n) = 1)) := by
  intro l
  induction l with
  | nil => intro p _; rfl
  | cons x r ih =>
    intro p hs
    have hs2 : SortedVals (val x :: r.map val) := by
      have : (val x :: r.map val).Sublist (p.toList ++ (x :: r).map val) := by
        simp
      exact List.Pairwise.sublist this hs
    have ih2 := ih (some (val x)) (by simpa using hs2)
    simp only [Option.toList_some, List.singleton_append] at ih2
    -- the nodes after `x`
    have ha : r.filter (fun n => decide ((p.toList ++ (x :: r).map val).count (val n) = 1)) =
        r.filter (fun n => decide ((val x :: r.map val).count (val n) = 1)) := by
      apply List.filter_congr
      intro n hn
      cases p with
      | none => simp
      | some w =>
        by_cases hw : w = val n
        · have hxn : val x = val n := by
            have hs3 : SortedVals (w :: val x :: r.map val) := by simpa using hs
            have : w ∈ val x :: r.map val := by
              rw [hw]; exact List.mem_cons_of_mem _ (List.mem_map_of_mem _ hn)
            rw [← hw]; exact sorted_second_eq hs3 this
          have hcnt : 0 < (r.map val).count (val n) :=
            List.count_pos_iff.mpr (List.mem_map_of_mem _ hn)
          simp [hw, hxn, List.count_cons]
          omega
        · simp [List.count_cons, hw]
    -- the node `x` itself
    have hb : ((p.toList ++ (x :: r).map val).count (val x) = 1) ↔
        ¬ (p = some (val x) ∨ r.head?.map val = some (val x)) := by
      have hr : (r.map val).count (val x) = 0 ↔ ¬ (r.head?.map val = some (val x)) := by
        cases r with
        | nil => simp
        | cons y r2 =>
          simp only [List.head?_cons, Option.map_some', Option.some.injEq]
          constructor
          · intro h0 e
            have : val x ∈ (y :: r2).map val := by simp [e]
            exact (List.count_eq_zero.mp h0) this
          · intro hne
            apply List.count_eq_zero.mpr
            intro hm
            apply hne
            have hs3 : SortedVals (val x :: val y :: r2.map val) := by simpa using hs2
            exact sorted_second_eq hs3 (by simpa using hm)
      have hcount : (p.toList ++ (x :: r).map val).count (val x) =
          (if p = some (val x) then 1 else 0) + 1 + (r.map val).count (val x) := by
        cases p with
        | none => simp; omega
        | some w =>
          by_cases hw : w = val x
          · simp [hw, List.count_cons]; omega
          · simp [hw, List.count_cons]; omega
      rw [hcount]
      by_cases hp : p = some (val x)
      · simp [hp]; omega
      · simp only [hp, if_false, false_or, ← hr]; omega
    simp only [isoL]
    rw [List.filter_cons]
    by_cases hk : p = some (val x) ∨ r.head?.map val = some (val x)
    · have : ¬ ((p.toList ++ (x :: r).map val).count (val x) = 1) := fun e => hb.mp e hk
      rw [if_pos hk, ih2, ← ha]
      simp only [this, decide_False, Bool.false_eq_true, if_false]
    · have : (p.toList ++ (x :: r).map val).count (val x) = 1 := hb.mpr hk
      rw [if_neg hk, ih2, ← ha]
      simp only [this, decide_True, if_true]

theorem ddL_sorted (val : Ptr → List Nat) (l : List Ptr) (hs : SortedVals (l.map val)) :
    ddL val false l = l.filter (fun n => decide ((l.map val).count (val n) = 1)) := by
  rw [ddL_false_eq_isoL]
  simpa using isoL_sorted val l none (by simpa using hs)

@[simp] theorem list_del_init_value (h : Heap) (x : Ptr) : (list_del_init h x).value = h.value :=
  rfl

@[simp] theorem q_release_element_value (h : Heap) (x : Ptr) :
    (q_release_element h x).value = h.value := rfl

@[simp] theorem q_release_element_next (h : Heap) (x : Ptr) :
    (q_release_element h x).next = h.next := rfl

@[simp] theorem q_release_element_prev (h : Heap) (x : Ptr) :
    (q_release_element h x).prev = h.prev := rfl

theorem q_delete_dup_loop_correct (head : Ptr) :
    ∀ (fuel : Nat) (h : Heap) (pre rest : List Ptr) (c : Bool), Cyc h head (pre ++ rest) →
      rest.length < fuel →
      ∃ g, q_delete_dup_loop fuel h head (rest.headD head) (h.next (rest.headD head)) c = some g ∧
        Cyc g head (pre ++ ddL h.value c rest) ∧ g.value = h.value := by
  intro fuel
  induction fuel with
  | zero => intro h pre rest c _ hf; simp at hf
  | succ fuel ih =>
    intro h pre rest c hc hf
    match rest, hc, hf with
    | [], hc, _ =>
      exact ⟨h, by simp [q_delete_dup_loop], by simpa [ddL] using hc, rfl⟩
    | x :: r, hc, hf =>
      have hx : x ≠ head := hc.head_ne_of_mem (by simp)
      have hnext : h.next x = r.headD head := hc.next_mid
      have hcond : (decide (h.next x ≠ head) && decide (strcmp (h.value x) (h.value (h.next x)) = 0))
          = dupNext h.value x r := by
        rw [hnext]
        cases r with
        | nil => simp [dupNext]
        | cons y r2 =>
          have hy : y ≠ head := hc.head_ne_of_mem (by simp)
          simp [dupNext, hy]
      have hdel : Cyc (q_release_element (list_del_init h x) x) head (pre ++ r) :=
        hc.list_del_init.congr rfl rfl
      simp only [q_delete_dup_loop, List.headD_cons, ne_eq, hx, not_false_eq_true, if_true]
      rw [show (decide (¬ h.next x = head) && decide (strcmp (h.value x) (h.value (h.next x)) = 0))
          = dupNext h.value x r from hcond]
      simp only [ddL]
      by_cases hd : dupNext h.value x r = true
      · obtain ⟨g, r1, r2, r3⟩ := ih _ pre r true hdel (by simpa using hf)
        rw [if_pos hd, if_pos hd, hnext]
        exact ⟨g, r1, r2, r3⟩
      · rw [if_neg hd, if_neg hd]
        cases c with
        | true =>
          obtain ⟨g, r1, r2, r3⟩ := ih _ pre r false hdel (by simpa using hf)
          simp only [if_true, hnext]
          exact ⟨g, r1, r2, r3⟩
        | false =>
          have hc2 : Cyc h head ((pre ++ [x]) ++ r) := by simpa using hc
          obtain ⟨g, r1, r2, r3⟩ := ih h (pre ++ [x]) r false hc2 (by simpa using hf)
          simp only [Bool.false_eq_true, if_false, hnext]
          exact ⟨g, r1, by simpa using r2, r3⟩

theorem q_delete_dup_correct {h : Heap} {head : Ptr} {ns : List Ptr} (hc : Cyc h head ns)
    (h2 : 2 ≤ ns.length) (fuel : Nat) (hf : ns.length < fuel) :
    ∃ g, q_delete_dup fuel h head = some (true, g) ∧ Cyc g head (ddL h.value false ns) ∧
      g.value = h.value := by
  obtain ⟨g, r1, r2, r3⟩ := q_delete_dup_loop_correct head fuel h [] ns false hc hf
  refine ⟨g, ?_, by simpa using r2, r3⟩
  have hne : ns ≠ [] := by intro e; simp [e] at h2
  have hn1 : ns.length ≠ 1 := by omega
  have : h.next head = ns.headD head := by
    cases ns with
    | nil => simpa using hc.next_head_nil
    | cons x r => simpa using hc.next_head_cons
  rw [← this] at r1
  simp [q_delete_dup, hc.head_ne_zero, hc.list_empty, hc.list_is_singular, hne, hn1, r1]

theorem flipLinks_nil (h : Heap) : flipLinks h [] = h := by
  apply Heap.ext_fields <;> simp [flipLinks]

theorem flipLinks_step (h : Heap) (D : List Ptr) (p : Ptr) (hp : p ∉ D) :
    ((flipLinks h D).setNext p ((flipLinks h D).prev p)).setPrev p (h.next p) =
      flipLinks h (D ++ [p]) := by
  apply Heap.ext_fields
  · funext q
    by_cases hq : q = p
    · subst hq; simp [flipLinks, hp]
    · simp [flipLinks, Function.update_noteq hq, hq]
  · funext q
    by_cases hq : q = p
    · subst hq; simp [flipLinks]
    · simp [flipLinks, Function.update_noteq hq, hq]
  · rfl
  · rfl

theorem q_reverse_loop_eq (h : Heap) (head : Ptr) (L : List Ptr) (hl : lseg h.next head L head)
    (hnd : L.Nodup) :
    ∀ (fuel : Nat) (D T : List Ptr) (p : Ptr), L = D ++ p :: T → head ∉ T → T.length < fuel →
      q_reverse_loop fuel (flipLinks h D) head p (h.next p) = some (flipLinks h L) := by
  intro fuel
  induction fuel with
  | zero => intro D T p _ _ hf; simp at hf
  | succ fuel ih =>
    intro D T p hL hh hf
    have hpD : p ∉ D := by
      rw [hL] at hnd
      intro hm
      exact (List.nodup_append.mp hnd).2.2 hm (List.mem_cons_self _ _)
    have hnext : h.next p = T.headD head := by
      rw [hL, lseg_append] at hl
      obtain ⟨m, _, h2⟩ := hl
      exact lseg_succ h2
    simp only [q_reverse_loop]
    rw [flipLinks_step h D p hpD]
    cases T with
    | nil =>
      simp only [List.headD_nil] at hnext
      simp [hnext, hL]
    | cons t T2 =>
      simp only [List.headD_cons] at hnext
      have ht : t ≠ head := by intro e; apply hh; simp [e]
      have htD : t ∉ D ++ [p] := by
        rw [hL] at hnd
        have : (D ++ [p] ++ t :: T2).Nodup := by simpa using hnd
        intro hm
        exact (List.nodup_append.mp this).2.2 hm (List.mem_cons_self _ _)
      have e1 : (flipLinks h (D ++ [p])).next t = h.next t := by
        simp only [flipLinks, htD, if_false]
      rw [hnext]
      simp only [ne_eq, ht, not_false_eq_true, if_true, e1]
      exact ih (D ++ [p]) T2 t (by simp [hL]) (fun hm => hh (List.mem_cons_of_mem _ hm))
        (by simpa using hf)

theorem q_reverse_eq {h : Heap} {head : Ptr} {ns : List Ptr} (hc : Cyc h head ns) (fuel : Nat)
    (hf : ns.length < fuel) : q_reverse fuel h head = some (flipLinks h (head :: ns)) := by
  have := q_reverse_loop_eq h head (head :: ns) hc.2.2.1 hc.1 fuel [] ns head rfl
    (List.nodup_cons.mp hc.1).1 hf
  rw [flipLinks_nil] at this
  rw [q_reverse, if_neg hc.head_ne_zero, this]

theorem Cyc.flipLinks {h : Heap} {head : Ptr} {ns : List Ptr} (hc : Cyc h head ns) :
    Cyc (Queue.flipLinks h (head :: ns)) head ns.reverse := by
  have hnd2 := hc.nodup_rev
  obtain ⟨hnd, hnz, hn, hp⟩ := hc
  refine ⟨hnd2, ?_, ?_, ?_⟩
  · intro n hn'
    apply hnz
    simpa using hn'
  · refine (lseg_congr ?_ _ _).mpr hp
    intro x hx
    have : x ∈ head :: ns := by simpa using hx
    simp only [Queue.flipLinks, this, if_true]
  · rw [List.reverse_reverse]
    refine (lseg_congr ?_ _ _).mpr hn
    intro x hx
    simp only [Queue.flipLinks, hx, if_true]

theorem flipLinks_flipLinks (h : Heap) (S T : List Ptr) (hST : ∀ x, x ∈ T ↔ x ∈ S) :
    flipLinks (flipLinks h S) T = h := by
  apply Heap.ext_fields
  · funext q
    by_cases hq : q ∈ S
    · simp [flipLinks, hq, (hST q).mpr hq]
    · simp [flipLinks, hq, (hST q).not.mpr hq]
  · funext q
    by_cases hq : q ∈ S
    · simp [flipLinks, hq, (hST q).mpr hq]
    · simp [flipLinks, hq, (hST q).not.mpr hq]
  · rfl
  · rfl

theorem flipLinks_of_symm (h : Heap) (S : List Ptr) (hS : ∀ x ∈ S, h.next x = h.prev x) :
    flipLinks h S = h := by
  apply Heap.ext_fields
  · funext q
    by_cases hq : q ∈ S
    · simp [flipLinks, hq, hS q hq]
    · simp [flipLinks, hq]
  · funext q
    by_cases hq : q ∈ S
    · simp [flipLinks, hq, hS q hq]
    · simp [flipLinks, hq]
  · rfl
  · rfl

theorem q_reverse_small {h : Heap} {head : Ptr} {ns : List Ptr} (hc : Cyc h head ns)
    (hs : ns.length ≤ 1) : flipLinks h (head :: ns) = h := by
  apply flipLinks_of_symm
  match ns, hc, hs with
  | [], hc, _ =>
    intro x hx
    simp at hx; subst hx
    rw [hc.next_head_nil, hc.prev_head_nil]
  | [a], hc, _ =>
    have h1 := hc.next_head_cons
    have h2 := hc.prev_head_concat (r := [])
    have h3 : h.next a = head := by simpa using Cyc.next_mid (show Cyc h head ([] ++ a :: []) from hc)
    have h4 : h.prev a = head := hc.2.2.2.2.2
    intro x hx
    simp at hx
    rcases hx with rfl | rfl
    · rw [h1, h2]
    · rw [h3, h4]

theorem q_reverse_twice {h : Heap} {head : Ptr} {ns : List Ptr} (hc : Cyc h head ns) (fuel : Nat)
    (hf : ns.length < fuel) :
    (q_reverse fuel h head).bind (fun g => q_reverse fuel g head) = some h := by
  rw [q_reverse_eq hc fuel hf]
  simp only [Option.some_bind]
  rw [q_reverse_eq hc.flipLinks fuel (by simpa using hf)]
  rw [flipLinks_flipLinks]
  intro x; simp

theorem mergeL_nil_right (val : Ptr → List Nat) (xs : List Ptr) : mergeL val xs [] = xs := by
  cases xs <;> simp [mergeL]

theorem mergeL_perm (val : Ptr → List Nat) :
    ∀ (xs ys : List Ptr), (mergeL val xs ys).Perm (xs ++ ys)
  | [], ys => by simp [mergeL]
  | x :: xs, [] => by simp [mergeL]
  | x :: xs, y :: ys => by
    simp only [mergeL]
    split
    · exact (mergeL_perm val xs (y :: ys)).cons x
    · have := (mergeL_perm val (x :: xs) ys).cons y
      exact this.trans (List.perm_middle.symm)

theorem mergeL_sorted (val : Ptr → List Nat) :
    ∀ (xs ys : List Ptr), SortedVals (xs.map val) → SortedVals (ys.map val) →
      SortedVals ((mergeL val xs ys).map val)
  | [], ys, _, h2 => by simpa [mergeL] using h2
  | x :: xs, [], h1, _ => by simpa [mergeL] using h1
  | x :: xs, y :: ys, h1, h2 => by
    simp only [mergeL]
    have hx := List.pairwise_cons.mp (show SortedVals (val x :: xs.map val) by simpa using h1)
    have hy := List.pairwise_cons.mp (show SortedVals (val y :: ys.map val) by simpa using h2)
    split
    · rename_i hlt
      have ih := mergeL_sorted val xs (y :: ys) hx.2 h2
      simp only [List.map_cons]
      refine List.pairwise_cons.mpr ⟨?_, ih⟩
      intro w hw
      obtain ⟨z, hz, rfl⟩ := List.mem_map.mp hw
      have hz2 := (mergeL_perm val xs (y :: ys)).subset hz
      rcases List.mem_append.mp hz2 with hm | hm
      · exact hx.1 _ (List.mem_map_of_mem _ hm)
      · rcases List.mem_cons.mp hm with rfl | hm
        · omega
        · exact strcmp_le_trans (Int.le_of_lt hlt) (hy.1 _ (List.mem_map_of_mem _ hm))
    · rename_i hlt
      have hyx : strcmp (val y) (val x) ≤ 0 := by
        rw [strcmp_neg]; omega
      have ih := mergeL_sorted val (x :: xs) ys h1 hy.2
      simp only [List.map_cons]
      refine List.pairwise_cons.mpr ⟨?_, ih⟩
      intro w hw
      obtain ⟨z, hz, rfl⟩ := List.mem_map.mp hw
      have hz2 := (mergeL_perm val (x :: xs) ys).subset hz
      rcases List.mem_append.mp hz2 with hm | hm
      · rcases List.mem_cons.mp hm with rfl | hm
        · exact hyx
        · exact strcmp_le_trans hyx (hx.1 _ (List.mem_map_of_mem _ hm))
      · exact hy.1 _ (List.mem_map_of_mem _ hm)

theorem sortL_small (val : Ptr → List Nat) (l : List Ptr) (h : l.length < 2) :
    sortL val l = l := by
  rw [sortL, dif_pos h]

theorem sortL_big (val : Ptr → List Nat) (l : List Ptr) (h : ¬ l.length < 2) :
    sortL val l = mergeL val (sortL val (l.take ((l.length + 1) / 2)))
      (sortL val (l.drop ((l.length + 1) / 2))) := by
  rw [sortL, dif_neg h]

theorem sortL_perm (val : Ptr → List Nat) : ∀ (n : Nat) (l : List Ptr), l.length ≤ n →
    (sortL val l).Perm l := by
  intro n
  induction n with
  | zero =>
    intro l hl
    rw [sortL_small val l (by omega)]
  | succ n ih =>
    intro l hl
    by_cases h : l.length < 2
    · rw [sortL_small val l h]
    · rw [sortL_big val l h]
      have h1 := ih (l.take ((l.length + 1) / 2)) (by simp only [List.length_take]; omega)
      have h2 := ih (l.drop ((l.length + 1) / 2)) (by simp only [List.length_drop]; omega)
      refine (mergeL_perm val _ _).trans ?_
      refine (List.Perm.append h1 h2).trans ?_
      rw [List.take_append_drop]

theorem sortL_sorted (val : Ptr → List Nat) : ∀ (n : Nat) (l : List Ptr), l.length ≤ n →
    SortedVals ((sortL val l).map val) := by
  intro n
  induction n with
  | zero =>
    intro l hl
    have : l = [] := List.length_eq_zero.mp (by omega)
    subst this
    rw [sortL_small val [] (by simp)]
    simp [SortedVals]
  | succ n ih =>
    intro l hl
    by_cases h : l.length < 2
    · rw [sortL_small val l h]
      match l, h with
      | [], _ => simp [SortedVals]
      | [a], _ => simp [SortedVals]
    · rw [sortL_big val l h]
      exact mergeL_sorted val _ _
        (ih _ (by simp only [List.length_take]; omega))
        (ih _ (by simp only [List.length_drop]; omega))

theorem lseg_entry {f : Ptr → Ptr} {p q : Ptr} {ns : List Ptr} (hl : lseg f p ns q) :
    p = ns.headD q := by
  cases ns with
  | nil => simpa using hl
  | cons n ns => simpa using hl.1

theorem store_pptr_next (h : Heap) (head : Ptr) (pptr : Option Ptr) (v n : Ptr) :
    (store_pptr h head pptr v).1.next n = if pptr = some n then v else h.next n := by
  cases pptr with
  | none => simp [store_pptr]
  | some t =>
    by_cases e : n = t
    · subst e; simp [store_pptr]
    · have : ¬ t = n := fun e2 => e e2.symm
      simp [store_pptr, Function.update_noteq e, this]

theorem store_pptr_head (h : Heap) (head : Ptr) (pptr : Option Ptr) (v : Ptr) :
    (store_pptr h head pptr v).2 = if pptr = none then v else head := by
  cases pptr <;> simp [store_pptr]

@[simp] theorem store_pptr_prev (h : Heap) (head : Ptr) (pptr : Option Ptr) (v : Ptr) :
    (store_pptr h head pptr v).1.prev = h.prev := by
  cases pptr <;> simp [store_pptr]

@[simp] theorem store_pptr_value (h : Heap) (head : Ptr) (pptr : Option Ptr) (v : Ptr) :
    (store_pptr h head pptr v).1.value = h.value := by
  cases pptr <;> simp [store_pptr]

@[simp] theorem store_pptr_live (h : Heap) (head : Ptr) (pptr : Option Ptr) (v : Ptr) :
    (store_pptr h head pptr v).1.live = h.live := by
  cases pptr <;> simp [store_pptr]

theorem merge_exit (h : Heap) (head : Ptr) (pptr : Option Ptr) (xs ys zs : List Ptr) (v : Ptr)
    (hl : lseg h.next v zs 0) (ht : ∀ t, pptr = some t → t ∉ zs) :
    MergePost h head pptr xs ys zs (store_pptr h head pptr v).2 (store_pptr h head pptr v).1 := by
  have hv : v = zs.headD 0 := lseg_entry hl
  refine ⟨?_, ?_, ?_, ?_, by simp, by simp, by simp⟩
  · intro e; rw [store_pptr_head, if_pos e, hv]
  · intro t e
    rw [store_pptr_head, store_pptr_next, e]
    simp [hv]
  · rw [← hv]
    refine (lseg_congr ?_ _ _).mpr hl
    intro n hn
    rw [store_pptr_next, if_neg]
    intro e; exact ht n e hn
  · intro n _ hne
    rw [store_pptr_next, if_neg hne]

theorem merge_lists_loop_correct :
    ∀ (fuel : Nat) (h : Heap) (xs ys : List Ptr) (l1 l2 head : Ptr) (pptr : Option Ptr),
      lseg h.next l1 xs 0 → lseg h.next l2 ys 0 → (xs ++ ys).Nodup → (∀ n ∈ xs ++ ys, n ≠ 0) →
      (∀ t, pptr = some t → t ∉ xs ++ ys) → xs.length + ys.length < fuel →
      ∃ g r, merge_lists_loop fuel h l1 l2 head pptr = some (r, g) ∧
        MergePost h head pptr xs ys (mergeL h.value xs ys) r g := by
  intro fuel
  induction fuel with
  | zero => intro h xs ys l1 l2 head pptr _ _ _ _ _ hf; simp at hf
  | succ fuel ih =>
    intro h xs ys l1 l2 head pptr h1 h2 hnd hnz ht hf
    cases xs with
    | nil =>
      simp only [lseg_nil] at h1
      subst h1
      refine ⟨(store_pptr h head pptr l2).1, (store_pptr h head pptr l2).2, ?_, ?_⟩
      · simp only [merge_lists_loop, ne_eq, not_true_eq_false, decide_False, Bool.false_and,
          Bool.false_eq_true, if_false, Nat.zero_or]
      · simp only [mergeL]
        exact merge_exit h head pptr [] ys ys l2 h2 (fun t e => by simpa using ht t e)
    | cons x xs2 =>
    cases ys with
    | nil =>
      simp only [lseg_nil] at h2
      subst h2
      refine ⟨(store_pptr h head pptr l1).1, (store_pptr h head pptr l1).2, ?_, ?_⟩
      · simp only [merge_lists_loop, ne_eq, not_true_eq_false, decide_False, Bool.and_false,
          Bool.false_eq_true, if_false, Nat.or_zero]
      · simp only [mergeL]
        exact merge_exit h head pptr (x :: xs2) [] (x :: xs2) l1 h1
          (fun t e => by simpa using ht t e)
    | cons y ys2 =>
      obtain ⟨rfl, h1b⟩ := h1
      obtain ⟨rfl, h2b⟩ := h2
      have hx0 : l1 ≠ 0 := hnz l1 (by simp)
      have hy0 : l2 ≠ 0 := hnz l2 (by simp)
      have hpx : pptr ≠ some l1 := fun e => ht l1 e (by simp)
      have hpy : pptr ≠ some l2 := fun e => ht l2 e (by simp)
      by_cases hlt : strcmp (h.value l1) (h.value l2) < 0
      · -- the left head is taken
        have hfr : ∀ n ∈ l1 :: xs2 ++ l2 :: ys2,
            (store_pptr h head pptr l1).1.next n = h.next n := by
          intro n hn
          rw [store_pptr_next, if_neg]
          intro e; exact ht n e hn
        have a1 : lseg (store_pptr h head pptr l1).1.next ((store_pptr h head pptr l1).1.next l1)
            xs2 0 := by
          rw [hfr l1 (by simp)]
          refine (lseg_congr ?_ _ _).mpr h1b
          intro n hn; exact hfr n (by simp [hn])
        have a2 : lseg (store_pptr h head pptr l1).1.next l2 (l2 :: ys2) 0 := by
          refine (lseg_congr ?_ _ _).mpr ⟨rfl, h2b⟩
          intro n hn; exact hfr n (by simp at hn ⊢; tauto)
        have hnd2 : (xs2 ++ l2 :: ys2).Nodup := (List.nodup_cons.mp hnd).2
        have hx2 : l1 ∉ xs2 ++ l2 :: ys2 := (List.nodup_cons.mp hnd).1
        obtain ⟨g, r, e1, p1, p2, p3, p4, p5, p6, p7⟩ :=
          ih _ xs2 (l2 :: ys2) _ l2 (store_pptr h head pptr l1).2 (some l1) a1 a2 hnd2
            (fun n hn => hnz n (List.mem_cons_of_mem _ hn))
            (fun t e => by simp at e; subst e; exact hx2)
            (by simp at hf ⊢; omega)
        rw [store_pptr_value] at p3 p2
        obtain ⟨q1, q2⟩ := p2 l1 rfl
        refine ⟨g, r, ?_, ?_⟩
        · simp only [merge_lists_loop, ne_eq, hx0, hy0, not_false_eq_true, decide_True,
            Bool.and_self, if_true, hlt]
          exact e1
        · have hM : mergeL h.value (l1 :: xs2) (l2 :: ys2) =
              l1 :: mergeL h.value xs2 (l2 :: ys2) := by simp [mergeL, hlt]
          rw [hM]
          refine ⟨?_, ?_, ?_, ?_, ?_, ?_, ?_⟩
          · intro e
            rw [q1, store_pptr_head, if_pos e]; rfl
          · intro t e
            have ht2 := ht t e
            have ht3 : t ∉ xs2 ++ l2 :: ys2 := fun hm => ht2 (List.mem_cons_of_mem _ hm)
            have ht4 : t ≠ l1 := fun e2 => ht2 (by simp [e2])
            refine ⟨?_, ?_⟩
            · rw [q1, store_pptr_head, if_neg (by simp [e])]
            · rw [p4 t ht3 (by simpa using ht4.symm), store_pptr_next, if_pos e]; rfl
          · exact ⟨rfl, by rw [q2]; exact p3⟩
          · intro n hn hne
            have hn2 : n ∉ xs2 ++ l2 :: ys2 := fun hm => hn (List.mem_cons_of_mem _ hm)
            have hn3 : n ≠ l1 := fun e2 => hn (by simp [e2])
            rw [p4 n hn2 (by simpa using hn3.symm), store_pptr_next, if_neg hne]
          · rw [p5]; simp
          · rw [p6]; simp
          · rw [p7]; simp
      · -- the right head is taken
        have hfr : ∀ n ∈ l1 :: xs2 ++ l2 :: ys2,
            (store_pptr h head pptr l2).1.next n = h.next n := by
          intro n hn
          rw [store_pptr_next, if_neg]
          intro e; exact ht n e hn
        have a1 : lseg (store_pptr h head pptr l2).1.next l1 (l1 :: xs2) 0 := by
          refine (lseg_congr ?_ _ _).mpr ⟨rfl, h1b⟩
          intro n hn; exact hfr n (by simp at hn ⊢; tauto)
        have a2 : lseg (store_pptr h head pptr l2).1.next ((store_pptr h head pptr l2).1.next l2)
            ys2 0 := by
          rw [hfr l2 (by simp)]
          refine (lseg_congr ?_ _ _).mpr h2b
          intro n hn; exact hfr n (by simp [hn])
        have hperm : (l1 :: xs2 ++ l2 :: ys2).Perm (l2 :: (l1 :: xs2 ++ ys2)) :=
          List.perm_middle
        have hnd3 := hperm.nodup_iff.mp hnd
        have hnd2 : (l1 :: xs2 ++ ys2).Nodup := (List.nodup_cons.mp hnd3).2
        have hy2 : l2 ∉ l1 :: xs2 ++ ys2 := (List.nodup_cons.mp hnd3).1
        obtain ⟨g, r, e1, p1, p2, p3, p4, p5, p6, p7⟩ :=
          ih _ (l1 :: xs2) ys2 l1 _ (store_pptr h head pptr l2).2 (some l2) a1 a2 hnd2
            (fun n hn => hnz n (hperm.symm.subset (List.mem_cons_of_mem _ hn)))
            (fun t e => by simp at e; subst e; exact hy2)
            (by simp at hf ⊢; omega)
        rw [store_pptr_value] at p3 p2
        obtain ⟨q1, q2⟩ := p2 l2 rfl
        refine ⟨g, r, ?_, ?_⟩
        · simp only [merge_lists_loop, ne_eq, hx0, hy0, not_false_eq_true, decide_True,
            Bool.and_self, if_true, hlt, if_false]
          exact e1
        · have hM : mergeL h.value (l1 :: xs2) (l2 :: ys2) =
              l2 :: mergeL h.value (l1 :: xs2) ys2 := by simp [mergeL, hlt]
          rw [hM]
          have hsub : ∀ n, n ∉ l1 :: xs2 ++ l2 :: ys2 → n ∉ l1 :: xs2 ++ ys2 ∧ n ≠ l2 := by
            intro n hn
            constructor
            · intro hm; exact hn (hperm.symm.subset (List.mem_cons_of_mem _ hm))
            · intro e2; exact hn (hperm.symm.subset (by simp [e2]))
          refine ⟨?_, ?_, ?_, ?_, ?_, ?_, ?_⟩
          · intro e
            rw [q1, store_pptr_head, if_pos e]; rfl
          · intro t e
            obtain ⟨ht3, ht4⟩ := hsub t (ht t e)
            refine ⟨?_, ?_⟩
            · rw [q1, store_pptr_head, if_neg (by simp [e])]
            · rw [p4 t ht3 (by simpa using ht4.symm), store_pptr_next, if_pos e]; rfl
          · exact ⟨rfl, by rw [q2]; exact p3⟩
          · intro n hn hne
            obtain ⟨hn2, hn3⟩ := hsub n hn
            rw [p4 n hn2 (by simpa using hn3.symm), store_pptr_next, if_neg hne]
          · rw [p5]; simp
          · rw [p6]; simp
          · rw [p7]; simp

theorem divide_list_loop_correct (h : Heap) :
    ∀ (fuel : Nat) (F SL : List Ptr) (slow fast : Ptr),
      lseg h.next slow SL 0 → lseg h.next fast F 0 → (∀ n ∈ F, n ≠ 0) →
      F.length / 2 < fuel → F.length / 2 < SL.length →
      ∃ slow2, divide_list_loop fuel h fast slow = some slow2 ∧
        lseg h.next slow2 (SL.drop (F.length / 2)) 0 := by
  intro fuel
  induction fuel with
  | zero => intro F SL slow fast _ _ _ hf; simp at hf
  | succ fuel ih =>
    intro F SL slow fast hS hF hnz hf hk
    match F, hF, hnz, hf, hk with
    | [], hF, _, _, _ =>
      simp at hF
      exact ⟨slow, by simp [divide_list_loop, hF], by simpa using hS⟩
    | [x], hF, hnz, _, _ =>
      simp at hF
      have hx : fast ≠ 0 := by rw [hF.1]; exact hnz x (by simp)
      refine ⟨slow, ?_, by simpa using hS⟩
      rw [← hF.1] at hF
      simp [divide_list_loop, hx, hF.2]
    | x :: y :: F2, hF, hnz, hf, hk =>
      simp only [lseg_cons] at hF
      obtain ⟨e1, e2, hF2⟩ := hF
      have hx : x ≠ 0 := hnz x (by simp)
      have hy : y ≠ 0 := hnz y (by simp)
      have hlen : (x :: y :: F2).length / 2 = F2.length / 2 + 1 := by
        simp only [List.length_cons]; omega
      rw [hlen] at hf hk ⊢
      match SL, hS, hk with
      | [], _, hk => simp at hk
      | s :: S2, hS, hk =>
        simp only [lseg_cons] at hS
        obtain ⟨e3, hS2⟩ := hS
        obtain ⟨slow2, r1, r2⟩ := ih F2 S2 (h.next s) (h.next y) hS2 hF2
          (fun n hm => hnz n (by simp [hm])) (by omega) (by simpa using hk)
        refine ⟨slow2, ?_, by simpa using r2⟩
        simp only [divide_list_loop]
        rw [e1]
        simp only [ne_eq, hx, not_false_eq_true, decide_True, e2, hy, Bool.and_self, if_true]
        rw [e3]; exact r1

theorem take_drop_of_split {A T : List Ptr} {x : Ptr} {k : Nat} (hA : A.length = k) :
    (A ++ x :: T).take (k + 1) = A ++ [x] ∧ (A ++ x :: T).drop (k + 1) = T := by
  induction A generalizing k with
  | nil => simp at hA; subst hA; simp
  | cons a A ih =>
    simp at hA; subst hA
    have := ih (k := A.length) rfl
    simp [this.1, this.2]

theorem divide_list_correct :
    ∀ (fuel : Nat) (h : Heap) (p : Ptr) (ns : List Ptr), lseg h.next p ns 0 → ns.Nodup →
      (∀ n ∈ ns, n ≠ 0) → ns.length < fuel →
      ∃ g r, divide_list fuel h p = some (r, g) ∧ SortPost h ns r g := by
  intro fuel
  induction fuel with
  | zero => intro h p ns _ _ _ hf; simp at hf
  | succ fuel ih =>
    intro h p ns hl hnd hnz hf
    by_cases hsmall : ns.length < 2
    · refine ⟨h, p, ?_, ?_, fun _ _ => rfl, rfl, rfl, rfl⟩
      · match ns, hl, hsmall with
        | [], hl, _ => simp at hl; simp [divide_list, hl]
        | [x], hl, _ => simp at hl; rw [← hl.1] at hl; simp [divide_list, hl.2]
        | _ :: _ :: _, _, hs => simp at hs; omega
      · rw [sortL_small _ _ hsmall]; exact hl
    · -- the chain has at least two nodes
      obtain ⟨x, y, rest, rfl⟩ : ∃ x y rest, ns = x :: y :: rest := by
        match ns, hsmall with
        | [], hs => simp at hs
        | [_], hs => simp at hs
        | x :: y :: rest, _ => exact ⟨x, y, rest, rfl⟩
      have hl0 := hl
      obtain ⟨rfl, hl1⟩ := hl
      have hp0 : p ≠ 0 := hnz p (by simp)
      have hy0 : y ≠ 0 := hnz y (by simp)
      have hpy : h.next p = y := hl1.1
      set ns := p :: y :: rest with hns
      set k := (y :: rest).length / 2 with hk
      have hm : (ns.length + 1) / 2 = k + 1 := by
        simp only [hns, hk, List.length_cons]; omega
      have hkn : k < ns.length := by
        simp only [hns, hk, List.length_cons]; omega
      obtain ⟨slow2, s1, s2⟩ := divide_list_loop_correct h (fuel + 1) (y :: rest) ns p (h.next p)
        hl0 hl1 (fun n hn => hnz n (List.mem_cons_of_mem _ hn)) (by rw [← hk]; omega)
        (by rw [← hk]; exact hkn)
      rw [← hk] at s2
      obtain ⟨T, hT⟩ : ∃ T, ns.drop k = slow2 :: T := by
        cases hd : ns.drop k with
        | nil =>
          have := List.drop_eq_nil_iff.mp hd
          omega
        | cons z T =>
          rw [hd] at s2
          exact ⟨T, by rw [s2.1]⟩
      rw [hT] at s2
      have hsplit : ns = ns.take k ++ slow2 :: T := by
        rw [← hT, List.take_append_drop]
      have hAk : (ns.take k).length = k := by
        rw [List.length_take]; omega
      obtain ⟨t1, t2⟩ := take_drop_of_split (T := T) (x := slow2) hAk
      rw [← hsplit] at t1 t2
      -- facts on the two parts
      have hnd2 : (ns.take k ++ slow2 :: T).Nodup := by rw [← hsplit]; exact hnd
      have hsA : slow2 ∉ ns.take k := fun hmem =>
        (List.nodup_append.mp hnd2).2.2 hmem (List.mem_cons_self _ _)
      have hsT : slow2 ∉ T := (List.nodup_cons.mp (List.nodup_append.mp hnd2).2.1).1
      have hdisj : ∀ n, n ∈ ns.take (k + 1) → n ∉ T := by
        intro n hn hnT
        rw [t1] at hn
        rcases List.mem_append.mp hn with hA | hs
        · exact (List.nodup_append.mp hnd2).2.2 hA (List.mem_cons_of_mem _ hnT)
        · simp at hs; subst hs; exact hsT hnT
      have hmemL : ∀ n, n ∈ ns.take (k + 1) → n ∈ ns := fun n hn => List.mem_of_mem_take hn
      have hmemR : ∀ n, n ∈ T → n ∈ ns := by
        intro n hn; rw [hsplit]; simp [hn]
      have hlenL : (ns.take (k + 1)).length < fuel := by
        rw [List.length_take]
        simp only [hns, hk, List.length_cons] at hf ⊢; omega
      have hlenR : T.length < fuel := by
        rw [← t2, List.length_drop]; omega
      -- the cut
      have hcutL : lseg (h.setNext slow2 0).next p (ns.take (k + 1)) 0 := by
        rw [t1, lseg_append]
        have := hl0
        rw [hsplit, lseg_append] at this
        obtain ⟨m, a1, a2⟩ := this
        have hm2 : m = slow2 := a2.1
        subst hm2
        exact ⟨m, (lseg_update hsA _ _ _).mpr a1, rfl, by simp⟩
      have hcutR : lseg (h.setNext slow2 0).next (h.next slow2) T 0 :=
        (lseg_update hsT _ _ _).mpr s2.2
      -- the left part
      obtain ⟨g1, left, d1, l1, l2, l3, l4, l5⟩ := ih (h.setNext slow2 0) p (ns.take (k + 1))
        hcutL (hnd.sublist (List.take_sublist _ _)) (fun n hn => hnz n (hmemL n hn)) hlenL
      have hR2 : lseg g1.next (h.next slow2) T 0 := by
        refine (lseg_congr ?_ _ _).mpr hcutR
        intro n hn
        exact l2 n (fun hmem => hdisj n hmem hn)
      -- the right part
      obtain ⟨g2, right, d2, r1, r2, r3, r4, r5⟩ := ih g1 (h.next slow2) T hR2
        (List.nodup_cons.mp (List.nodup_append.mp hnd2).2.1).2 (fun n hn => hnz n (hmemR n hn))
        hlenR
      have hv1 : g1.value = h.value := l4
      have hv2 : g2.value = h.value := r4.trans l4
      rw [show (h.setNext slow2 0).value = h.value from rfl] at l1
      rw [hv1] at r1
      have pL := sortL_perm h.value _ (ns.take (k + 1)) (le_refl _)
      have pR := sortL_perm h.value _ T (le_refl _)
      have hL3 : lseg g2.next left (sortL h.value (ns.take (k + 1))) 0 := by
        refine (lseg_congr ?_ _ _).mpr l1
        intro n hn
        exact r2 n (hdisj n (pL.subset hn))
      have pBoth : (sortL h.value (ns.take (k + 1)) ++ sortL h.value T).Perm ns := by
        refine (List.Perm.append pL pR).trans ?_
        rw [← t2, List.take_append_drop]
      obtain ⟨g, r, e1, m1, m2, m3, m4, m5, m6, m7⟩ := merge_lists_loop_correct (fuel + 1) g2
        (sortL h.value (ns.take (k + 1))) (sortL h.value T) left right 0 none hL3 r1
        (pBoth.nodup_iff.mpr hnd) (fun n hn => hnz n (pBoth.subset hn))
        (fun t e => by simp at e)
        (by rw [← List.length_append, pBoth.length_eq]; exact hf)
      rw [hv2] at m1 m3
      have hsort : sortL h.value ns =
          mergeL h.value (sortL h.value (ns.take (k + 1))) (sortL h.value T) := by
        rw [sortL_big h.value ns hsmall, hm, t2]
      refine ⟨g, r, ?_, ?_, ?_, ?_, ?_, ?_⟩
      · have hc : (p = 0 || h.next p = 0) = false := by simp [hp0, hpy, hy0]
        simp only [divide_list, hc, Bool.false_eq_true, if_false, s1, d1, d2]
        exact e1
      · rw [hsort, m1 rfl]; exact m3
      · intro n hn
        have hn1 : n ∉ sortL h.value (ns.take (k + 1)) ++ sortL h.value T :=
          fun hmem => hn (pBoth.subset hmem)
        have hn2 : n ∉ T := fun hmem => hn (hmemR n hmem)
        have hn3 : n ∉ ns.take (k + 1) := fun hmem => hn (hmemL n hmem)
        have hn4 : n ≠ slow2 := by
          intro e; apply hn; rw [hsplit, e]; simp
        rw [m4 n hn1 (by simp), r2 n hn2, l2 n hn3]
        simp [Function.update_noteq hn4]
      · rw [m5, r3, l3]; rfl
      · rw [m6, hv2]
      · rw [m7, r5, l5]; rfl

theorem q_sort_loop_correct (head : Ptr) :
    ∀ (I : List Ptr) (last : Ptr) (fuel : Nat) (g : Heap) (node P : Ptr),
      lseg g.next node (I ++ [last]) 0 → (I ++ [last]).Nodup → (∀ n ∈ I ++ [last], n ≠ 0) →
      head ∉ I ++ [last] → I.length < fuel →
      ∃ g2, q_sort_loop fuel g head node P = some g2 ∧
        g2.next = Function.update g.next last head ∧ g2.prev head = last ∧
        lseg g2.prev last (I ++ [last]).reverse P ∧
        (∀ n, n ∉ I ++ [last] → n ≠ head → g2.prev n = g.prev n) ∧
        g2.value = g.value ∧ g2.live = g.live := by
  intro I
  induction I with
  | nil =>
    intro last fuel g node P hl _ _ hh hf
    cases fuel with
    | zero => simp at hf
    | succ fuel =>
      simp at hl
      obtain ⟨rfl, hl2⟩ := hl
      have hne : node ≠ head := by intro e; apply hh; simp [e]
      refine ⟨((g.setPrev node P).setNext node head).setPrev head node,
        by simp only [q_sort_loop, hl2, ne_eq, not_true_eq_false, if_false],
        rfl, by simp, ?_, ?_, rfl, rfl⟩
      · simp [Function.update_noteq hne]
      · intro n hn hnh
        have : n ≠ node := by intro e; apply hn; simp [e]
        simp [Function.update_noteq hnh, Function.update_noteq this]
  | cons i I2 ih =>
    intro last fuel g node P hl hnd hnz hh hf
    cases fuel with
    | zero => simp at hf
    | succ fuel =>
      simp only [List.cons_append, lseg_cons] at hl
      obtain ⟨rfl, hl2⟩ := hl
      have hent := lseg_entry hl2
      have hnext0 : g.next node ≠ 0 := by
        apply hnz
        rw [hent]
        cases I2 <;> simp
      have hnd2 : (I2 ++ [last]).Nodup := (List.nodup_cons.mp hnd).2
      have hi : node ∉ I2 ++ [last] := (List.nodup_cons.mp hnd).1
      have hih : node ≠ head := by intro e; apply hh; simp [e]
      obtain ⟨g2, e1, p1, p2, p3, p4, p5, p6⟩ := ih last fuel (g.setPrev node P) (g.next node) node
        hl2 hnd2 (fun n hn => hnz n (List.mem_cons_of_mem _ hn))
        (fun hm => hh (List.mem_cons_of_mem _ hm)) (by simpa using hf)
      refine ⟨g2, ?_, p1, p2, ?_, ?_, p5, p6⟩
      · simp only [q_sort_loop, ne_eq, hnext0, not_false_eq_true, if_true]
        exact e1
      · rw [show (node :: I2 ++ [last]).reverse = (I2 ++ [last]).reverse ++ [node] by simp,
          lseg_append]
        refine ⟨node, p3, rfl, ?_⟩
        rw [p4 node hi hih]; simp
      · intro n hn hnh
        have hn2 : n ∉ I2 ++ [last] := fun hm => hn (List.mem_cons_of_mem _ hm)
        have hn3 : n ≠ node := by intro e; apply hn; simp [e]
        rw [p4 n hn2 hnh]; simp [Function.update_noteq hn3]

theorem q_sort_correct {h : Heap} {head : Ptr} {ns : List Ptr} (hc : Cyc h head ns) (fuel : Nat)
    (hf : ns.length < fuel) :
    ∃ g, q_sort fuel h head = some g ∧ Cyc g head (sortL h.value ns) ∧ g.value = h.value ∧
      g.live = h.live := by
  by_cases hsmall : ns.length < 2
  · refine ⟨h, ?_, by rw [sortL_small _ _ hsmall]; exact hc, rfl, rfl⟩
    match ns, hc, hsmall with
    | [], hc, _ => simp [q_sort, hc.list_empty]
    | [a], hc, _ => simp [q_sort, hc.list_is_singular]
    | _ :: _ :: _, _, hs => simp at hs; omega
  · have hne : ns ≠ [] := by intro e; simp [e] at hsmall
    have hn1 : ns.length ≠ 1 := by omega
    rcases nil_or_snoc ns with e | ⟨I0, lst, hI0⟩
    · exact absurd e hne
    have hprev : h.prev head = lst := by
      have := hc; rw [hI0] at this; exact this.prev_head_concat
    have hlst : lst ∈ ns := by rw [hI0]; simp
    have hhl : head ≠ lst := fun e => hc.head_ne_of_mem hlst e.symm
    have hmem : head ∉ ns := (List.nodup_cons.mp hc.1).1
    have hnd : ns.Nodup := (List.nodup_cons.mp hc.1).2
    have hnz : ∀ n ∈ ns, n ≠ 0 := fun n hn => hc.2.1 n (List.mem_cons_of_mem _ hn)
    -- the cycle is cut after the last node
    have hcut : lseg (h.setNext lst 0).next (h.next head) ns 0 := by
      have := hc.2.2.1.2
      rw [hI0, lseg_append] at this ⊢
      obtain ⟨m, a1, a2⟩ := this
      have : m = lst := a2.1
      subst this
      have hI : m ∉ I0 := by
        rw [hI0] at hnd
        intro hm2
        exact (List.nodup_append.mp hnd).2.2 hm2 (List.mem_singleton_self _)
      exact ⟨m, (lseg_update hI _ _ _).mpr a1, rfl, by simp⟩
    obtain ⟨g1, r, d1, s1, s2, s3, s4, s5⟩ := divide_list_correct fuel (h.setNext lst 0)
      (h.next head) ns hcut hnd hnz hf
    rw [show (h.setNext lst 0).value = h.value from rfl] at s1 s4
    have pS := sortL_perm h.value _ ns (le_refl _)
    have hmemS : head ∉ sortL h.value ns := fun hm => hmem (pS.subset hm)
    obtain ⟨I, last, hS⟩ : ∃ I last, sortL h.value ns = I ++ [last] := by
      rcases nil_or_snoc (sortL h.value ns) with e | hex
      · have := pS.length_eq; rw [e] at this; simp at this
        exact absurd (List.length_eq_zero.mp this.symm) hne
      · exact hex
    have hndS : (I ++ [last]).Nodup := by rw [← hS]; exact pS.nodup_iff.mpr hnd
    have hlI : last ∉ I := fun hm =>
      (List.nodup_append.mp hndS).2.2 hm (List.mem_singleton_self _)
    have hlast : last ≠ head := by
      intro e; apply hmemS; rw [hS, ← e]; simp
    have h3 : lseg (g1.setNext head r).next r (I ++ [last]) 0 := by
      rw [← hS]
      exact (lseg_update hmemS _ _ _).mpr s1
    obtain ⟨g2, e1, p1, p2, p3, p4, p5, p6⟩ := q_sort_loop_correct head I last fuel
      (g1.setNext head r) r head h3 hndS (by rw [← hS]; exact fun n hn => hnz n (pS.subset hn))
      (by rw [← hS]; exact hmemS)
      (by
        have := pS.length_eq
        rw [hS] at this
        simp at this
        omega)
    refine ⟨g2, ?_, ?_, ?_, ?_⟩
    · have hc1 : (decide (head = 0) || list_empty h head || list_is_singular h head) = false := by
        simp [hc.head_ne_zero, hc.list_empty, hc.list_is_singular, hne, hn1]
      simp only [q_sort]
      rw [if_neg (by simpa using hc1), hprev]
      simp only [setNext_next, Function.update_noteq hhl]
      rw [d1]
      simp only [Function.update_same]
      exact e1
    · rw [hS]
      refine ⟨?_, ?_, ?_, ?_⟩
      · rw [← hS]
        exact List.nodup_cons.mpr ⟨hmemS, pS.nodup_iff.mpr hnd⟩
      · rw [← hS]
        intro n hn
        rcases List.mem_cons.mp hn with e | hm
        · rw [e]; exact hc.head_ne_zero
        · exact hnz n (pS.subset hm)
      · refine ⟨rfl, ?_⟩
        rw [p1]
        simp only [setNext_next, Function.update_noteq hlast.symm, Function.update_same]
        rw [lseg_append] at h3 ⊢
        obtain ⟨m, a1, a2⟩ := h3
        have : m = last := a2.1
        subst this
        exact ⟨m, (lseg_update hlI _ _ _).mpr a1, rfl, by simp⟩
      · refine ⟨rfl, ?_⟩
        rw [p2]; exact p3
    · rw [p5]; exact s4
    · rw [p6]; exact s5

theorem lseg_reverse_of_inv {f g : Ptr → Ptr} :
    ∀ (L : List Ptr) (p q : Ptr), lseg f p L q → (∀ x ∈ L, g (f x) = x) →
      lseg g (g q) L.reverse (g p) := by
  intro L
  induction L with
  | nil => intro p q hl _; simp at hl; simp [hl]
  | cons x L ih =>
    intro p q hl hinv
    obtain ⟨rfl, hl2⟩ := hl
    have := ih (f p) q hl2 (fun y hy => hinv y (List.mem_cons_of_mem _ hy))
    rw [hinv p (List.mem_cons_self _ _)] at this
    rw [List.reverse_cons, lseg_append]
    exact ⟨p, this, rfl, rfl⟩

theorem Cyc.inverse {h : Heap} {head : Ptr} {ns : List Ptr} (hc : Cyc h head ns) :
    ∀ n ∈ head :: ns, h.prev (h.next n) = n ∧ h.next (h.prev n) = n := by
  intro n hn
  rcases List.mem_cons.mp hn with rfl | hm
  · constructor
    · cases ns with
      | nil => rw [hc.next_head_nil, hc.prev_head_nil]
      | cons x r =>
        obtain ⟨A, P, B, N, hA, hB, h1, h2, h3, h4⟩ := Cyc.split (show Cyc h n ([] ++ x :: r) from hc)
        have : A = [] ∧ n = P := by
          cases A with
          | nil => simpa using hA
          | cons a A => simp at hA
        rw [this.2, h1, h2]
    · rcases nil_or_snoc ns with rfl | ⟨r, y, rfl⟩
      · rw [hc.prev_head_nil, hc.next_head_nil]
      · obtain ⟨A, P, B, N, hA, hB, h1, h2, h3, h4⟩ := Cyc.split (show Cyc h n (r ++ y :: []) from hc)
        have : B = [] ∧ n = N := by
          cases B with
          | nil => simpa using hB
          | cons a B => simp at hB
        rw [this.2, h4, h3]
  · obtain ⟨pre, post, rfl⟩ := List.append_of_mem hm
    obtain ⟨A, P, B, N, hA, hB, h1, h2, h3, h4⟩ := hc.split
    exact ⟨by rw [h3, h4], by rw [h2, h1]⟩

theorem wellFormed_iff (h : Heap) (head : Ptr) : WellFormed h head ↔ ∃ ns, Cyc h head ns := by
  constructor
  · rintro ⟨ns, hnd, hnz, hn, hinv⟩
    refine ⟨ns, hnd, hnz, hn, rfl, ?_⟩
    have := lseg_reverse_of_inv (g := h.prev) (head :: ns) head head hn (fun x hx => (hinv x hx).1)
    rw [List.reverse_cons, lseg_append] at this
    obtain ⟨m, a1, a2⟩ := this
    have : m = head := a2.1
    subst this
    exact a1
  · rintro ⟨ns, hc⟩
    exact ⟨ns, hc.1, hc.2.1, hc.2.2.1, hc.inverse⟩

theorem Cyc.wellFormed {h : Heap} {head : Ptr} {ns : List Ptr} (hc : Cyc h head ns) :
    WellFormed h head := (wellFormed_iff h head).mpr ⟨ns, hc⟩

theorem not_mem_of_mallocOk {h : Heap} {head a : Ptr} {ns : List Ptr}
    (hlive : ∀ n ∈ head :: ns, h.live n = true) (hm : mallocOk h a) (ha : a ≠ 0) :
    a ∉ head :: ns := by
  intro hmem
  rcases hm with e | e
  · exact ha e
  · rw [hlive a hmem] at e; simp at e

theorem q_insert_head_live {h : Heap} {head a : Ptr} (s : List Nat) (h1 : head ≠ 0)
    (h2 : a ≠ 0) : (q_insert_head h head s a true).2.live = Function.update h.live a true := by
  rw [q_insert_head_eq s h1 h2]; rfl

theorem q_insert_tail_live {h : Heap} {head a : Ptr} (s : List Nat) (h1 : head ≠ 0)
    (h2 : a ≠ 0) : (q_insert_tail h head s a true).2.live = Function.update h.live a true := by
  rw [q_insert_tail_eq s h1 h2]; rfl

/-- An insert that returns `false` leaves every link and every string as it was,
and the heap as a whole when the block `malloc` returned was not allocated. -/
theorem q_insert_head_fail (h : Heap) (head : Ptr) (s : List Nat) (a : Ptr) (b : Bool)
    (hr : (q_insert_head h head s a b).1 = false) :
    (q_insert_head h head s a b).2.next = h.next ∧ (q_insert_head h head s a b).2.prev = h.prev ∧
    (q_insert_head h head s a b).2.value = h.value ∧
    (∀ n, n ≠ a → (q_insert_head h head s a b).2.live n = h.live n) ∧
    (mallocOk h a → (q_insert_head h head s a b).2 = h) := by
  unfold q_insert_head at hr ⊢
  by_cases h1 : head = 0
  · simp [h1]
  by_cases h2 : a = 0
  · simp [h1, h2]
  cases b
  · simp only [h1, h2, if_false, Bool.not_false, if_true]
    refine ⟨rfl, rfl, rfl, ?_, ?_⟩
    · intro n hn; simp [Function.update_noteq hn]
    · intro hm
      rcases hm with e | e
      · exact absurd e h2
      · apply Heap.ext_fields <;> try rfl
        funext n
        by_cases hn : n = a
        · subst hn; simp [e]
        · simp [Function.update_noteq hn]
  · simp [h1, h2] at hr

theorem q_insert_tail_fail (h : Heap) (head : Ptr) (s : List Nat) (a : Ptr) (b : Bool)
    (hr : (q_insert_tail h head s a b).1 = false) :
    (q_insert_tail h head s a b).2.next = h.next ∧ (q_insert_tail h head s a b).2.prev = h.prev ∧
    (q_insert_tail h head s a b).2.value = h.value ∧
    (∀ n, n ≠ a → (q_insert_tail h head s a b).2.live n = h.live n) ∧
    (mallocOk h a → (q_insert_tail h head s a b).2 = h) := by
  unfold q_insert_tail at hr ⊢
  by_cases h1 : head = 0
  · simp [h1]
  by_cases h2 : a = 0
  · simp [h1, h2]
  cases b
  · simp only [h1, h2, if_false, Bool.not_false, if_true]
    refine ⟨rfl, rfl, rfl, ?_, ?_⟩
    · intro n hn; simp [Function.update_noteq hn]
    · intro hm
      rcases hm with e | e
      · exact absurd e h2
      · apply Heap.ext_fields <;> try rfl
        funext n
        by_cases hn : n = a
        · subst hn; simp [e]
        · simp [Function.update_noteq hn]
  · simp [h1, h2] at hr

theorem insert_head_inv {head : Ptr} {t : Trace} {ns : List Ptr} (hi : TraceInv head t ns)
    (s : List Nat) (a : Ptr) (b : Bool) (hm : mallocOk t.heap a) :
    ∃ ns2, TraceInv head ((Call.insert_head s a b).step head t) ns2 := by
  obtain ⟨hc, hlive, hcount⟩ := hi
  by_cases hok : a ≠ 0 ∧ b = true
  · obtain ⟨ha, rfl⟩ := hok
    have hfresh := not_mem_of_mallocOk hlive hm ha
    refine ⟨a :: ns, hc.insert_head s ha hfresh, ?_, ?_⟩
    · intro n hn
      show (q_insert_head t.heap head s a true).2.live n = true
      rw [q_insert_head_live s hc.head_ne_zero ha]
      by_cases e : n = a
      · rw [e, Function.update_same]
      · rw [Function.update_noteq e]
        apply hlive
        simp at hn ⊢; tauto
    · simp only [Call.step, q_insert_head_eq s hc.head_ne_zero ha, List.length_cons, if_true]
      omega
  · have hr : (q_insert_head t.heap head s a b).1 = false := by
      cases hres : (q_insert_head t.heap head s a b).1
      · rfl
      · have := q_insert_head_ok hres
        exact absurd ⟨this.2.1, this.2.2⟩ hok
    have hfail := (q_insert_head_fail t.heap head s a b hr).2.2.2.2 hm
    refine ⟨ns, ?_, ?_, ?_⟩
    · show Cyc (q_insert_head t.heap head s a b).2 head ns
      rw [hfail]; exact hc
    · show ∀ n ∈ head :: ns, (q_insert_head t.heap head s a b).2.live n = true
      rw [hfail]; exact hlive
    · simp only [Call.step, hr, Bool.false_eq_true, if_false]
      exact hcount

theorem insert_tail_inv {head : Ptr} {t : Trace} {ns : List Ptr} (hi : TraceInv head t ns)
    (s : List Nat) (a : Ptr) (b : Bool) (hm : mallocOk t.heap a) :
    ∃ ns2, TraceInv head ((Call.insert_tail s a b).step head t) ns2 := by
  obtain ⟨hc, hlive, hcount⟩ := hi
  by_cases hok : a ≠ 0 ∧ b = true
  · obtain ⟨ha, rfl⟩ := hok
    have hfresh := not_mem_of_mallocOk hlive hm ha
    refine ⟨ns ++ [a], hc.insert_tail s ha hfresh, ?_, ?_⟩
    · intro n hn
      show (q_insert_tail t.heap head s a true).2.live n = true
      rw [q_insert_tail_live s hc.head_ne_zero ha]
      by_cases e : n = a
      · rw [e, Function.update_same]
      · rw [Function.update_noteq e]
        apply hlive
        simp at hn ⊢; tauto
    · simp only [Call.step, q_insert_tail_eq s hc.head_ne_zero ha, List.length_append, List.length_singleton, if_true]
      omega
  · have hr : (q_insert_tail t.heap head s a b).1 = false := by
      cases hres : (q_insert_tail t.heap head s a b).1
      · rfl
      · have := q_insert_tail_ok hres
        exact absurd ⟨this.2.1, this.2.2⟩ hok
    have hfail := (q_insert_tail_fail t.heap head s a b hr).2.2.2.2 hm
    refine ⟨ns, ?_, ?_, ?_⟩
    · show Cyc (q_insert_tail t.heap head s a b).2 head ns
      rw [hfail]; exact hc
    · show ∀ n ∈ head :: ns, (q_insert_tail t.heap head s a b).2.live n = true
      rw [hfail]; exact hlive
    · simp only [Call.step, hr, Bool.false_eq_true, if_false]
      exact hcount

theorem q_remove_head_nil {h : Heap} {head : Ptr} (hc : Cyc h head [])
    (sp : Option (Nat → Nat)) (bufsize : Nat) : q_remove_head h head sp bufsize = (0, h, sp) := by
  simp [q_remove_head, hc.list_empty]

theorem q_remove_tail_nil {h : Heap} {head : Ptr} (hc : Cyc h head [])
    (sp : Option (Nat → Nat)) (bufsize : Nat) : q_remove_tail h head sp bufsize = (0, h, sp) := by
  simp [q_remove_tail, hc.list_empty]

theorem remove_head_inv {head : Ptr} {t : Trace} {ns : List Ptr} (hi : TraceInv head t ns)
    (sp : Option (Nat → Nat)) (bufsize : Nat) :
    ∃ ns2, TraceInv head ((Call.remove_head sp bufsize).step head t) ns2 := by
  obtain ⟨hc, hlive, hcount⟩ := hi
  cases ns with
  | nil =>
    refine ⟨[], ?_, ?_, ?_⟩ <;> simp only [Call.step, q_remove_head_nil hc]
    · exact hc
    · exact hlive
    · simpa using hcount
  | cons x r =>
    have hx0 : x ≠ 0 := hc.2.1 x (by simp)
    refine ⟨r, ?_, ?_, ?_⟩
    · exact hc.remove_head sp bufsize
    · intro n hn
      simp only [Call.step, q_remove_head_eq hc, list_del_live]
      apply hlive; simp at hn ⊢; tauto
    · simp only [Call.step, q_remove_head_eq hc, ne_eq, hx0, not_false_eq_true, if_true]
      simp at hcount; omega

theorem remove_tail_inv {head : Ptr} {t : Trace} {ns : List Ptr} (hi : TraceInv head t ns)
    (sp : Option (Nat → Nat)) (bufsize : Nat) :
    ∃ ns2, TraceInv head ((Call.remove_tail sp bufsize).step head t) ns2 := by
  obtain ⟨hc, hlive, hcount⟩ := hi
  rcases nil_or_snoc ns with rfl | ⟨r, x, rfl⟩
  · refine ⟨[], ?_, ?_, ?_⟩ <;> simp only [Call.step, q_remove_tail_nil hc]
    · exact hc
    · exact hlive
    · simpa using hcount
  · have hx0 : x ≠ 0 := hc.2.1 x (by simp)
    refine ⟨r, ?_, ?_, ?_⟩
    · exact hc.remove_tail sp bufsize
    · intro n hn
      simp only [Call.step, q_remove_tail_eq hc, list_del_live]
      apply hlive; simp at hn ⊢; tauto
    · simp only [Call.step, q_remove_tail_eq hc, ne_eq, hx0, not_false_eq_true, if_true]
      simp at hcount; omega

theorem runCalls_inv (head : Ptr) :
    ∀ (calls : List Call) (t : Trace) (ns : List Ptr), TraceInv head t ns →
      ValidCalls head calls t → ∃ ns2, TraceInv head (runCalls head calls t) ns2 := by
  intro calls
  induction calls with
  | nil => intro t ns hi _; exact ⟨ns, hi⟩
  | cons c cs ih =>
    intro t ns hi hv
    cases c with
    | insert_head s a b =>
      obtain ⟨ns2, hi2⟩ := insert_head_inv hi s a b hv.1
      exact ih _ ns2 hi2 hv.2
    | insert_tail s a b =>
      obtain ⟨ns2, hi2⟩ := insert_tail_inv hi s a b hv.1
      exact ih _ ns2 hi2 hv.2
    | remove_head sp n =>
      obtain ⟨ns2, hi2⟩ := remove_head_inv hi sp n
      exact ih _ ns2 hi2 hv
    | remove_tail sp n =>
      obtain ⟨ns2, hi2⟩ := remove_tail_inv hi sp n
      exact ih _ ns2 hi2 hv

/-- On an absent queue every call fails. -/
theorem runCalls_absent :
    ∀ (calls : List Call) (t : Trace), (runCalls 0 calls t).inserts = t.inserts ∧
      (runCalls 0 calls t).removes = t.removes := by
  intro calls
  induction calls with
  | nil => intro t; exact ⟨rfl, rfl⟩
  | cons c cs ih =>
    intro t
    obtain ⟨h1, h2⟩ := ih (c.step 0 t)
    simp only [runCalls]
    rw [h1, h2]
    cases c <;> simp [Call.step, q_insert_head, q_insert_tail, q_remove_head, q_remove_tail]

theorem q_new_inv (h0 : Heap) (a0 : Ptr) (ha : a0 ≠ 0) :
    TraceInv (q_new h0 a0).1 ⟨(q_new h0 a0).2, 0, 0⟩ [] := by
  simp only [q_new, if_neg ha]
  refine ⟨⟨by simp, by simpa using ha, ?_, ?_⟩, ?_, rfl⟩
  · simp [INIT_LIST_HEAD]
  · simp [INIT_LIST_HEAD]
  · intro n hn
    simp at hn; subst hn
    simp [INIT_LIST_HEAD]

theorem q_size_after_calls (h0 : Heap) (a0 : Ptr) (calls : List Call)
    (hv : ValidCalls (q_new h0 a0).1 calls ⟨(q_new h0 a0).2, 0, 0⟩) :
    (runCalls (q_new h0 a0).1 calls ⟨(q_new h0 a0).2, 0, 0⟩).removes ≤
      (runCalls (q_new h0 a0).1 calls ⟨(q_new h0 a0).2, 0, 0⟩).inserts ∧
    ∀ fuel, (runCalls (q_new h0 a0).1 calls ⟨(q_new h0 a0).2, 0, 0⟩).inserts -
        (runCalls (q_new h0 a0).1 calls ⟨(q_new h0 a0).2, 0, 0⟩).removes < fuel →
      q_size fuel (runCalls (q_new h0 a0).1 calls ⟨(q_new h0 a0).2, 0, 0⟩).heap (q_new h0 a0).1 =
        some ((runCalls (q_new h0 a0).1 calls ⟨(q_new h0 a0).2, 0, 0⟩).inserts -
          (runCalls (q_new h0 a0).1 calls ⟨(q_new h0 a0).2, 0, 0⟩).removes) := by
  by_cases ha : a0 = 0
  · have e : (q_new h0 a0).1 = 0 := by simp [q_new, ha]
    rw [e]
    obtain ⟨h1, h2⟩ := runCalls_absent calls ⟨(q_new h0 a0).2, 0, 0⟩
    rw [h1, h2]
    exact ⟨le_refl _, fun fuel _ => by simp [q_size]⟩
  · obtain ⟨ns, hc, _, hcount⟩ := runCalls_inv _ calls _ [] (q_new_inv h0 a0 ha) hv
    refine ⟨by omega, fun fuel hf => ?_⟩
    rw [hc.q_size fuel (by omega)]
    congr 1; omega

theorem q_values_loop_eq (h : Heap) (head : Ptr) :
    ∀ (ns : List Ptr) (p fuel : Nat), lseg h.next p ns head → head ∉ ns → ns.length < fuel →
      q_values_loop fuel h head p = some (values h ns) := by
  intro ns
  induction ns with
  | nil =>
    intro p fuel hl _ hfu
    cases fuel with
    | zero => simp at hfu
    | succ fuel => simp at hl; simp [q_values_loop, hl, values]
  | cons n ns ih =>
    intro p fuel hl hh hfu
    cases fuel with
    | zero => simp at hfu
    | succ fuel =>
      obtain ⟨rfl, hl2⟩ := hl
      have hne : p ≠ head := by intro e; apply hh; simp [e]
      simp only [q_values_loop, ne_eq, hne, not_false_eq_true, if_true]
      rw [ih _ _ hl2 (fun hm => hh (List.mem_cons_of_mem _ hm)) (by simpa using hfu)]
      simp [values]

theorem Cyc.q_values {h : Heap} {head : Ptr} {ns : List Ptr} (hc : Cyc h head ns) (fuel : Nat)
    (hfu : ns.length < fuel) : Queue.q_values fuel h head = some (values h ns) :=
  q_values_loop_eq h head ns (h.next head) fuel hc.2.2.1.2 (List.nodup_cons.mp hc.1).1 hfu

theorem swapPairs_length : ∀ (l : List Ptr), (swapPairs l).length = l.length
  | [] => rfl
  | [_] => rfl
  | a :: b :: r => by simp [swapPairs, swapPairs_length r]

theorem swapPairs_getElem? : ∀ (l : List Ptr) (i : Nat), i < l.length →
    (swapPairs l)[i]? =
      if i % 2 = 1 then l[i - 1]? else if i + 1 < l.length then l[i + 1]? else l[i]?
  | [], i, hi => by simp at hi
  | [a], i, hi => by
    have : i = 0 := by simpa using hi
    subst this; simp [swapPairs]
  | a :: b :: r, 0, _ => by simp [swapPairs]
  | a :: b :: r, 1, _ => by simp [swapPairs]
  | a :: b :: r, i + 2, hi => by
    have hi2 : i < r.length := by simpa using hi
    have ih := swapPairs_getElem? r i hi2
    simp only [swapPairs, List.getElem?_cons_succ, ih, List.length_cons]
    have e1 : (i + 2) % 2 = i % 2 := by omega
    rw [e1]
    by_cases h1 : i % 2 = 1
    · simp only [h1, if_true]
      obtain ⟨j, rfl⟩ : ∃ j, i = j + 1 := ⟨i - 1, by omega⟩
      simp
    · simp only [h1, if_false]
      by_cases h2 : i + 1 < r.length
      · rw [if_pos h2, if_pos (by omega)]
      · rw [if_neg h2, if_neg (by omega)]

/-- C1: for every well-formed queue `q_sort` returns, and the values then read
in traversal order from `head->next` are non-decreasing under `strcmp` and a
permutation of the values the queue held before the call. -/
theorem q_sort_sorted_perm (h : Heap) (head : Ptr) (ns : List Ptr) (fuel : Nat)
    (hc : Cyc h head ns) (hf : ns.length < fuel) :
    ∃ g vs, q_sort fuel h head = some g ∧ q_values fuel g head = some vs ∧
      SortedVals vs ∧ vs.Perm (values h ns) ∧ q_values fuel h head = some (values h ns) := by
  obtain ⟨g, e1, hc2, hv, _⟩ := q_sort_correct hc fuel hf
  have hp := sortL_perm h.value _ ns (le_refl _)
  refine ⟨g, values g (sortL h.value ns), e1, hc2.q_values fuel (by rw [hp.length_eq]; exact hf),
    ?_, ?_, hc.q_values fuel hf⟩
  · rw [values, hv]; exact sortL_sorted h.value _ ns (le_refl _)
  · rw [values, hv]; exact hp.map _

theorem q_sort_sorted_perm_witness :
    Cyc (queueOf [[3], [1], [2]]) 1 [2, 3, 4] ∧
    ∃ g vs, q_sort 4 (queueOf [[3], [1], [2]]) 1 = some g ∧ q_values 4 g 1 = some vs ∧
      SortedVals vs ∧ vs.Perm (values (queueOf [[3], [1], [2]]) [2, 3, 4]) ∧
      q_values 4 (queueOf [[3], [1], [2]]) 1 = some (values (queueOf [[3], [1], [2]]) [2, 3, 4]) :=
  ⟨by decide, q_sort_sorted_perm _ 1 [2, 3, 4] 4 (by decide) (by decide)⟩

/-- C2: well-formedness (the links form a single cycle through the sentinel and
`n.next.prev == n`, `n.prev.next == n` for every node `n` of it) is preserved by
`q_insert_head`, `q_insert_tail` (the block `malloc` returns not being part of
the queue), `q_remove_head`, `q_remove_tail`, `q_delete_mid`, `q_delete_dup`,
`q_swap`, `q_reverse` and `q_sort`, each of which returns. -/
theorem wellFormed_preserved (h : Heap) (head : Ptr) (hw : WellFormed h head) :
    ∃ ns, Cyc h head ns ∧
      (∀ s a b, a ∉ head :: ns → WellFormed (q_insert_head h head s a b).2 head) ∧
      (∀ s a b, a ∉ head :: ns → WellFormed (q_insert_tail h head s a b).2 head) ∧
      (∀ sp n, WellFormed (q_remove_head h head sp n).2.1 head) ∧
      (∀ sp n, WellFormed (q_remove_tail h head sp n).2.1 head) ∧
      (∀ fuel, ns.length < fuel →
        ∃ r, q_delete_mid fuel h head = some r ∧ WellFormed r.2 head) ∧
      (∀ fuel, ns.length < fuel →
        ∃ r, q_delete_dup fuel h head = some r ∧ WellFormed r.2 head) ∧
      (∀ fuel, ns.length < fuel → ∃ g, q_swap fuel h head = some g ∧ WellFormed g head) ∧
      (∀ fuel, ns.length < fuel → ∃ g, q_reverse fuel h head = some g ∧ WellFormed g head) ∧
      (∀ fuel, ns.length < fuel → ∃ g, q_sort fuel h head = some g ∧ WellFormed g head) := by
  obtain ⟨ns, hc⟩ := (wellFormed_iff h head).mp hw
  refine ⟨ns, hc, ?_, ?_, ?_, ?_, ?_, ?_, ?_, ?_, ?_⟩
  · intro s a b ha
    cases hr : (q_insert_head h head s a b).1
    · obtain ⟨e1, e2, _⟩ := q_insert_head_fail h head s a b hr
      exact (hc.congr e1 e2).wellFormed
    · obtain ⟨_, ha0, rfl⟩ := q_insert_head_ok hr
      exact (hc.insert_head s ha0 ha).wellFormed
  · intro s a b ha
    cases hr : (q_insert_tail h head s a b).1
    · obtain ⟨e1, e2, _⟩ := q_insert_tail_fail h head s a b hr
      exact (hc.congr e1 e2).wellFormed
    · obtain ⟨_, ha0, rfl⟩ := q_insert_tail_ok hr
      exact (hc.insert_tail s ha0 ha).wellFormed
  · intro sp n
    cases ns with
    | nil => rw [q_remove_head_nil hc]; exact hw
    | cons x r => exact (hc.remove_head sp n).wellFormed
  · intro sp n
    rcases nil_or_snoc ns with rfl | ⟨r, x, rfl⟩
    · rw [q_remove_tail_nil hc]; exact hw
    · exact (hc.remove_tail sp n).wellFormed
  · intro fuel hf
    by_cases hne : ns = []
    · refine ⟨(false, h), ?_, hw⟩
      simp [q_delete_mid, hc.list_empty, hne]
    · obtain ⟨x, post, _, e1, hc2⟩ := q_delete_mid_correct hc hne fuel
        (lt_of_le_of_lt (Nat.div_le_self _ _) hf)
      exact ⟨_, e1, hc2.wellFormed⟩
  · intro fuel hf
    by_cases h2 : 2 ≤ ns.length
    · obtain ⟨g, e1, hc2, _⟩ := q_delete_dup_correct hc h2 fuel hf
      exact ⟨_, e1, hc2.wellFormed⟩
    · refine ⟨(false, h), ?_, hw⟩
      have : ns = [] ∨ ns.length = 1 := by
        cases ns with
        | nil => exact Or.inl rfl
        | cons x r => right; simp only [List.length_cons] at h2 ⊢; omega
      rcases this with e | e
      · simp [q_delete_dup, hc.list_empty, e]
      · simp [q_delete_dup, hc.list_is_singular, e]
  · intro fuel hf
    obtain ⟨g, e1, hc2, _⟩ := q_swap_correct hc fuel hf
    exact ⟨g, e1, hc2.wellFormed⟩
  · intro fuel hf
    exact ⟨_, q_reverse_eq hc fuel hf, hc.flipLinks.wellFormed⟩
  · intro fuel hf
    obtain ⟨g, e1, hc2, _⟩ := q_sort_correct hc fuel hf
    exact ⟨g, e1, hc2.wellFormed⟩

theorem wellFormed_preserved_witness :
    WellFormed (queueOf [[2], [1]]) 1 ∧
    ∃ ns, Cyc (queueOf [[2], [1]]) 1 ns ∧
      (∀ s a b, a ∉ 1 :: ns → WellFormed (q_insert_head (queueOf [[2], [1]]) 1 s a b).2 1) ∧
      (∀ s a b, a ∉ 1 :: ns → WellFormed (q_insert_tail (queueOf [[2], [1]]) 1 s a b).2 1) ∧
      (∀ sp n, WellFormed (q_remove_head (queueOf [[2], [1]]) 1 sp n).2.1 1) ∧
      (∀ sp n, WellFormed (q_remove_tail (queueOf [[2], [1]]) 1 sp n).2.1 1) ∧
      (∀ fuel, ns.length < fuel →
        ∃ r, q_delete_mid fuel (queueOf [[2], [1]]) 1 = some r ∧ WellFormed r.2 1) ∧
      (∀ fuel, ns.length < fuel →
        ∃ r, q_delete_dup fuel (queueOf [[2], [1]]) 1 = some r ∧ WellFormed r.2 1) ∧
      (∀ fuel, ns.length < fuel →
        ∃ g, q_swap fuel (queueOf [[2], [1]]) 1 = some g ∧ WellFormed g 1) ∧
      (∀ fuel, ns.length < fuel →
        ∃ g, q_reverse fuel (queueOf [[2], [1]]) 1 = some g ∧ WellFormed g 1) ∧
      (∀ fuel, ns.length < fuel →
        ∃ g, q_sort fuel (queueOf [[2], [1]]) 1 = some g ∧ WellFormed g 1) :=
  ⟨⟨[2, 3], by decide⟩, wellFormed_preserved _ 1 ⟨[2, 3], by decide⟩⟩

/-- C3: for every well-formed queue with nodes `ns` in traversal order,
`q_reverse` returns and the nodes are then `ns.reverse` in traversal order, with
their values; on an empty queue and on a queue of one element the heap is left
as it was. -/
theorem q_reverse_order (h : Heap) (head : Ptr) (ns : List Ptr) (fuel : Nat)
    (hc : Cyc h head ns) (hf : ns.length < fuel) :
    ∃ g, q_reverse fuel h head = some g ∧ Cyc g head ns.reverse ∧ g.value = h.value ∧
      (ns.length ≤ 1 → g = h) :=
  ⟨_, q_reverse_eq hc fuel hf, hc.flipLinks, rfl, fun hs => q_reverse_small hc hs⟩

theorem q_reverse_order_witness :
    Cyc (queueOf [[1], [2], [3]]) 1 [2, 3, 4] ∧
    ∃ g, q_reverse 4 (queueOf [[1], [2], [3]]) 1 = some g ∧ Cyc g 1 [2, 3, 4].reverse ∧
      g.value = (queueOf [[1], [2], [3]]).value ∧
      ([2, 3, 4].length ≤ 1 → g = queueOf [[1], [2], [3]]) :=
  ⟨by decide, q_reverse_order _ 1 [2, 3, 4] 4 (by decide) (by decide)⟩

/-- C4: `q_reverse` is an involution: applied twice to a well-formed queue, it
gives back the heap it started from, hence the original traversal order and the
original `next` and `prev` links. -/
theorem q_reverse_involution (h : Heap) (head : Ptr) (ns : List Ptr) (fuel : Nat)
    (hc : Cyc h head ns) (hf : ns.length < fuel) :
    ∃ g, q_reverse fuel h head = some g ∧ q_reverse fuel g head = some h := by
  have h2 := q_reverse_twice hc fuel hf
  rw [q_reverse_eq hc fuel hf] at h2 ⊢
  exact ⟨_, rfl, h2⟩

theorem q_reverse_involution_witness :
    Cyc (queueOf [[1], [2], [3]]) 1 [2, 3, 4] ∧
    ∃ g, q_reverse 4 (queueOf [[1], [2], [3]]) 1 = some g ∧
      q_reverse 4 g 1 = some (queueOf [[1], [2], [3]]) :=
  ⟨by decide, q_reverse_involution _ 1 [2, 3, 4] 4 (by decide) (by decide)⟩

/-- C5: for every well-formed queue with nodes `ns` in traversal order, `q_swap`
returns and the nodes are then `swapPairs ns`: the node at an odd index `i` is
the one that was at `i - 1`, the node at an even index `i` is the one that was
at `i + 1`, or the one that was at `i` when it is the last of an odd number of
nodes; the queue `[1,2,3,4,5]` becomes `[2,1,4,3,5]`. -/
theorem q_swap_pairs (h : Heap) (head : Ptr) (ns : List Ptr) (fuel : Nat)
    (hc : Cyc h head ns) (hf : ns.length < fuel) :
    (∃ g, q_swap fuel h head = some g ∧ Cyc g head (swapPairs ns) ∧ g.value = h.value) ∧
    (∀ i, i < ns.length → (swapPairs ns)[i]? =
      if i % 2 = 1 then ns[i - 1]? else if i + 1 < ns.length then ns[i + 1]? else ns[i]?) ∧
    (q_swap 6 (queueOf [[1], [2], [3], [4], [5]]) 1).bind (fun g => q_values 6 g 1) =
      some [[2], [1], [4], [3], [5]] := by
  obtain ⟨g, e1, hc2, hv, _⟩ := q_swap_correct hc fuel hf
  exact ⟨⟨g, e1, hc2, hv⟩, swapPairs_getElem? ns, by decide!⟩

theorem q_swap_pairs_witness :
    Cyc (queueOf [[1], [2], [3]]) 1 [2, 3, 4] ∧
    (∃ g, q_swap 4 (queueOf [[1], [2], [3]]) 1 = some g ∧ Cyc g 1 (swapPairs [2, 3, 4]) ∧
      g.value = (queueOf [[1], [2], [3]]).value) ∧
    (∀ i, i < [2, 3, 4].length → (swapPairs [2, 3, 4])[i]? =
      if i % 2 = 1 then [2, 3, 4][i - 1]?
      else if i + 1 < [2, 3, 4].length then [2, 3, 4][i + 1]? else [2, 3, 4][i]?) ∧
    (q_swap 6 (queueOf [[1], [2], [3], [4], [5]]) 1).bind (fun g => q_values 6 g 1) =
      some [[2], [1], [4], [3], [5]] :=
  ⟨by decide, q_swap_pairs _ 1 [2, 3, 4] 4 (by decide) (by decide)⟩

/-- C6: for every well-formed queue with `n >= 1` nodes, `q_delete_mid` returns
`true`, unlinks and releases exactly the node at zero-based index `n / 2`, and
leaves the other nodes in their order (and their values and blocks as they
were); for an empty or an absent queue it returns `false` and changes nothing. -/
theorem q_delete_mid_spec (h : Heap) (head : Ptr) (ns : List Ptr) (fuel : Nat)
    (hc : Cyc h head ns) (hf : ns.length < fuel) :
    (ns ≠ [] → ∃ g x, ns[ns.length / 2]? = some x ∧
      q_delete_mid fuel h head = some (true, g) ∧ Cyc g head (ns.eraseIdx (ns.length / 2)) ∧
      g.value = h.value ∧ g.live x = false ∧ ∀ n, n ≠ x → g.live n = h.live n) ∧
    (ns = [] → q_delete_mid fuel h head = some (false, h)) ∧
    q_delete_mid fuel h 0 = some (false, h) := by
  refine ⟨?_, ?_, by simp [q_delete_mid]⟩
  · intro hne
    obtain ⟨x, post, hd, e1, hc2⟩ := q_delete_mid_correct hc hne fuel
      (lt_of_le_of_lt (Nat.div_le_self _ _) hf)
    refine ⟨_, x, ?_, e1, hc2, rfl, ?_, ?_⟩
    · have := List.getElem?_drop (L := ns) (i := ns.length / 2) (j := 0)
      rw [hd] at this
      simpa using this.symm
    · simp [q_release_element]
    · intro n hn
      simp [q_release_element, list_del_init, INIT_LIST_HEAD, Queue.list_del,
        Function.update_noteq hn]
  · intro hne
    simp [q_delete_mid, hc.list_empty, hne]

theorem q_delete_mid_spec_witness :
    Cyc (queueOf [[0], [1], [2], [3], [4], [5]]) 1 [2, 3, 4, 5, 6, 7] ∧
    ([2, 3, 4, 5, 6, 7] ≠ [] → ∃ g x, [2, 3, 4, 5, 6, 7][[2, 3, 4, 5, 6, 7].length / 2]? = some x ∧
      q_delete_mid 7 (queueOf [[0], [1], [2], [3], [4], [5]]) 1 = some (true, g) ∧
      Cyc g 1 ([2, 3, 4, 5, 6, 7].eraseIdx ([2, 3, 4, 5, 6, 7].length / 2)) ∧
      g.value = (queueOf [[0], [1], [2], [3], [4], [5]]).value ∧ g.live x = false ∧
      ∀ n, n ≠ x → g.live n = (queueOf [[0], [1], [2], [3], [4], [5]]).live n) ∧
    ([2, 3, 4, 5, 6, 7] = [] →
      q_delete_mid 7 (queueOf [[0], [1], [2], [3], [4], [5]]) 1 =
        some (false, queueOf [[0], [1], [2], [3], [4], [5]])) ∧
    q_delete_mid 7 (queueOf [[0], [1], [2], [3], [4], [5]]) 0 =
      some (false, queueOf [[0], [1], [2], [3], [4], [5]]) :=
  ⟨by decide!, q_delete_mid_spec _ 1 [2, 3, 4, 5, 6, 7] 7 (by decide!) (by decide)⟩

/-- C7: for every well-formed queue with at least two nodes whose values are
sorted ascending, `q_delete_dup` returns `true` and the queue then holds exactly
the nodes whose value occurred exactly once in the original queue, in their
original order; the queue `["a","a","b","c","c"]` becomes `["b"]`. -/
theorem q_delete_dup_sorted (h : Heap) (head : Ptr) (ns : List Ptr) (fuel : Nat)
    (hc : Cyc h head ns) (h2 : 2 ≤ ns.length) (hs : SortedVals (values h ns))
    (hf : ns.length < fuel) :
    (∃ g, q_delete_dup fuel h head = some (true, g) ∧
      Cyc g head (ns.filter (fun n => decide ((values h ns).count (h.value n) = 1))) ∧
      g.value = h.value) ∧
    (q_delete_dup 6 (queueOf [[97], [97], [98], [99], [99]]) 1).bind
      (fun r => (q_values 6 r.2 1).map (fun vs => (r.1, vs))) = some (true, [[98]]) := by
  obtain ⟨g, e1, hc2, hv⟩ := q_delete_dup_correct hc h2 fuel hf
  rw [ddL_sorted h.value ns hs] at hc2
  exact ⟨⟨g, e1, hc2, hv⟩, by decide!⟩

theorem q_delete_dup_sorted_witness :
    (Cyc (queueOf [[97], [97], [98]]) 1 [2, 3, 4] ∧ 2 ≤ [2, 3, 4].length ∧
      SortedVals (values (queueOf [[97], [97], [98]]) [2, 3, 4])) ∧
    (∃ g, q_delete_dup 4 (queueOf [[97], [97], [98]]) 1 = some (true, g) ∧
      Cyc g 1 ([2, 3, 4].filter (fun n => decide
        ((values (queueOf [[97], [97], [98]]) [2, 3, 4]).count
          ((queueOf [[97], [97], [98]]).value n) = 1))) ∧
      g.value = (queueOf [[97], [97], [98]]).value) ∧
    (q_delete_dup 6 (queueOf [[97], [97], [98], [99], [99]]) 1).bind
      (fun r => (q_values 6 r.2 1).map (fun vs => (r.1, vs))) = some (true, [[98]]) :=
  ⟨⟨by decide, by decide, by decide⟩,
    q_delete_dup_sorted _ 1 [2, 3, 4] 4 (by decide) (by decide) (by decide) (by decide)⟩

/-- C8: on an existing well-formed queue with nodes `ns`, when `malloc` returns
a block `a` that is not part of the queue, an insert that returns `true` makes
`a`, holding a copy of `s`, the first node (`q_insert_head`) or the last node
(`q_insert_tail`); the nodes `ns` keep their order and their values, and
`q_size` grows by exactly one. -/
theorem q_insert_spec (h : Heap) (head : Ptr) (ns : List Ptr) (s : List Nat) (a : Ptr)
    (b : Bool) (fuel : Nat) (hc : Cyc h head ns) (hfresh : a ∉ head :: ns)
    (hf : ns.length + 1 < fuel) :
    q_size fuel h head = some ns.length ∧
    ((q_insert_head h head s a b).1 = true →
      Cyc (q_insert_head h head s a b).2 head (a :: ns) ∧
      (q_insert_head h head s a b).2.value a = s ∧
      (∀ n ∈ ns, (q_insert_head h head s a b).2.value n = h.value n) ∧
      q_size fuel (q_insert_head h head s a b).2 head = some (ns.length + 1)) ∧
    ((q_insert_tail h head s a b).1 = true →
      Cyc (q_insert_tail h head s a b).2 head (ns ++ [a]) ∧
      (q_insert_tail h head s a b).2.value a = s ∧
      (∀ n ∈ ns, (q_insert_tail h head s a b).2.value n = h.value n) ∧
      q_size fuel (q_insert_tail h head s a b).2 head = some (ns.length + 1)) := by
  refine ⟨hc.q_size fuel (by omega), ?_, ?_⟩
  · intro hr
    obtain ⟨h1, h2, rfl⟩ := q_insert_head_ok hr
    have hc2 := hc.insert_head s h2 hfresh
    refine ⟨hc2, ?_, ?_, ?_⟩
    · rw [q_insert_head_value s h1 h2]; simp
    · intro n hn
      have : n ≠ a := fun e => hfresh (e ▸ List.mem_cons_of_mem _ hn)
      rw [q_insert_head_value s h1 h2, Function.update_noteq this]
    · rw [hc2.q_size fuel (by simpa using hf)]; simp
  · intro hr
    obtain ⟨h1, h2, rfl⟩ := q_insert_tail_ok hr
    have hc2 := hc.insert_tail s h2 hfresh
    refine ⟨hc2, ?_, ?_, ?_⟩
    · rw [q_insert_tail_value s h1 h2]; simp
    · intro n hn
      have : n ≠ a := fun e => hfresh (e ▸ List.mem_cons_of_mem _ hn)
      rw [q_insert_tail_value s h1 h2, Function.update_noteq this]
    · rw [hc2.q_size fuel (by simpa using hf)]; simp

theorem q_insert_spec_witness :
    (Cyc (queueOf [[1], [2]]) 1 [2, 3] ∧ 4 ∉ 1 :: [2, 3] ∧
      (q_insert_head (queueOf [[1], [2]]) 1 [7] 4 true).1 = true ∧
      (q_insert_tail (queueOf [[1], [2]]) 1 [7] 4 true).1 = true) ∧
    q_size 4 (queueOf [[1], [2]]) 1 = some [2, 3].length ∧
    ((q_insert_head (queueOf [[1], [2]]) 1 [7] 4 true).1 = true →
      Cyc (q_insert_head (queueOf [[1], [2]]) 1 [7] 4 true).2 1 (4 :: [2, 3]) ∧
      (q_insert_head (queueOf [[1], [2]]) 1 [7] 4 true).2.value 4 = [7] ∧
      (∀ n ∈ [2, 3], (q_insert_head (queueOf [[1], [2]]) 1 [7] 4 true).2.value n =
        (queueOf [[1], [2]]).value n) ∧
      q_size 4 (q_insert_head (queueOf [[1], [2]]) 1 [7] 4 true).2 1 = some ([2, 3].length + 1)) ∧
    ((q_insert_tail (queueOf [[1], [2]]) 1 [7] 4 true).1 = true →
      Cyc (q_insert_tail (queueOf [[1], [2]]) 1 [7] 4 true).2 1 ([2, 3] ++ [4]) ∧
      (q_insert_tail (queueOf [[1], [2]]) 1 [7] 4 true).2.value 4 = [7] ∧
      (∀ n ∈ [2, 3], (q_insert_tail (queueOf [[1], [2]]) 1 [7] 4 true).2.value n =
        (queueOf [[1], [2]]).value n) ∧
      q_size 4 (q_insert_tail (queueOf [[1], [2]]) 1 [7] 4 true).2 1 = some ([2, 3].length + 1)) :=
  ⟨⟨by decide, by decide, by decide, by decide⟩,
    q_insert_spec _ 1 [2, 3] [7] 4 true 4 (by decide) (by decide) (by decide)⟩

/-- C9: on a non-empty well-formed queue, called without an output buffer or
with one of capacity `1 <= bufsize` (a `size_t`), `q_remove_head` returns the
first node and `q_remove_tail` the last one; the heap keeps every value and
every block (the node is unlinked, not released) and the other nodes stay in the
queue in their order.  After `insert_tail` of "a", "b", "c" the size is 3 and
`q_remove_head` returns the node holding "a", leaving ["b","c"]. -/
theorem q_remove_spec (h : Heap) (head : Ptr) (ns : List Ptr) (sp : Option (Nat → Nat))
    (bufsize : Nat) (hc : Cyc h head ns) (hne : ns ≠ [])
    (hb : sp = none ∨ (1 ≤ bufsize ∧ bufsize < 2 ^ 64)) :
    (∃ x, ns.head? = some x ∧ (q_remove_head h head sp bufsize).1 = x ∧
      Cyc (q_remove_head h head sp bufsize).2.1 head ns.tail ∧
      (q_remove_head h head sp bufsize).2.1.value = h.value ∧
      (q_remove_head h head sp bufsize).2.1.live = h.live) ∧
    (∃ y, ns.getLast? = some y ∧ (q_remove_tail h head sp bufsize).1 = y ∧
      Cyc (q_remove_tail h head sp bufsize).2.1 head ns.dropLast ∧
      (q_remove_tail h head sp bufsize).2.1.value = h.value ∧
      (q_remove_tail h head sp bufsize).2.1.live = h.live) ∧
    (q_size 4 (queueOf [[97], [98], [99]]) 1 = some 3 ∧
      (queueOf [[97], [98], [99]]).value (q_remove_head (queueOf [[97], [98], [99]]) 1 none 0).1 =
        [97] ∧
      q_values 4 (q_remove_head (queueOf [[97], [98], [99]]) 1 none 0).2.1 1 =
        some [[98], [99]]) := by
  have _ := hb
  refine ⟨?_, ?_, by decide⟩
  · cases ns with
    | nil => exact absurd rfl hne
    | cons x r =>
      refine ⟨x, rfl, ?_, hc.remove_head sp bufsize, ?_, ?_⟩ <;> rw [q_remove_head_eq hc] <;> rfl
  · rcases nil_or_snoc ns with rfl | ⟨r, y, rfl⟩
    · exact absurd rfl hne
    · refine ⟨y, by simp, ?_, by simpa using hc.remove_tail sp bufsize, ?_, ?_⟩ <;>
        rw [q_remove_tail_eq hc] <;> rfl

theorem q_remove_spec_witness :
    (Cyc (queueOf [[97], [98], [99]]) 1 [2, 3, 4] ∧ [2, 3, 4] ≠ [] ∧
      ((some (fun _ => 9) : Option (Nat → Nat)) = none ∨ (1 ≤ 4 ∧ 4 < 2 ^ 64))) ∧
    (∃ x, [2, 3, 4].head? = some x ∧
      (q_remove_head (queueOf [[97], [98], [99]]) 1 (some (fun _ => 9)) 4).1 = x ∧
      Cyc (q_remove_head (queueOf [[97], [98], [99]]) 1 (some (fun _ => 9)) 4).2.1 1 [2, 3, 4].tail ∧
      (q_remove_head (queueOf [[97], [98], [99]]) 1 (some (fun _ => 9)) 4).2.1.value =
        (queueOf [[97], [98], [99]]).value ∧
      (q_remove_head (queueOf [[97], [98], [99]]) 1 (some (fun _ => 9)) 4).2.1.live =
        (queueOf [[97], [98], [99]]).live) ∧
    (∃ y, [2, 3, 4].getLast? = some y ∧
      (q_remove_tail (queueOf [[97], [98], [99]]) 1 (some (fun _ => 9)) 4).1 = y ∧
      Cyc (q_remove_tail (queueOf [[97], [98], [99]]) 1 (some (fun _ => 9)) 4).2.1 1
        [2, 3, 4].dropLast ∧
      (q_remove_tail (queueOf [[97], [98], [99]]) 1 (some (fun _ => 9)) 4).2.1.value =
        (queueOf [[97], [98], [99]]).value ∧
      (q_remove_tail (queueOf [[97], [98], [99]]) 1 (some (fun _ => 9)) 4).2.1.live =
        (queueOf [[97], [98], [99]]).live) ∧
    (q_size 4 (queueOf [[97], [98], [99]]) 1 = some 3 ∧
      (queueOf [[97], [98], [99]]).value (q_remove_head (queueOf [[97], [98], [99]]) 1 none 0).1 =
        [97] ∧
      q_values 4 (q_remove_head (queueOf [[97], [98], [99]]) 1 none 0).2.1 1 =
        some [[98], [99]]) :=
  ⟨⟨by decide, by decide, Or.inr ⟨by decide, by decide⟩⟩,
    q_remove_spec _ 1 [2, 3, 4] (some (fun _ => 9)) 4 (by decide) (by decide)
      (Or.inr ⟨by decide, by decide⟩)⟩

/-- C10: after any sequence of `q_insert_head`, `q_insert_tail`, `q_remove_head`
and `q_remove_tail` calls on a queue just made by `q_new` (every `malloc` result
being one `malloc` may return), `q_size` is the number of inserts that returned
`true` minus the number of removes that returned a node; `q_size` of a
well-formed queue is the number of its nodes, and it is 0 for an empty and for
an absent queue. -/
theorem q_size_counts (h0 : Heap) (a0 : Ptr) (calls : List Call)
    (hv : ValidCalls (q_new h0 a0).1 calls ⟨(q_new h0 a0).2, 0, 0⟩) :
    ((runCalls (q_new h0 a0).1 calls ⟨(q_new h0 a0).2, 0, 0⟩).removes ≤
      (runCalls (q_new h0 a0).1 calls ⟨(q_new h0 a0).2, 0, 0⟩).inserts ∧
    ∀ fuel, (runCalls (q_new h0 a0).1 calls ⟨(q_new h0 a0).2, 0, 0⟩).inserts -
        (runCalls (q_new h0 a0).1 calls ⟨(q_new h0 a0).2, 0, 0⟩).removes < fuel →
      q_size fuel (runCalls (q_new h0 a0).1 calls ⟨(q_new h0 a0).2, 0, 0⟩).heap (q_new h0 a0).1 =
        some ((runCalls (q_new h0 a0).1 calls ⟨(q_new h0 a0).2, 0, 0⟩).inserts -
          (runCalls (q_new h0 a0).1 calls ⟨(q_new h0 a0).2, 0, 0⟩).removes)) ∧
    (∀ (h : Heap) (head : Ptr) (ns : List Ptr) (fuel : Nat), Cyc h head ns → ns.length < fuel →
      q_size fuel h head = some ns.length) ∧
    (∀ (h : Heap) (head : Ptr) (fuel : Nat), Cyc h head [] → 0 < fuel →
      q_size fuel h head = some 0) ∧
    (∀ (h : Heap) (fuel : Nat), q_size fuel h 0 = some 0) :=
  ⟨q_size_after_calls h0 a0 calls hv, fun _ _ _ fuel hc hf => hc.q_size fuel hf,
    fun _ _ fuel hc hf => hc.q_size fuel hf, fun _ _ => by simp [q_size]⟩

theorem q_size_counts_witness :
    ValidCalls (q_new emptyHeap 1).1 exampleCalls ⟨(q_new emptyHeap 1).2, 0, 0⟩ ∧
    ((runCalls (q_new emptyHeap 1).1 exampleCalls ⟨(q_new emptyHeap 1).2, 0, 0⟩).removes ≤
      (runCalls (q_new emptyHeap 1).1 exampleCalls ⟨(q_new emptyHeap 1).2, 0, 0⟩).inserts ∧
    ∀ fuel, (runCalls (q_new emptyHeap 1).1 exampleCalls ⟨(q_new emptyHeap 1).2, 0, 0⟩).inserts -
        (runCalls (q_new emptyHeap 1).1 exampleCalls ⟨(q_new emptyHeap 1).2, 0, 0⟩).removes < fuel →
      q_size fuel (runCalls (q_new emptyHeap 1).1 exampleCalls ⟨(q_new emptyHeap 1).2, 0, 0⟩).heap
          (q_new emptyHeap 1).1 =
        some ((runCalls (q_new emptyHeap 1).1 exampleCalls ⟨(q_new emptyHeap 1).2, 0, 0⟩).inserts -
          (runCalls (q_new emptyHeap 1).1 exampleCalls ⟨(q_new emptyHeap 1).2, 0, 0⟩).removes)) ∧
    (∀ (h : Heap) (head : Ptr) (ns : List Ptr) (fuel : Nat), Cyc h head ns → ns.length < fuel →
      q_size fuel h head = some ns.length) ∧
    (∀ (h : Heap) (head : Ptr) (fuel : Nat), Cyc h head [] → 0 < fuel →
      q_size fuel h head = some 0) ∧
    (∀ (h : Heap) (fuel : Nat), q_size fuel h 0 = some 0) :=
  ⟨by decide, q_size_counts emptyHeap 1 exampleCalls (by decide)⟩

theorem list_add_next (h : Heap) (x p : Ptr) :
    (list_add h x p).next = Function.update (Function.update h.next x (h.next p)) p x := rfl

theorem list_add_prev (h : Heap) (x p : Ptr) :
    (list_add h x p).prev = Function.update (Function.update h.prev (h.next p) x) x p := rfl

theorem list_del_next (h : Heap) (x : Ptr) :
    (list_del h x).next = Function.update h.next (h.prev x) (h.next x) := rfl

theorem list_del_prev (h : Heap) (x : Ptr) :
    (list_del h x).prev = Function.update h.prev (h.next x) (h.prev x) := rfl

/-- Unlinking the node that `list_add` has just linked after `head` restores the
links of every other node. -/
theorem list_del_list_add (h : Heap) (head a : Ptr) (hah : a ≠ head)
    (hinv : h.prev (h.next head) = head) :
    ∀ x, x ≠ a → (list_del (list_add h a head) a).next x = h.next x ∧
      (list_del (list_add h a head) a).prev x = h.prev x := by
  intro x hx
  have e1 : (list_add h a head).next a = h.next head := by
    rw [list_add_next, Function.update_noteq hah, Function.update_same]
  have e2 : (list_add h a head).prev a = head := by
    rw [list_add_prev, Function.update_same]
  constructor
  · rw [list_del_next, e1, e2, list_add_next]
    by_cases e : x = head
    · rw [e, Function.update_same]
    · rw [Function.update_noteq e, Function.update_noteq e, Function.update_noteq hx]
  · rw [list_del_prev, e1, e2, list_add_prev]
    by_cases e : x = h.next head
    · rw [e, Function.update_same, hinv]
    · rw [Function.update_noteq e, Function.update_noteq hx, Function.update_noteq e]

theorem q_insert_remove_head {h : Heap} {head a : Ptr} {ns : List Ptr} (hc : Cyc h head ns)
    (s : List Nat) (ha : a ≠ 0) (hfresh : a ∉ head :: ns) (sp : Option (Nat → Nat))
    (bufsize : Nat) :
    (q_remove_head (q_insert_head h head s a true).2 head sp bufsize).1 = a ∧
    (q_remove_head (q_insert_head h head s a true).2 head sp bufsize).2.1 =
      list_del (list_add ((h.setLive a true).setValue a s) a head) a := by
  have hc2 := hc.insert_head s ha hfresh
  rw [q_remove_head_eq hc2, q_insert_head_eq s hc.head_ne_zero ha]
  exact ⟨rfl, rfl⟩

/-- C11: on an existing well-formed queue, an insert at the head that returns
`true` (the block `malloc` returned not being part of the queue) followed at
once by `q_remove_head`, called without an output buffer or with one of capacity
`1 <= bufsize` (a `size_t`), returns the node just inserted, whose value is
`s`, and leaves the queue with the nodes, the order, the links and the values it
had before the insert. -/
theorem q_insert_remove_roundtrip (h : Heap) (head : Ptr) (ns : List Ptr) (s : List Nat)
    (a : Ptr) (b : Bool) (sp : Option (Nat → Nat)) (bufsize : Nat) (hc : Cyc h head ns)
    (hfresh : a ∉ head :: ns) (hr : (q_insert_head h head s a b).1 = true)
    (hb : sp = none ∨ (1 ≤ bufsize ∧ bufsize < 2 ^ 64)) :
    (q_remove_head (q_insert_head h head s a b).2 head sp bufsize).1 = a ∧
    (q_remove_head (q_insert_head h head s a b).2 head sp bufsize).2.1.value a = s ∧
    Cyc (q_remove_head (q_insert_head h head s a b).2 head sp bufsize).2.1 head ns ∧
    (∀ x ∈ head :: ns,
      (q_remove_head (q_insert_head h head s a b).2 head sp bufsize).2.1.next x = h.next x ∧
      (q_remove_head (q_insert_head h head s a b).2 head sp bufsize).2.1.prev x = h.prev x) ∧
    (∀ x ∈ ns,
      (q_remove_head (q_insert_head h head s a b).2 head sp bufsize).2.1.value x = h.value x) := by
  have _ := hb
  obtain ⟨_, ha, rfl⟩ := q_insert_head_ok hr
  obtain ⟨e1, e2⟩ := q_insert_remove_head hc s ha hfresh sp bufsize
  have hah : a ≠ head := fun e => hfresh (by simp [e])
  have hinv : h.prev (h.next head) = head := (hc.inverse head (List.mem_cons_self _ _)).1
  have hlinks := list_del_list_add ((h.setLive a true).setValue a s) head a hah hinv
  refine ⟨e1, ?_, ?_, ?_, ?_⟩
  · rw [e2]; simp
  · rw [e2]
    apply hc.frame
    · intro x hx
      exact (hlinks x (fun e => hfresh (e ▸ hx))).1
    · intro x hx
      exact (hlinks x (fun e => hfresh (e ▸ hx))).2
  · intro x hx
    rw [e2]
    exact hlinks x (fun e => hfresh (e ▸ hx))
  · intro x hx
    have : x ≠ a := fun e => hfresh (e ▸ List.mem_cons_of_mem _ hx)
    rw [e2]
    simp [Function.update_noteq this]

theorem q_insert_remove_roundtrip_witness :
    (Cyc (queueOf [[1], [2]]) 1 [2, 3] ∧ 4 ∉ 1 :: [2, 3] ∧
      (q_insert_head (queueOf [[1], [2]]) 1 [7] 4 true).1 = true ∧
      ((some (fun _ => 9) : Option (Nat → Nat)) = none ∨ (1 ≤ 4 ∧ 4 < 2 ^ 64))) ∧
    (q_remove_head (q_insert_head (queueOf [[1], [2]]) 1 [7] 4 true).2 1 (some (fun _ => 9)) 4).1 = 4 ∧
    (q_remove_head (q_insert_head (queueOf [[1], [2]]) 1 [7] 4 true).2 1 (some (fun _ => 9)) 4).2.1.value 4 = [7] ∧
    Cyc (q_remove_head (q_insert_head (queueOf [[1], [2]]) 1 [7] 4 true).2 1 (some (fun _ => 9)) 4).2.1 1 [2, 3] ∧
    (∀ x ∈ 1 :: [2, 3],
      (q_remove_head (q_insert_head (queueOf [[1], [2]]) 1 [7] 4 true).2 1 (some (fun _ => 9)) 4).2.1.next x =
        (queueOf [[1], [2]]).next x ∧
      (q_remove_head (q_insert_head (queueOf [[1], [2]]) 1 [7] 4 true).2 1 (some (fun _ => 9)) 4).2.1.prev x =
        (queueOf [[1], [2]]).prev x) ∧
    (∀ x ∈ [2, 3],
      (q_remove_head (q_insert_head (queueOf [[1], [2]]) 1 [7] 4 true).2 1 (some (fun _ => 9)) 4).2.1.value x =
        (queueOf [[1], [2]]).value x) :=
  ⟨⟨by decide, by decide, by decide, Or.inr ⟨by decide, by decide⟩⟩,
    q_insert_remove_roundtrip _ 1 [2, 3] [7] 4 true (some (fun _ => 9)) 4 (by decide)
      (by decide) (by decide) (Or.inr ⟨by decide, by decide⟩)⟩

theorem q_remove_head_absent (g : Heap) (hd : Ptr) (sp : Option (Nat → Nat)) (bufsize : Nat)
    (he : hd = 0 ∨ list_empty g hd = true) : q_remove_head g hd sp bufsize = (0, g, sp) := by
  unfold q_remove_head
  rcases he with e | e <;> simp [e]

theorem q_remove_tail_absent (g : Heap) (hd : Ptr) (sp : Option (Nat → Nat)) (bufsize : Nat)
    (he : hd = 0 ∨ list_empty g hd = true) : q_remove_tail g hd sp bufsize = (0, g, sp) := by
  unfold q_remove_tail
  rcases he with e | e <;> simp [e]

/-- C12: on a well-formed queue `q_remove_head` and `q_remove_tail` return
`NULL` if and only if the queue is empty, and they return `NULL` on an absent
queue; whenever the queue is absent or empty the heap (hence the queue and its
size) and the output buffer are returned as they were. -/
theorem q_remove_null_iff (h : Heap) (head : Ptr) (ns : List Ptr) (sp : Option (Nat → Nat))
    (bufsize : Nat) (hc : Cyc h head ns) :
    ((q_remove_head h head sp bufsize).1 = 0 ↔ ns = []) ∧
    ((q_remove_tail h head sp bufsize).1 = 0 ↔ ns = []) ∧
    (∀ (g : Heap) (hd : Ptr), hd = 0 ∨ list_empty g hd = true →
      q_remove_head g hd sp bufsize = (0, g, sp) ∧ q_remove_tail g hd sp bufsize = (0, g, sp)) ∧
    (ns = [] ↔ list_empty h head = true) := by
  refine ⟨?_, ?_, fun g hd he => ⟨q_remove_head_absent g hd sp bufsize he,
    q_remove_tail_absent g hd sp bufsize he⟩, by rw [hc.list_empty]; simp⟩
  · cases ns with
    | nil => simp [q_remove_head_nil hc]
    | cons x r =>
      rw [q_remove_head_eq hc]
      simpa using hc.2.1 x (by simp)
  · rcases nil_or_snoc ns with rfl | ⟨r, x, rfl⟩
    · simp [q_remove_tail_nil hc]
    · rw [q_remove_tail_eq hc]
      simpa using hc.2.1 x (by simp)

theorem q_remove_null_iff_witness :
    Cyc (queueOf []) 1 [] ∧
    ((q_remove_head (queueOf []) 1 none 0).1 = 0 ↔ ([] : List Ptr) = []) ∧
    ((q_remove_tail (queueOf []) 1 none 0).1 = 0 ↔ ([] : List Ptr) = []) ∧
    (∀ (g : Heap) (hd : Ptr), hd = 0 ∨ list_empty g hd = true →
      q_remove_head g hd none 0 = (0, g, none) ∧ q_remove_tail g hd none 0 = (0, g, none)) ∧
    (([] : List Ptr) = [] ↔ list_empty (queueOf []) 1 = true) :=
  ⟨by decide, q_remove_null_iff _ 1 [] none 0 (by decide)⟩

theorem copy_out_apply (b : Nat → Nat) (v : List Nat) (bufsize : Nat) (h1 : 1 ≤ bufsize)
    (h2 : bufsize < 2 ^ 64) (i : Nat) :
    copy_out b v bufsize i =
      if i = bufsize - 1 then 0 else if i < bufsize - 1 then v.getD i 0 else b i := by
  have hn : (bufsize + 2 ^ 64 - 1) % 2 ^ 64 = bufsize - 1 := by omega
  simp only [copy_out, hn]
  by_cases e : i = bufsize - 1
  · rw [e, Function.update_same, if_pos rfl]
  · rw [Function.update_noteq e, if_neg e]
    rfl

theorem copy_out_truncated (b : Nat → Nat) (v : List Nat) (bufsize : Nat) (h1 : 1 ≤ bufsize)
    (h2 : bufsize < 2 ^ 64) : Truncated b v bufsize (copy_out b v bufsize) := by
  refine ⟨?_, ?_, ?_⟩
  · intro i hi
    have hi1 : i < v.length := lt_of_lt_of_le hi (min_le_left _ _)
    have hi2 : i < bufsize - 1 := lt_of_lt_of_le hi (min_le_right _ _)
    rw [copy_out_apply b v bufsize h1 h2, if_neg (by omega), if_pos hi2]
    simp [List.getD_eq_getElem?_getD, List.getElem?_eq_getElem hi1]
  · intro i hi hi2
    rw [copy_out_apply b v bufsize h1 h2]
    by_cases e : i = bufsize - 1
    · rw [if_pos e]
    · rw [if_neg e, if_pos (by omega)]
      have : v.length ≤ i := by
        rcases min_le_iff.mp hi with h | h
        · exact h
        · omega
      simp [List.getD_eq_getElem?_getD, List.getElem?_eq_none this]
  · intro i hi
    rw [copy_out_apply b v bufsize h1 h2, if_neg (by omega), if_neg (by omega)]

/-- A truncated copy, read as a C string, is the string cut to `bufsize - 1`
bytes. -/
theorem c_string_of_truncated {b b2 : Nat → Nat} {v : List Nat} {bufsize : Nat}
    (ht : Truncated b v bufsize b2) (hv : ∀ c ∈ v, c ≠ 0) :
    ∀ (d i k : Nat), i + d = min v.length (bufsize - 1) → d < k →
      c_string_from b2 k i = (v.take (bufsize - 1)).drop i := by
  intro d
  induction d with
  | zero =>
    intro i k hi hk
    obtain ⟨k, rfl⟩ : ∃ k2, k = k2 + 1 := ⟨k - 1, by omega⟩
    have h0 : b2 i = 0 := ht.2.1 i (by omega) (by omega)
    simp only [c_string_from, h0, if_true]
    symm
    apply List.drop_eq_nil_of_le
    rw [List.length_take]; omega
  | succ d ih =>
    intro i k hi hk
    obtain ⟨k, rfl⟩ : ∃ k2, k = k2 + 1 := ⟨k - 1, by omega⟩
    have hlt : i < min v.length (bufsize - 1) := by omega
    have hi1 : i < v.length := lt_of_lt_of_le hlt (min_le_left _ _)
    have hi2 : i < bufsize - 1 := lt_of_lt_of_le hlt (min_le_right _ _)
    have hb := ht.1 i hlt
    rw [List.getElem?_eq_getElem hi1] at hb
    have hb2 : b2 i = v[i] := by simpa using hb.symm
    have hne : b2 i ≠ 0 := by rw [hb2]; exact hv _ (List.getElem_mem _)
    have hlen : i < (v.take (bufsize - 1)).length := by
      rw [List.length_take]; omega
    simp only [c_string_from, hne, if_false]
    rw [ih (i + 1) k (by omega) (by omega), List.drop_eq_getElem_cons hlen]
    congr 1
    rw [hb2, List.getElem_take]

/-- C13: on a non-empty well-formed queue, with an output buffer `b` and
`1 <= bufsize` (a `size_t`), `q_remove_head` and `q_remove_tail` leave in the
buffer the bytes of the removed value `v` at the indices below
`min (length v) (bufsize - 1)`, NUL from there up to index `bufsize - 1`, and the
old bytes from index `bufsize` on; read as a C string the buffer is `v` cut to
`bufsize - 1` bytes. -/
theorem q_remove_copy (h : Heap) (head : Ptr) (ns : List Ptr) (b : Nat → Nat) (bufsize : Nat)
    (hc : Cyc h head ns) (hne : ns ≠ []) (h1 : 1 ≤ bufsize) (h2 : bufsize < 2 ^ 64) :
    (∃ x bh, ns.head? = some x ∧ (q_remove_head h head (some b) bufsize).2.2 = some bh ∧
      Truncated b (h.value x) bufsize bh ∧
      ((∀ c ∈ h.value x, c ≠ 0) →
        c_string_from bh bufsize 0 = (h.value x).take (bufsize - 1))) ∧
    (∃ y bt, ns.getLast? = some y ∧ (q_remove_tail h head (some b) bufsize).2.2 = some bt ∧
      Truncated b (h.value y) bufsize bt ∧
      ((∀ c ∈ h.value y, c ≠ 0) →
        c_string_from bt bufsize 0 = (h.value y).take (bufsize - 1))) := by
  constructor
  · cases ns with
    | nil => exact absurd rfl hne
    | cons x r =>
      have ht := copy_out_truncated b (h.value x) bufsize h1 h2
      refine ⟨x, _, rfl, by rw [q_remove_head_eq hc]; rfl, ht, fun hv => ?_⟩
      have := c_string_of_truncated ht hv (min (h.value x).length (bufsize - 1)) 0 bufsize
        (by simp) (lt_of_le_of_lt (min_le_right _ _) (by omega))
      simpa using this
  · rcases nil_or_snoc ns with rfl | ⟨r, y, rfl⟩
    · exact absurd rfl hne
    · have ht := copy_out_truncated b (h.value y) bufsize h1 h2
      refine ⟨y, _, by simp, by rw [q_remove_tail_eq hc]; rfl, ht, fun hv => ?_⟩
      have := c_string_of_truncated ht hv (min (h.value y).length (bufsize - 1)) 0 bufsize
        (by simp) (lt_of_le_of_lt (min_le_right _ _) (by omega))
      simpa using this

theorem q_remove_copy_witness :
    (Cyc (queueOf [[104, 101, 108, 108, 111], [2]]) 1 [2, 3] ∧ [2, 3] ≠ ([] : List Ptr) ∧
      1 ≤ 4 ∧ 4 < 2 ^ 64) ∧
    (∃ x bh, [2, 3].head? = some x ∧
      (q_remove_head (queueOf [[104, 101, 108, 108, 111], [2]]) 1 (some (fun _ => 9)) 4).2.2 =
        some bh ∧
      Truncated (fun _ => 9) ((queueOf [[104, 101, 108, 108, 111], [2]]).value x) 4 bh ∧
      ((∀ c ∈ (queueOf [[104, 101, 108, 108, 111], [2]]).value x, c ≠ 0) →
        c_string_from bh 4 0 =
          ((queueOf [[104, 101, 108, 108, 111], [2]]).value x).take (4 - 1))) ∧
    (∃ y bt, [2, 3].getLast? = some y ∧
      (q_remove_tail (queueOf [[104, 101, 108, 108, 111], [2]]) 1 (some (fun _ => 9)) 4).2.2 =
        some bt ∧
      Truncated (fun _ => 9) ((queueOf [[104, 101, 108, 108, 111], [2]]).value y) 4 bt ∧
      ((∀ c ∈ (queueOf [[104, 101, 108, 108, 111], [2]]).value y, c ≠ 0) →
        c_string_from bt 4 0 =
          ((queueOf [[104, 101, 108, 108, 111], [2]]).value y).take (4 - 1))) :=
  ⟨⟨by decide, by decide, by decide, by decide⟩,
    q_remove_copy _ 1 [2, 3] (fun _ => 9) 4 (by decide) (by decide) (by decide) (by decide)⟩

theorem q_insert_head_false_iff (h : Heap) (head : Ptr) (s : List Nat) (a : Ptr) (b : Bool) :
    (q_insert_head h head s a b).1 = false ↔ head = 0 ∨ a = 0 ∨ b = false := by
  unfold q_insert_head
  by_cases h1 : head = 0
  · simp [h1]
  by_cases h2 : a = 0
  · simp [h1, h2]
  cases b <;> simp [h1, h2]

theorem q_insert_tail_false_iff (h : Heap) (head : Ptr) (s : List Nat) (a : Ptr) (b : Bool) :
    (q_insert_tail h head s a b).1 = false ↔ head = 0 ∨ a = 0 ∨ b = false := by
  unfold q_insert_tail
  by_cases h1 : head = 0
  · simp [h1]
  by_cases h2 : a = 0
  · simp [h1, h2]
  cases b <;> simp [h1, h2]

theorem q_insert_head_freed (h : Heap) (head : Ptr) (s : List Nat) (a : Ptr) (h1 : head ≠ 0)
    (h2 : a ≠ 0) : (q_insert_head h head s a false).2.live a = false := by
  simp [q_insert_head, h1, h2]

theorem q_insert_tail_freed (h : Heap) (head : Ptr) (s : List Nat) (a : Ptr) (h1 : head ≠ 0)
    (h2 : a ≠ 0) : (q_insert_tail h head s a false).2.live a = false := by
  simp [q_insert_tail, h1, h2]

/-- C14: `q_insert_head` and `q_insert_tail` return `false` if and only if the
queue is absent, the `malloc` of the element fails or the `malloc` of the buffer
fails; when they return `false` every link and every value is as before (a
well-formed queue keeps its nodes and their order), no block other than the one
`malloc` returned changes its allocation state, and when only the buffer
allocation fails that block is released. -/
theorem q_insert_false_spec (h : Heap) (head : Ptr) (s : List Nat) (a : Ptr) (b : Bool) :
    ((q_insert_head h head s a b).1 = false ↔ head = 0 ∨ a = 0 ∨ b = false) ∧
    ((q_insert_tail h head s a b).1 = false ↔ head = 0 ∨ a = 0 ∨ b = false) ∧
    ((q_insert_head h head s a b).1 = false →
      (q_insert_head h head s a b).2.next = h.next ∧
      (q_insert_head h head s a b).2.prev = h.prev ∧
      (q_insert_head h head s a b).2.value = h.value ∧
      (∀ n, n ≠ a → (q_insert_head h head s a b).2.live n = h.live n) ∧
      (∀ ns, Cyc h head ns → Cyc (q_insert_head h head s a b).2 head ns)) ∧
    ((q_insert_tail h head s a b).1 = false →
      (q_insert_tail h head s a b).2.next = h.next ∧
      (q_insert_tail h head s a b).2.prev = h.prev ∧
      (q_insert_tail h head s a b).2.value = h.value ∧
      (∀ n, n ≠ a → (q_insert_tail h head s a b).2.live n = h.live n) ∧
      (∀ ns, Cyc h head ns → Cyc (q_insert_tail h head s a b).2 head ns)) ∧
    (head ≠ 0 → a ≠ 0 → b = false →
      (q_insert_head h head s a b).2.live a = false ∧
      (q_insert_tail h head s a b).2.live a = false) := by
  refine ⟨q_insert_head_false_iff h head s a b, q_insert_tail_false_iff h head s a b, ?_, ?_, ?_⟩
  · intro hr
    obtain ⟨e1, e2, e3, e4, _⟩ := q_insert_head_fail h head s a b hr
    exact ⟨e1, e2, e3, e4, fun ns hc => hc.congr e1 e2⟩
  · intro hr
    obtain ⟨e1, e2, e3, e4, _⟩ := q_insert_tail_fail h head s a b hr
    exact ⟨e1, e2, e3, e4, fun ns hc => hc.congr e1 e2⟩
  · intro h1 h2 hb
    subst hb
    exact ⟨q_insert_head_freed h head s a h1 h2, q_insert_tail_freed h head s a h1 h2⟩

theorem q_delete_dup_absent (fuel : Nat) (h : Heap) : q_delete_dup fuel h 0 = some (false, h) := by
  simp [q_delete_dup]

theorem q_delete_dup_small {h : Heap} {head : Ptr} {ns : List Ptr} (hc : Cyc h head ns)
    (hs : ns.length ≤ 1) (fuel : Nat) : q_delete_dup fuel h head = some (false, h) := by
  match ns, hc, hs with
  | [], hc, _ => simp [q_delete_dup, hc.list_empty]
  | [x], hc, _ => simp [q_delete_dup, hc.list_is_singular]
  | _ :: _ :: _, _, hs => simp at hs

/-- C15: `q_delete_dup` returns `false`, with the heap as it was, on an absent
queue and on a well-formed queue with no element or one; on every well-formed
queue with two or more elements it returns `true`. -/
theorem q_delete_dup_result (h : Heap) (head : Ptr) (ns : List Ptr) (fuel : Nat)
    (hc : Cyc h head ns) (hf : ns.length < fuel) :
    (∃ r, q_delete_dup fuel h head = some r ∧ (r.1 = false ↔ ns.length ≤ 1) ∧
      (r.1 = false → r.2 = h)) ∧
    q_delete_dup fuel h 0 = some (false, h) := by
  refine ⟨?_, q_delete_dup_absent fuel h⟩
  by_cases hs : ns.length ≤ 1
  · exact ⟨(false, h), q_delete_dup_small hc hs fuel, by simp [hs], fun _ => rfl⟩
  · obtain ⟨g, e1, _⟩ := q_delete_dup_correct hc (by omega) fuel hf
    exact ⟨(true, g), e1, by simp [hs], by simp⟩

theorem q_delete_dup_result_witness :
    Cyc (queueOf [[1], [2]]) 1 [2, 3] ∧
    (∃ r, q_delete_dup 3 (queueOf [[1], [2]]) 1 = some r ∧
      (r.1 = false ↔ [2, 3].length ≤ 1) ∧ (r.1 = false → r.2 = queueOf [[1], [2]])) ∧
    q_delete_dup 3 (queueOf [[1], [2]]) 0 = some (false, queueOf [[1], [2]]) :=
  ⟨by decide, q_delete_dup_result _ 1 [2, 3] 3 (by decide) (by decide)⟩

theorem swapPairs_perm : ∀ (l : List Ptr), (swapPairs l).Perm l
  | [] => List.Perm.refl _
  | [_] => List.Perm.refl _
  | a :: b :: r => by
    simp only [swapPairs]
    exact (List.Perm.swap a b _).trans (((swapPairs_perm r).cons b).cons a)

/-- C16: on a well-formed queue `q_swap`, `q_reverse` and `q_sort` return a heap
in which the queue holds a permutation of the nodes it held (none added,
dropped or duplicated), every value and every allocation state is as before,
and `q_size` is the same. -/
theorem links_only (h : Heap) (head : Ptr) (ns : List Ptr) (fuel : Nat) (hc : Cyc h head ns)
    (hf : ns.length < fuel) :
    (∃ g ns2, q_swap fuel h head = some g ∧ Cyc g head ns2 ∧ ns2.Perm ns ∧
      g.value = h.value ∧ g.live = h.live ∧ q_size fuel g head = q_size fuel h head) ∧
    (∃ g ns2, q_reverse fuel h head = some g ∧ Cyc g head ns2 ∧ ns2.Perm ns ∧
      g.value = h.value ∧ g.live = h.live ∧ q_size fuel g head = q_size fuel h head) ∧
    (∃ g ns2, q_sort fuel h head = some g ∧ Cyc g head ns2 ∧ ns2.Perm ns ∧
      g.value = h.value ∧ g.live = h.live ∧ q_size fuel g head = q_size fuel h head) := by
  have hsz := hc.q_size fuel hf
  refine ⟨?_, ?_, ?_⟩
  · obtain ⟨g, e1, hc2, hv, hl⟩ := q_swap_correct hc fuel hf
    have hp := swapPairs_perm ns
    refine ⟨g, _, e1, hc2, hp, hv, hl, ?_⟩
    rw [hsz, hc2.q_size fuel (by rw [hp.length_eq]; exact hf), hp.length_eq]
  · have hc2 := hc.flipLinks
    refine ⟨_, _, q_reverse_eq hc fuel hf, hc2, List.reverse_perm ns, rfl, rfl, ?_⟩
    rw [hsz, hc2.q_size fuel (by simpa using hf)]
    simp
  · obtain ⟨g, e1, hc2, hv, hl⟩ := q_sort_correct hc fuel hf
    have hp := sortL_perm h.value _ ns (le_refl _)
    refine ⟨g, _, e1, hc2, hp, hv, hl, ?_⟩
    rw [hsz, hc2.q_size fuel (by rw [hp.length_eq]; exact hf), hp.length_eq]

theorem links_only_witness :
    Cyc (queueOf [[3], [1], [2]]) 1 [2, 3, 4] ∧
    (∃ g ns2, q_swap 4 (queueOf [[3], [1], [2]]) 1 = some g ∧ Cyc g 1 ns2 ∧
      ns2.Perm [2, 3, 4] ∧ g.value = (queueOf [[3], [1], [2]]).value ∧
      g.live = (queueOf [[3], [1], [2]]).live ∧
      q_size 4 g 1 = q_size 4 (queueOf [[3], [1], [2]]) 1) ∧
    (∃ g ns2, q_reverse 4 (queueOf [[3], [1], [2]]) 1 = some g ∧ Cyc g 1 ns2 ∧
      ns2.Perm [2, 3, 4] ∧ g.value = (queueOf [[3], [1], [2]]).value ∧
      g.live = (queueOf [[3], [1], [2]]).live ∧
      q_size 4 g 1 = q_size 4 (queueOf [[3], [1], [2]]) 1) ∧
    (∃ g ns2, q_sort 4 (queueOf [[3], [1], [2]]) 1 = some g ∧ Cyc g 1 ns2 ∧
      ns2.Perm [2, 3, 4] ∧ g.value = (queueOf [[3], [1], [2]]).value ∧
      g.live = (queueOf [[3], [1], [2]]).live ∧
      q_size 4 g 1 = q_size 4 (queueOf [[3], [1], [2]]) 1) :=
  ⟨by decide, links_only _ 1 [2, 3, 4] 4 (by decide) (by decide)⟩

theorem mergeL_append_of_lt (val : Ptr → List Nat) :
    ∀ (xs ys : List Ptr), (∀ x ∈ xs, ∀ y ∈ ys, strcmp (val x) (val y) < 0) →
      mergeL val xs ys = xs ++ ys
  | [], ys, _ => by simp [mergeL]
  | x :: xs, [], _ => by simp [mergeL]
  | x :: xs, y :: ys, hlt => by
    have h1 : strcmp (val x) (val y) < 0 := hlt x (by simp) y (by simp)
    have ih := mergeL_append_of_lt val xs (y :: ys)
      (fun a ha b hb => hlt a (List.mem_cons_of_mem _ ha) b hb)
    simp only [mergeL, h1, if_true, ih, List.cons_append]

theorem sortL_of_strict (val : Ptr → List Nat) : ∀ (n : Nat) (l : List Ptr), l.length ≤ n →
    l.Pairwise (fun a b => strcmp (val a) (val b) < 0) → sortL val l = l := by
  intro n
  induction n with
  | zero => intro l hl _; exact sortL_small val l (by omega)
  | succ n ih =>
    intro l hl hp
    by_cases h : l.length < 2
    · exact sortL_small val l h
    · rw [sortL_big val l h]
      have hp2 := hp
      rw [← List.take_append_drop ((l.length + 1) / 2) l, List.pairwise_append] at hp2
      rw [ih _ (by simp only [List.length_take]; omega) hp2.1,
        ih _ (by simp only [List.length_drop]; omega) hp2.2.1,
        mergeL_append_of_lt val _ _ hp2.2.2, List.take_append_drop]

theorem strict_of_sorted_nodup {vs : List (List Nat)} (hs : SortedVals vs) (hn : vs.Nodup) :
    vs.Pairwise (fun a b => strcmp a b < 0) := by
  have := List.Pairwise.and hs hn
  refine this.imp ?_
  intro a b hab
  have h0 : strcmp a b ≠ 0 := fun e => hab.2 ((strcmp_eq_zero_iff a b).mp e)
  omega

theorem eq_of_sorted_perm {l1 l2 : List (List Nat)} (hp : l1.Perm l2) (h1 : SortedVals l1)
    (h2 : SortedVals l2) : l1 = l2 := by
  induction l1 generalizing l2 with
  | nil => exact (List.perm_nil.mp hp.symm).symm
  | cons a l1 ih =>
    cases l2 with
    | nil => exact absurd (List.perm_nil.mp hp) (by simp)
    | cons b l2 =>
      have ha := List.pairwise_cons.mp h1
      have hb := List.pairwise_cons.mp h2
      have hab : a = b := by
        have m1 : a ∈ b :: l2 := hp.subset (List.mem_cons_self _ _)
        have m2 : b ∈ a :: l1 := hp.symm.subset (List.mem_cons_self _ _)
        rcases List.mem_cons.mp m1 with e | m1
        · exact e
        rcases List.mem_cons.mp m2 with e | m2
        · exact e.symm
        exact strcmp_antisymm (ha.1 b m2) (hb.1 a m1)
      subst hab
      rw [ih (List.Perm.cons_inv hp) ha.2 hb.2]

/-- Two queues over one node list have the same links on it. -/
theorem lseg_unique {f g : Ptr → Ptr} : ∀ (L : List Ptr) (p q : Ptr), lseg f p L q →
    lseg g p L q → ∀ x ∈ L, f x = g x := by
  intro L
  induction L with
  | nil => intro p q _ _ x hx; simp at hx
  | cons n L ih =>
    intro p q h1 h2 x hx
    rcases List.mem_cons.mp hx with rfl | hm
    · rw [lseg_succ h1, lseg_succ h2]
    · have a1 := h1.2
      have a2 := h2.2
      have e : f n = g n := by rw [lseg_succ h1, lseg_succ h2]
      rw [e] at a1
      exact ih _ _ a1 a2 x hm

theorem Cyc.links_eq {h g : Heap} {head : Ptr} {ns : List Ptr} (hc : Cyc h head ns)
    (hg : Cyc g head ns) : ∀ x ∈ head :: ns, g.next x = h.next x ∧ g.prev x = h.prev x := by
  intro x hx
  refine ⟨lseg_unique _ _ _ hg.2.2.1 hc.2.2.1 x hx, ?_⟩
  exact lseg_unique _ _ _ hg.2.2.2 hc.2.2.2 x (by simpa using hx)

theorem q_sort_of_sorted {h : Heap} {ns : List Ptr} (hs : SortedVals (values h ns)) :
    values h (sortL h.value ns) = values h ns ∧
      ((values h ns).Nodup → sortL h.value ns = ns) := by
  constructor
  · exact eq_of_sorted_perm ((sortL_perm h.value _ ns (le_refl _)).map _)
      (sortL_sorted h.value _ ns (le_refl _)) hs
  · intro hn
    apply sortL_of_strict h.value _ ns (le_refl _)
    have := strict_of_sorted_nodup hs hn
    exact List.pairwise_map.mp this

/-- C17, as amended: on a well-formed queue whose values are already in
non-decreasing order, `q_sort` returns, keeps the same set of nodes and leaves
the sequence of values read in traversal order as it was; when no two nodes
hold equal values (so on every queue with no element or one) it leaves the same
nodes in the same traversal order, with the links they had. -/
theorem q_sort_sorted_values (h : Heap) (head : Ptr) (ns : List Ptr) (fuel : Nat)
    (hc : Cyc h head ns) (hs : SortedVals (values h ns)) (hf : ns.length < fuel) :
    ∃ g ns2, q_sort fuel h head = some g ∧ Cyc g head ns2 ∧ ns2.Perm ns ∧
      g.value = h.value ∧ values g ns2 = values h ns ∧
      q_values fuel g head = q_values fuel h head ∧
      ((values h ns).Nodup → Cyc g head ns ∧
        ∀ x ∈ head :: ns, g.next x = h.next x ∧ g.prev x = h.prev x) := by
  obtain ⟨g, e1, hc2, hv, _⟩ := q_sort_correct hc fuel hf
  have hp := sortL_perm h.value _ ns (le_refl _)
  obtain ⟨k1, k2⟩ := q_sort_of_sorted hs
  have hvals : values g (sortL h.value ns) = values h ns := by
    rw [values, hv]; exact k1
  refine ⟨g, _, e1, hc2, hp, hv, hvals, ?_, ?_⟩
  · rw [hc2.q_values fuel (by rw [hp.length_eq]; exact hf), hc.q_values fuel hf, hvals]
  · intro hn
    rw [k2 hn] at hc2
    exact ⟨hc2, hc.links_eq hc2⟩

theorem q_sort_sorted_values_witness :
    (Cyc (queueOf [[1], [2], [2]]) 1 [2, 3, 4] ∧
      SortedVals (values (queueOf [[1], [2], [2]]) [2, 3, 4])) ∧
    ∃ g ns2, q_sort 4 (queueOf [[1], [2], [2]]) 1 = some g ∧ Cyc g 1 ns2 ∧
      ns2.Perm [2, 3, 4] ∧ g.value = (queueOf [[1], [2], [2]]).value ∧
      values g ns2 = values (queueOf [[1], [2], [2]]) [2, 3, 4] ∧
      q_values 4 g 1 = q_values 4 (queueOf [[1], [2], [2]]) 1 ∧
      ((values (queueOf [[1], [2], [2]]) [2, 3, 4]).Nodup → Cyc g 1 [2, 3, 4] ∧
        ∀ x ∈ 1 :: [2, 3, 4], g.next x = (queueOf [[1], [2], [2]]).next x ∧
          g.prev x = (queueOf [[1], [2], [2]]).prev x) :=
  ⟨⟨by decide, by decide⟩,
    q_sort_sorted_values _ 1 [2, 3, 4] 4 (by decide) (by decide) (by decide)⟩

theorem exists_of_map_eq_some_true (o : Option Heap) (P : Heap → Bool)
    (ho : o.map P = some true) : ∃ g, o = some g ∧ P g = true := by
  cases o with
  | none => simp at ho
  | some g => exact ⟨g, rfl, by simpa using ho⟩

/-- C17, counterexample: the queue holding "a", "a" in the nodes `2`, `3` is
well formed and sorted, and after `q_sort` its nodes in traversal order are
`3`, `2`, not `2`, `3`. -/
theorem q_sort_sorted_noop_counterexample :
    Cyc (queueOf [[97], [97]]) 1 [2, 3] ∧ SortedVals (values (queueOf [[97], [97]]) [2, 3]) ∧
    ∃ g, q_sort 3 (queueOf [[97], [97]]) 1 = some g ∧ Cyc g 1 [3, 2] ∧ ¬ Cyc g 1 [2, 3] := by
  refine ⟨by decide, by decide, ?_⟩
  obtain ⟨g, e, hg⟩ := exists_of_map_eq_some_true (q_sort 3 (queueOf [[97], [97]]) 1)
    (fun g => decide (Cyc g 1 [3, 2]) && !decide (Cyc g 1 [2, 3])) (by decide!)
  refine ⟨g, e, ?_, ?_⟩
  · simp only [Bool.and_eq_true, decide_eq_true_eq] at hg; exact hg.1
  · simp only [Bool.and_eq_true, Bool.not_eq_true', decide_eq_false_iff_not] at hg; exact hg.2

theorem mergeL_sublist_left (val : Ptr → List Nat) :
    ∀ (xs ys : List Ptr), xs.Sublist (mergeL val xs ys)
  | [], ys => by simp
  | x :: xs, [] => by simp [mergeL]
  | x :: xs, y :: ys => by
    simp only [mergeL]
    split
    · exact (mergeL_sublist_left val xs (y :: ys)).cons₂ x
    · exact (mergeL_sublist_left val (x :: xs) ys).cons y

theorem mergeL_sublist_right (val : Ptr → List Nat) :
    ∀ (xs ys : List Ptr), ys.Sublist (mergeL val xs ys)
  | [], ys => by simp [mergeL]
  | x :: xs, [] => by simp
  | x :: xs, y :: ys => by
    simp only [mergeL]
    split
    · exact (mergeL_sublist_right val xs (y :: ys)).cons x
    · exact (mergeL_sublist_right val (x :: xs) ys).cons₂ y

/-- On a tie the node of the right chain comes first. -/
theorem mergeL_tie (val : Ptr → List Nat) :
    ∀ (xs ys : List Ptr), SortedVals (ys.map val) →
      ∀ x ∈ xs, ∀ y ∈ ys, val x = val y → [y, x].Sublist (mergeL val xs ys)
  | [], ys, _ => by intro x hx; simp at hx
  | x0 :: xs, [], _ => by intro x _ y hy; simp at hy
  | x0 :: xs, y0 :: ys, hs => by
    intro x hx y hy hxy
    have hy0 := List.pairwise_cons.mp (show SortedVals (val y0 :: ys.map val) by simpa using hs)
    simp only [mergeL]
    split
    · rename_i hlt
      have hxx : x ∈ xs := by
        rcases List.mem_cons.mp hx with e | hm
        · exfalso
          subst e
          have h1 : strcmp (val y0) (val y) ≤ 0 := by
            rcases List.mem_cons.mp hy with e | hm
            · rw [e, strcmp_self]
            · exact hy0.1 _ (List.mem_map_of_mem _ hm)
          rw [hxy] at hlt
          have h2 := strcmp_neg (val y) (val y0)
          omega
        · exact hm
      exact (mergeL_tie val xs (y0 :: ys) hs x hxx y hy hxy).cons x0
    · rcases List.mem_cons.mp hy with e | hm
      · subst e
        have hmem : x ∈ mergeL val (x0 :: xs) ys :=
          (mergeL_perm val (x0 :: xs) ys).symm.subset (List.mem_append_left _ hx)
        exact (List.singleton_sublist.mpr hmem).cons₂ y
      · exact (mergeL_tie val (x0 :: xs) ys hy0.2 x hx y hm hxy).cons y0

theorem merge_lists_correct {h : Heap} {xs ys : List Ptr} {l1 l2 : Ptr} (fuel : Nat)
    (h1 : lseg h.next l1 xs 0) (h2 : lseg h.next l2 ys 0) (hnd : (xs ++ ys).Nodup)
    (hnz : ∀ n ∈ xs ++ ys, n ≠ 0) (hf : xs.length + ys.length < fuel) :
    ∃ g r, merge_lists fuel h l1 l2 = some (r, g) ∧ lseg g.next r (mergeL h.value xs ys) 0 ∧
      (∀ n, n ∉ xs ++ ys → g.next n = h.next n) ∧ g.prev = h.prev ∧ g.value = h.value ∧
      g.live = h.live := by
  obtain ⟨g, r, e1, m1, _, m3, m4, m5, m6, m7⟩ := merge_lists_loop_correct fuel h xs ys l1 l2 0
    none h1 h2 hnd hnz (fun t e => by simp at e) hf
  refine ⟨g, r, e1, ?_, fun n hn => m4 n hn (by simp), m5, m6, m7⟩
  rw [m1 rfl]; exact m3

/-- C18: for two null-terminated chains `xs` (left) and `ys` (right) of distinct
nodes, each sorted non-decreasing, `merge_lists` returns a null-terminated
chain `M` that is sorted, holds exactly the nodes of `xs` and `ys`, keeps the
nodes of `xs` in their order and those of `ys` in theirs, and in which a node of
`ys` comes before every node of `xs` of equal value. -/
theorem merge_lists_tie_break (h : Heap) (xs ys : List Ptr) (l1 l2 : Ptr) (fuel : Nat)
    (h1 : lseg h.next l1 xs 0) (h2 : lseg h.next l2 ys 0) (hnd : (xs ++ ys).Nodup)
    (hnz : ∀ n ∈ xs ++ ys, n ≠ 0) (hsx : SortedVals (values h xs))
    (hsy : SortedVals (values h ys)) (hf : xs.length + ys.length < fuel) :
    ∃ g r M, merge_lists fuel h l1 l2 = some (r, g) ∧ lseg g.next r M 0 ∧
      g.value = h.value ∧ M.Perm (xs ++ ys) ∧ SortedVals (values g M) ∧
      xs.Sublist M ∧ ys.Sublist M ∧
      (∀ x ∈ xs, ∀ y ∈ ys, strcmp (h.value x) (h.value y) = 0 → [y, x].Sublist M) ∧
      M = mergeL h.value xs ys := by
  obtain ⟨g, r, e1, hl, _, _, hv, _⟩ := merge_lists_correct fuel h1 h2 hnd hnz hf
  refine ⟨g, r, _, e1, hl, hv, mergeL_perm _ _ _, ?_, mergeL_sublist_left _ _ _,
    mergeL_sublist_right _ _ _, ?_, rfl⟩
  · rw [values, hv]; exact mergeL_sorted h.value xs ys hsx hsy
  · intro x hx y hy hxy
    exact mergeL_tie h.value xs ys hsy x hx y hy ((strcmp_eq_zero_iff _ _).mp hxy)

theorem merge_lists_tie_break_witness :
    (lseg twoChains.next 1 [1, 2] 0 ∧ lseg twoChains.next 3 [3, 4] 0 ∧
      ([1, 2] ++ [3, 4]).Nodup ∧ (∀ n ∈ [1, 2] ++ [3, 4], n ≠ 0) ∧
      SortedVals (values twoChains [1, 2]) ∧ SortedVals (values twoChains [3, 4]) ∧
      [1, 2].length + [3, 4].length < 5) ∧
    ∃ g r M, merge_lists 5 twoChains 1 3 = some (r, g) ∧ lseg g.next r M 0 ∧
      g.value = twoChains.value ∧ M.Perm ([1, 2] ++ [3, 4]) ∧ SortedVals (values g M) ∧
      [1, 2].Sublist M ∧ [3, 4].Sublist M ∧
      (∀ x ∈ [1, 2], ∀ y ∈ [3, 4], strcmp (twoChains.value x) (twoChains.value y) = 0 →
        [y, x].Sublist M) ∧
      M = mergeL twoChains.value [1, 2] [3, 4] :=
  ⟨⟨by decide, by decide, by decide, by decide, by decide, by decide, by decide⟩,
    merge_lists_tie_break twoChains [1, 2] [3, 4] 1 3 5 (by decide) (by decide) (by decide)
      (by decide) (by decide) (by decide) (by decide)⟩

theorem isoL_sublist (val : Ptr → List Nat) :
    ∀ (l : List Ptr) (p : Option (List Nat)), (isoL val p l).Sublist l := by
  intro l
  induction l with
  | nil => intro p; simp [isoL]
  | cons x r ih =>
    intro p
    simp only [isoL]
    split
    · exact (ih _).cons x
    · exact (ih _).cons₂ x

theorem isoL_mem (val : Ptr → List Nat) :
    ∀ (l : List Ptr) (p : Option (List Nat)), l.Nodup → ∀ (i : Nat) (x : Ptr),
      l[i]? = some x →
      (x ∈ isoL val p l ↔
        (if i = 0 then p else l[i - 1]?.map val) ≠ some (val x) ∧
          l[i + 1]?.map val ≠ some (val x)) := by
  intro l
  induction l with
  | nil => intro p _ i x hx; simp at hx
  | cons y r ih =>
    intro p hnd i x hx
    have hyr : y ∉ r := (List.nodup_cons.mp hnd).1
    have hyi : y ∉ isoL val (some (val y)) r := fun hm => hyr ((isoL_sublist val r _).subset hm)
    cases i with
    | zero =>
      have e : y = x := by simpa using hx
      subst e
      simp only [isoL, if_true, zero_add, List.getElem?_cons_succ, List.getElem?_cons_zero]
      have hh : r.head? = r[0]? := List.head?_eq_getElem? r
      by_cases hk : p = some (val y) ∨ r.head?.map val = some (val y)
      · rw [if_pos hk]
        constructor
        · intro hm; exact absurd hm hyi
        · rintro ⟨a1, a2⟩
          rcases hk with k | k
          · exact absurd k a1
          · rw [hh] at k; exact absurd k a2
      · rw [if_neg hk]
        simp only [List.mem_cons, true_or, true_iff]
        rw [hh] at hk
        exact ⟨fun k => hk (Or.inl k), fun k => hk (Or.inr k)⟩
    | succ j =>
      have hx2 : r[j]? = some x := by simpa using hx
      have hxr : x ∈ r := List.getElem?_mem hx2
      have hxy : x ≠ y := fun e => hyr (e ▸ hxr)
      have ih2 := ih (some (val y)) (List.nodup_cons.mp hnd).2 j x hx2
      have hmem : x ∈ isoL val p (y :: r) ↔ x ∈ isoL val (some (val y)) r := by
        simp only [isoL]
        split
        · rfl
        · simp [hxy]
      rw [hmem, ih2]
      simp only [Nat.add_sub_cancel, List.getElem?_cons_succ, Nat.succ_ne_zero, if_false]
      cases j with
      | zero => simp
      | succ j2 => simp

/-- C19: on a well-formed queue with at least two nodes, sorted or not,
`q_delete_dup` returns `true` and keeps, in their order, exactly the nodes whose
value differs from the value of the node before (if there is one) and from the
value of the node after (if there is one); the nodes it removes are those that
have a neighbour of equal value, that is the nodes of the runs of two or more
adjacent equal values. -/
theorem q_delete_dup_runs (h : Heap) (head : Ptr) (ns : List Ptr) (fuel : Nat)
    (hc : Cyc h head ns) (h2 : 2 ≤ ns.length) (hf : ns.length < fuel) :
    ∃ g ns2, q_delete_dup fuel h head = some (true, g) ∧ Cyc g head ns2 ∧ g.value = h.value ∧
      ns2.Sublist ns ∧
      ∀ (i : Nat) (x : Ptr), ns[i]? = some x →
        (x ∈ ns2 ↔ (i = 0 ∨ ns[i - 1]?.map h.value ≠ some (h.value x)) ∧
          ns[i + 1]?.map h.value ≠ some (h.value x)) := by
  obtain ⟨g, e1, hc2, hv⟩ := q_delete_dup_correct hc h2 fuel hf
  rw [ddL_false_eq_isoL] at hc2
  refine ⟨g, _, e1, hc2, hv, isoL_sublist _ _ _, ?_⟩
  intro i x hx
  rw [isoL_mem h.value ns none (List.nodup_cons.mp hc.1).2 i x hx]
  by_cases hi : i = 0
  · simp [hi]
  · simp [hi]

theorem q_delete_dup_runs_witness :
    (Cyc (queueOf [[2], [2], [1], [2]]) 1 [2, 3, 4, 5] ∧ 2 ≤ [2, 3, 4, 5].length) ∧
    ∃ g ns2, q_delete_dup 5 (queueOf [[2], [2], [1], [2]]) 1 = some (true, g) ∧ Cyc g 1 ns2 ∧
      g.value = (queueOf [[2], [2], [1], [2]]).value ∧ ns2.Sublist [2, 3, 4, 5] ∧
      ∀ (i : Nat) (x : Ptr), [2, 3, 4, 5][i]? = some x →
        (x ∈ ns2 ↔
          (i = 0 ∨ [2, 3, 4, 5][i - 1]?.map (queueOf [[2], [2], [1], [2]]).value ≠
            some ((queueOf [[2], [2], [1], [2]]).value x)) ∧
          [2, 3, 4, 5][i + 1]?.map (queueOf [[2], [2], [1], [2]]).value ≠
            some ((queueOf [[2], [2], [1], [2]]).value x)) :=
  ⟨⟨by decide!, by decide⟩,
    q_delete_dup_runs _ 1 [2, 3, 4, 5] 5 (by decide!) (by decide) (by decide)⟩

/-- Where the slow/fast loop of `divide_list` cuts a chain of at least two
nodes. -/
theorem divide_list_cut {h : Heap} {p : Ptr} {ns : List Ptr} (fuel : Nat)
    (hl : lseg h.next p ns 0) (hnd : ns.Nodup) (hnz : ∀ n ∈ ns, n ≠ 0) (h2 : 2 ≤ ns.length)
    (hf : ns.length < fuel) :
    ∃ slow, divide_list_loop fuel h (h.next p) p = some slow ∧
      lseg (h.setNext slow 0).next p (ns.take ((ns.length + 1) / 2)) 0 ∧
      lseg (h.setNext slow 0).next (h.next slow) (ns.drop ((ns.length + 1) / 2)) 0 := by
  obtain ⟨x, y, rest, rfl⟩ : ∃ x y rest, ns = x :: y :: rest := by
    match ns, h2 with
    | [], hs => simp at hs
    | [_], hs => simp at hs
    | x :: y :: rest, _ => exact ⟨x, y, rest, rfl⟩
  have hl0 := hl
  obtain ⟨rfl, hl1⟩ := hl
  set ns := p :: y :: rest with hns
  set k := (y :: rest).length / 2 with hk
  have hm : (ns.length + 1) / 2 = k + 1 := by
    simp only [hns, hk, List.length_cons]; omega
  have hkn : k < ns.length := by
    simp only [hns, hk, List.length_cons]; omega
  obtain ⟨slow2, s1, s2⟩ := divide_list_loop_correct h fuel (y :: rest) ns p (h.next p)
    hl0 hl1 (fun n hn => hnz n (List.mem_cons_of_mem _ hn))
    (by rw [← hk]; omega) (by rw [← hk]; exact hkn)
  rw [← hk] at s2
  obtain ⟨T, hT⟩ : ∃ T, ns.drop k = slow2 :: T := by
    cases hd : ns.drop k with
    | nil =>
      have := List.drop_eq_nil_iff.mp hd
      omega
    | cons z T =>
      rw [hd] at s2
      exact ⟨T, by rw [s2.1]⟩
  rw [hT] at s2
  have hsplit : ns = ns.take k ++ slow2 :: T := by
    rw [← hT, List.take_append_drop]
  have hAk : (ns.take k).length = k := by
    rw [List.length_take]; omega
  obtain ⟨t1, t2⟩ := take_drop_of_split (T := T) (x := slow2) hAk
  rw [← hsplit] at t1 t2
  have hnd2 : (ns.take k ++ slow2 :: T).Nodup := by rw [← hsplit]; exact hnd
  have hsA : slow2 ∉ ns.take k := fun hmem =>
    (List.nodup_append.mp hnd2).2.2 hmem (List.mem_cons_self _ _)
  have hsT : slow2 ∉ T := (List.nodup_cons.mp (List.nodup_append.mp hnd2).2.1).1
  refine ⟨slow2, s1, ?_, ?_⟩
  · rw [hm, t1, lseg_append]
    have := hl0
    rw [hsplit, lseg_append] at this
    obtain ⟨m, a1, a2⟩ := this
    have hm2 : m = slow2 := a2.1
    subst hm2
    exact ⟨m, (lseg_update hsA _ _ _).mpr a1, rfl, by simp⟩
  · rw [hm, t2]
    exact (lseg_update hsT _ _ _).mpr s2.2

/-- C20: on a null-terminated chain of `n >= 2` distinct nodes the slow/fast
loop of `divide_list` returns, and cutting after the node it returns leaves a
left chain of the first `(n + 1) / 2` nodes (the ceiling of `n / 2`) and a right
chain of the other `n / 2` nodes, both non-empty and shorter than `n`;
`divide_list` returns on every such chain and `q_sort` on every well-formed
queue. -/
theorem divide_list_halves (h : Heap) (p : Ptr) (ns : List Ptr) (fuel : Nat)
    (hl : lseg h.next p ns 0) (hnd : ns.Nodup) (hnz : ∀ n ∈ ns, n ≠ 0) (h2 : 2 ≤ ns.length)
    (hf : ns.length < fuel) :
    (∃ slow, divide_list_loop fuel h (h.next p) p = some slow ∧
      lseg (h.setNext slow 0).next p (ns.take ((ns.length + 1) / 2)) 0 ∧
      lseg (h.setNext slow 0).next (h.next slow) (ns.drop ((ns.length + 1) / 2)) 0) ∧
    (ns.take ((ns.length + 1) / 2)).length = (ns.length + 1) / 2 ∧
    (ns.drop ((ns.length + 1) / 2)).length = ns.length / 2 ∧
    (ns.length + 1) / 2 = ns.length / 2 + ns.length % 2 ∧
    (0 < (ns.length + 1) / 2 ∧ (ns.length + 1) / 2 < ns.length ∧
      0 < ns.length / 2 ∧ ns.length / 2 < ns.length) ∧
    (∃ r g, divide_list fuel h p = some (r, g)) ∧
    (∀ (hq : Heap) (head : Ptr) (nq : List Ptr) (fq : Nat), Cyc hq head nq → nq.length < fq →
      ∃ g, q_sort fq hq head = some g) := by
  refine ⟨divide_list_cut fuel hl hnd hnz h2 hf, ?_, ?_, ?_, ?_, ?_, ?_⟩
  · rw [List.length_take]; omega
  · rw [List.length_drop]; omega
  · omega
  · omega
  · obtain ⟨g, r, e, _⟩ := divide_list_correct fuel h p ns hl hnd hnz hf
    exact ⟨r, g, e⟩
  · intro hq head nq fq hc hfq
    obtain ⟨g, e, _⟩ := q_sort_correct hc fq hfq
    exact ⟨g, e⟩

theorem divide_list_halves_witness :
    (lseg fiveChain.next 1 [1, 2, 3, 4, 5] 0 ∧ [1, 2, 3, 4, 5].Nodup ∧
      (∀ n ∈ [1, 2, 3, 4, 5], n ≠ 0) ∧ 2 ≤ [1, 2, 3, 4, 5].length ∧
      [1, 2, 3, 4, 5].length < 6) ∧
    (∃ slow, divide_list_loop 6 fiveChain (fiveChain.next 1) 1 = some slow ∧
      lseg (fiveChain.setNext slow 0).next 1
        ([1, 2, 3, 4, 5].take (([1, 2, 3, 4, 5].length + 1) / 2)) 0 ∧
      lseg (fiveChain.setNext slow 0).next (fiveChain.next slow)
        ([1, 2, 3, 4, 5].drop (([1, 2, 3, 4, 5].length + 1) / 2)) 0) ∧
    ([1, 2, 3, 4, 5].take (([1, 2, 3, 4, 5].length + 1) / 2)).length =
      ([1, 2, 3, 4, 5].length + 1) / 2 ∧
    ([1, 2, 3, 4, 5].drop (([1, 2, 3, 4, 5].length + 1) / 2)).length =
      [1, 2, 3, 4, 5].length / 2 ∧
    ([1, 2, 3, 4, 5].length + 1) / 2 = [1, 2, 3, 4, 5].length / 2 + [1, 2, 3, 4, 5].length % 2 ∧
    (0 < ([1, 2, 3, 4, 5].length + 1) / 2 ∧
      ([1, 2, 3, 4, 5].length + 1) / 2 < [1, 2, 3, 4, 5].length ∧
      0 < [1, 2, 3, 4, 5].length / 2 ∧ [1, 2, 3, 4, 5].length / 2 < [1, 2, 3, 4, 5].length) ∧
    (∃ r g, divide_list 6 fiveChain 1 = some (r, g)) ∧
    (∀ (hq : Heap) (head : Ptr) (nq : List Ptr) (fq : Nat), Cyc hq head nq → nq.length < fq →
      ∃ g, q_sort fq hq head = some g) :=
  ⟨⟨by decide, by decide, by decide, by decide, by decide⟩,
    divide_list_halves fiveChain 1 [1, 2, 3, 4, 5] 6 (by decide) (by decide) (by decide)
      (by decide) (by decide)⟩

end Queue
